import Mathlib

/-!
# Sippy: job-result aggregation

A shallow embedding of `pkg/util/utils.go` and
`pkg/testgridanalysis/testreportconversion/jobresult.go`.

* Go `int` is a 64-bit two's-complement integer.  It is embedded as `ℤ`, and every
  `+`, `-`, `*` and `++` of the source is followed by `wrap64`.
* Go `float64` is embedded by the exact rational value of the floating-point number.
  Every floating-point operation of the source is the exact operation followed by
  `F64.round`, the IEEE 754 round-to-nearest, ties-to-even rounding onto the binary64
  grid (53 significant bits, least exponent `-1074`).  The two zeros are identified.
  Infinities and NaN are not represented: `Percent`, the only producer of floats, guards
  its division against a zero divisor (`ofInt_ne_zero`) and its operands come from 64-bit
  integers, so the magnitudes stay far below `2^1024` (`Percent_abs_le`).  A float that
  is read from the input (a fail percentage) is a number.
* A Go `map` that is only read by key is a total lookup function returning the zero
  value on a missing key.  A Go `map` that is ranged over is the list of its entries in
  the order in which the runtime enumerates them.  A Go `map` that is read with the
  presence test and written is either nil or a function from the key to the value, if
  present; where a struct holds the map, it holds a reference into a heap of such
  functions, so that two structs can hold the same map.
* A run-time panic (index out of range, division by zero, write to the nil map) is the
  result `none`.
-/

namespace Sippy

/-! ## Machine integers -/

/-- Reduction of an integer to the 64-bit two's-complement range `[-2^63, 2^63)`. -/
def wrap64 (x : ℤ) : ℤ := (x + 2 ^ 63) % 2 ^ 64 - 2 ^ 63

/-! ## binary64 rounding -/

namespace F64

/-- Fuel-driven worker of `natLog2`. -/
def log2Aux : ℕ → ℕ → ℕ
  | 0, _ => 0
  | fuel + 1, n => if n < 2 then 0 else log2Aux fuel (n / 2) + 1

/-- Position of the highest set bit of `n` (`0` for `n = 0`). -/
def natLog2 (n : ℕ) : ℕ := log2Aux n n

/-- Binade of a positive rational `q`: the `e` with `2^e ≤ q < 2^(e+1)`. -/
def ilog2 (q : ℚ) : ℤ :=
  let e0 : ℤ := (natLog2 q.num.natAbs : ℤ) - (natLog2 q.den : ℤ)
  if (2 : ℚ) ^ e0 ≤ q then e0 else e0 - 1

/-- Nearest integer to `x`, a tie going to the even neighbour. -/
def rne (x : ℚ) : ℤ :=
  let f := ⌊x⌋
  let r := x - f
  if r < 1 / 2 then f
  else if 1 / 2 < r then f + 1
  else if f % 2 = 0 then f
  else f + 1

/-- Exponent of the unit in the last place of the binade of a positive rational `a`:
53 significant bits, and no finer than the subnormal spacing `2^(-1074)`. -/
def ulpExp (a : ℚ) : ℤ := max (ilog2 a - 52) (-1074)

/-- IEEE 754 round-to-nearest, ties-to-even, onto the binary64 grid. -/
def round (q : ℚ) : ℚ :=
  if q = 0 then 0
  else if 0 < q then (rne (q / 2 ^ ulpExp q) : ℚ) * 2 ^ ulpExp q
  else -((rne (-q / 2 ^ ulpExp (-q)) : ℚ) * 2 ^ ulpExp (-q))

/-- Go conversion `float64(n)` of an `int`. -/
def ofInt (n : ℤ) : ℚ := round n

/-- Go `a / b` on `float64` with a non-zero divisor. -/
def div (a b : ℚ) : ℚ := round (a / b)

/-- Go `a * b` on `float64`. -/
def mul (a b : ℚ) : ℚ := round (a * b)

end F64

/-! ## `pkg/util/utils.go` -/

/-- `Percent` of `utils.go`. -/
def Percent (success failure : ℤ) : ℚ :=
  if wrap64 (success + failure) = 0 then
    0
  else
    F64.mul (F64.div (F64.ofInt success) (F64.ofInt (wrap64 (success + failure)))) 100

/-! ## Data model

The type declarations live in `pkg/apis/sippyprocessing/v1`,
`pkg/testgridanalysis/testgridanalysisapi` and `pkg/buganalysis`, outside the sources
at hand; the structures below carry the fields the embedded functions read or write. -/

/-- Modelled from the spec: a per-test result summary (`sippyprocessingv1.TestResult`,
declared outside the sources).  Summaries are carried over verbatim and never
inspected. -/
structure TestResult where
  Name : String
deriving DecidableEq, Repr

/-- Modelled from the spec: a defect reference returned by the defect lookup (declared
outside the sources).  Only the number of references returned is ever inspected. -/
structure Bug where
  Url : String
deriving DecidableEq, Repr

/-- Modelled from the spec: the defect lookup `ListBugs(release, component, testName)`
of `buganalysis.BugCache` (declared outside the sources). -/
abbrev BugCache := String → String → String → List Bug

/-- Modelled from the spec: one executed instance of a job
(`testgridanalysisapi.RawJobRunResult`, declared outside the sources). -/
structure RawJobRunResult where
  Failed : Bool := false
  Succeeded : Bool := false
  FailedTestNames : List String := []
deriving DecidableEq, Repr

/-- Modelled from the spec: one job definition with its runs, in the order in which the
conversion loop enumerates them (`testgridanalysisapi.RawJobResult`, declared outside
the sources). -/
structure RawJobResult where
  JobName : String := ""
  TestGridJobUrl : String := ""
  JobRunResults : List RawJobRunResult := []
deriving DecidableEq, Repr

/-- Modelled from the spec: the aggregated job entity (`sippyprocessingv1.JobResult`,
declared outside the sources).  The default of every field is the Go zero value. -/
structure JobResult where
  Name : String := ""
  Platform : String := ""
  TestGridUrl : String := ""
  Successes : ℤ := 0
  Failures : ℤ := 0
  KnownFailures : ℤ := 0
  PassPercentage : ℚ := 0
  PassPercentageWithKnownFailures : ℚ := 0
  TestResults : List TestResult := []
deriving DecidableEq

/-- Go `sort.Stable` from the standard library, by its documented contract: the data is
put in ascending order as determined by `less` while elements that `less` does not
separate keep their original order.  Rendered as a stable insertion sort: an element is
placed in front of the first element of the sorted remainder that is not `less` than
it. -/
def sortStable {α : Type} (less : α → α → Bool) (l : List α) : List α :=
  List.insertionSort (fun a b => less b a = false) l

/-! ## `pkg/testgridanalysis/testreportconversion/jobresult.go` -/

/-- Modelled from the spec: the package-local helper `percent` of
`testreportconversion` is declared outside the sources; section 4.1 of the
specification gives it the contract of `Percent`. -/
def percent (success failure : ℤ) : ℚ := Percent success failure

/-- The loop of `areAllFailuresKnown`; the second argument is the variable
`allFailuresKnown`.  An unknown failure sets it to `false` and leaves the loop. -/
def areAllFailuresKnownLoop (bugCache : BugCache) (release : String) :
    List String → Bool → Bool
  | [], allFailuresKnown => allFailuresKnown
  | testName :: rest, allFailuresKnown =>
    let bugs := bugCache release "" testName
    let isKnownFailure := decide (bugs.length > 0)
    if !isKnownFailure then false
    else areAllFailuresKnownLoop bugCache release rest allFailuresKnown

/-- `areAllFailuresKnown` of `jobresult.go`. -/
def areAllFailuresKnown (rawJRR : RawJobRunResult) (bugCache : BugCache)
    (release : String) : Bool :=
  areAllFailuresKnownLoop bugCache release rawJRR.FailedTestNames true

/-- One pass of the loop body of `convertRawJobResultToProcessedJobResult`. -/
def convertRun (bugCache : BugCache) (release : String) (job : JobResult)
    (rawJRR : RawJobRunResult) : JobResult :=
  let job :=
    if rawJRR.Failed then { job with Failures := wrap64 (job.Failures + 1) }
    else if rawJRR.Succeeded then { job with Successes := wrap64 (job.Successes + 1) }
    else job
  if rawJRR.Failed && areAllFailuresKnown rawJRR bugCache release then
    { job with KnownFailures := wrap64 (job.KnownFailures + 1) }
  else job

/-- `convertRawJobResultToProcessedJobResult` of `jobresult.go`.  `byJob` is the map
read at the job name, giving the `TestResults` of the entry (empty on a missing key). -/
def convertRawJobResultToProcessedJobResult (rawJobResult : RawJobResult)
    (byJob : String → List TestResult) (bugCache : BugCache) (release : String) :
    JobResult :=
  let job : JobResult :=
    { Name := rawJobResult.JobName
      TestGridUrl := rawJobResult.TestGridJobUrl
      TestResults := byJob rawJobResult.JobName }
  let job := rawJobResult.JobRunResults.foldl (convertRun bugCache release) job
  let job := { job with PassPercentage := percent job.Successes job.Failures }
  { job with
    PassPercentageWithKnownFailures :=
      percent (wrap64 (job.Successes + job.KnownFailures))
        (wrap64 (job.Failures - job.KnownFailures)) }

/-- `jobsByPassPercentage.Less` of `jobresult.go`, on the two elements compared. -/
def jobsByPassPercentageLess (a b : JobResult) : Bool :=
  decide (a.PassPercentage < b.PassPercentage)

/-- One pass of the classification loop of `summarizeJobRunResults`: the converted job
is appended to `jobs` (first component) or to `infrequentJobs` (second component). -/
def summarizeStep (byJob : String → List TestResult) (bugCache : BugCache)
    (release : String) (numberOfDaysOfData : ℤ)
    (acc : List JobResult × List JobResult) (rawJobResult : RawJobResult) :
    List JobResult × List JobResult :=
  let job := convertRawJobResultToProcessedJobResult rawJobResult byJob bugCache release
  if wrap64 (job.Successes + job.Failures) > Int.tdiv (wrap64 (numberOfDaysOfData * 3)) 2 then
    (acc.1 ++ [job], acc.2)
  else
    (acc.1, acc.2 ++ [job])

/-- `summarizeJobRunResults` of `jobresult.go`.  `rawJobResults` is the input map as the
list of its entries (key and value) in the order in which the `range` loop enumerates
them. -/
def summarizeJobRunResults (rawJobResults : List (String × RawJobResult))
    (byJob : String → List TestResult) (bugCache : BugCache) (release : String)
    (numberOfDaysOfData : ℤ) : List JobResult × List JobResult :=
  let acc := (rawJobResults.map Prod.snd).foldl
    (summarizeStep byJob bugCache release numberOfDaysOfData) ([], [])
  (sortStable jobsByPassPercentageLess acc.1, sortStable jobsByPassPercentageLess acc.2)

/-! ## `SummarizeJobsByPlatform` of `pkg/util/utils.go` -/

/-- Modelled from the spec: one `JobsFailed` entry of a defect component
(`sippyprocessingv1.BugzillaJobResult`, declared outside the sources); only its fail
percentage, a number, is read. -/
structure BugzillaJobResult where
  FailPercentage : ℚ := 0
deriving DecidableEq

/-- Modelled from the spec: a defect component with its `JobsFailed` entries
(`sippyprocessingv1.SortedBugzillaComponentResult`, declared outside the sources). -/
structure SortedBugzillaComponentResult where
  Name : String := ""
  JobsFailed : List BugzillaJobResult := []
deriving DecidableEq

/-- Modelled from the spec: the fields of `sippyprocessingv1.TestReport` (declared
outside the sources) that the summaries read: the slice `JobResults`; the map
`ByPlatform` read at a platform, giving the `TestResults` of the entry (empty on a
missing key); and the map `JobFailuresByBugzillaComponent`, which is ranged over, as the
list of its entries in the order of enumeration. -/
structure TestReport where
  JobResults : List JobResult := []
  ByPlatform : String → List TestResult := fun _ => []
  JobFailuresByBugzillaComponent : List (String × SortedBugzillaComponentResult) := []

/-- Go map read `m[key]` on a `map[string]JobResult` held as the list of its entries: the
stored value, or the zero value when the key is absent. -/
def goMapLookup (m : List (String × JobResult)) (key : String) : JobResult :=
  (m.lookup key).getD {}

/-- Go map write `m[key] = v`: the value of an existing key is replaced, a new key gets
a new entry. -/
def goMapStore : List (String × JobResult) → String → JobResult → List (String × JobResult)
  | [], key, v => [(key, v)]
  | (k, w) :: rest, key, v =>
    if k = key then (key, v) :: rest else (k, w) :: goMapStore rest key v

/-- Body of the inner loop of `SummarizeJobsByPlatform`, for one `job` and one of its
platforms. -/
def platformStep (report : TestReport) (job : JobResult)
    (jobRunsByPlatform : List (String × JobResult)) (platform : String) :
    List (String × JobResult) :=
  let j := goMapLookup jobRunsByPlatform platform
  let j := { j with Name := platform }
  let j := { j with Platform := platform }
  let j := { j with Successes := wrap64 (j.Successes + job.Successes) }
  let j := { j with Failures := wrap64 (j.Failures + job.Failures) }
  let j := { j with KnownFailures := wrap64 (j.KnownFailures + job.KnownFailures) }
  let j := { j with TestResults := report.ByPlatform platform }
  goMapStore jobRunsByPlatform platform j

/-- The first loop of `SummarizeJobsByPlatform`: the map `jobRunsByPlatform` after all
jobs of the report.  `FindPlatform` is the name-to-platform classifier
`testidentification.FindPlatform`, declared outside the sources. -/
def accumulateByPlatform (FindPlatform : String → List String) (report : TestReport) :
    List (String × JobResult) :=
  report.JobResults.foldl
    (fun jobRunsByPlatform job =>
      (FindPlatform job.Name).foldl (platformStep report job) jobRunsByPlatform)
    []

/-- Body of the second loop of `SummarizeJobsByPlatform`: the two percentages of one
platform entry. -/
def platformPercentages (platform : JobResult) : JobResult :=
  let platform :=
    { platform with PassPercentage := Percent platform.Successes platform.Failures }
  { platform with
    PassPercentageWithKnownFailures :=
      Percent (wrap64 (platform.Successes + platform.KnownFailures))
        (wrap64 (platform.Failures - platform.KnownFailures)) }

/-- `SummarizeJobsByPlatform` of `utils.go`.  `rangeOrder` gives the order in which the
runtime enumerates the entries of the map `jobRunsByPlatform` in the second loop. -/
def SummarizeJobsByPlatform (FindPlatform : String → List String)
    (rangeOrder : List (String × JobResult) → List (String × JobResult))
    (report : TestReport) : List JobResult :=
  let jobRunsByPlatform := accumulateByPlatform FindPlatform report
  let platformResults := (rangeOrder jobRunsByPlatform).foldl
    (fun platformResults entry => platformResults ++ [platformPercentages entry.2]) []
  sortStable (fun a b => decide (a.PassPercentage < b.PassPercentage)) platformResults

/-! ## Notions used in the statements -/

/-- The entry stored for `platform` by one pass of the inner loop, from the entry `j`
read from the map. -/
def platformEntry (report : TestReport) (job : JobResult) (platform : String)
    (j : JobResult) : JobResult :=
  { j with
    Name := platform
    Platform := platform
    Successes := wrap64 (j.Successes + job.Successes)
    Failures := wrap64 (j.Failures + job.Failures)
    KnownFailures := wrap64 (j.KnownFailures + job.KnownFailures)
    TestResults := report.ByPlatform platform }

/-- Sum of a count field over those of the `jobs` whose platform tags contain `tag`. -/
def platformSum (FindPlatform : String → List String) (jobs : List JobResult)
    (tag : String) (field : JobResult → ℤ) : ℤ :=
  ((jobs.filter (fun job => decide (tag ∈ FindPlatform job.Name))).map field).sum

/-- Sum of a count field over the `jobs`, each job taken once for every occurrence of
`tag` in its list of platform tags. -/
def platformCountedSum (FindPlatform : String → List String) (jobs : List JobResult)
    (tag : String) (field : JobResult → ℤ) : ℤ :=
  (jobs.map (fun job => ((FindPlatform job.Name).count tag : ℤ) * field job)).sum

/-- Invariant of the outer loop of `SummarizeJobsByPlatform` after the jobs `js`. -/
def PlatformInv (FindPlatform : String → List String) (m : List (String × JobResult))
    (js : List JobResult) : Prop :=
  (m.map Prod.fst).Nodup ∧
  (∀ k, k ∈ m.map Prod.fst ↔ ∃ job ∈ js, k ∈ FindPlatform job.Name) ∧
  (∀ k ∈ m.map Prod.fst, (goMapLookup m k).Name = k ∧ (goMapLookup m k).Platform = k) ∧
  (∀ k, (goMapLookup m k).Successes =
      wrap64 (platformCountedSum FindPlatform js k (fun job => job.Successes)) ∧
    (goMapLookup m k).Failures =
      wrap64 (platformCountedSum FindPlatform js k (fun job => job.Failures)) ∧
    (goMapLookup m k).KnownFailures =
      wrap64 (platformCountedSum FindPlatform js k (fun job => job.KnownFailures)))

/-! ## Sample data -/

/-- A defect lookup that knows exactly one test, `"known-test"`, in every release. -/
def sampleBugCache : BugCache := fun _ _ testName =>
  if testName = "known-test" then [{ Url := "https://bugzilla.redhat.com/show_bug.cgi?id=1" }]
  else []

/-- Ten runs: seven successes, two failures whose failed tests are all known (one of
them lists no failed test at all) and one failure with an unknown failed test. -/
def sampleRuns : List RawJobRunResult :=
  List.replicate 7 ({ Succeeded := true } : RawJobRunResult) ++
    [{ Failed := true, FailedTestNames := ["known-test"] },
     { Failed := true, FailedTestNames := [] },
     { Failed := true, FailedTestNames := ["known-test", "unknown-test"] }]

/-- A job `J` with the runs of `sampleRuns`. -/
def sampleRawJob : RawJobResult := { JobName := "J", JobRunResults := sampleRuns }

/-- A job with a single run that carries both the `Failed` and the `Succeeded` flag. -/
def bothFlagsRawJob : RawJobResult :=
  { JobName := "both", JobRunResults := [{ Failed := true, Succeeded := true }] }

/-- Two jobs, `A` and `B`, each with a single successful run: equal pass percentages. -/
def tiedRawJobs : List (String × RawJobResult) :=
  [("A", { JobName := "A", JobRunResults := [{ Succeeded := true }] }),
   ("B", { JobName := "B", JobRunResults := [{ Succeeded := true }] })]

/-- Three jobs of one map: `J` (7 of 10 runs passed), `low` (its single run failed) and
`idle` (no run at all). -/
def sampleRawJobs : List (String × RawJobResult) :=
  [("J", sampleRawJob),
   ("low", { JobName := "low", JobRunResults := [{ Failed := true }] }),
   ("idle", { JobName := "idle" })]

/-- A classifier on three job names: `"e2e-aws"` runs on `aws`, `"e2e-metal"` on `metal`,
`"e2e-aws-metal"` on both; any other name has no platform. -/
def sampleFindPlatform (name : String) : List String :=
  if name = "e2e-aws" then ["aws"]
  else if name = "e2e-metal" then ["metal"]
  else if name = "e2e-aws-metal" then ["aws", "metal"]
  else []

/-- A report with one job per name known to `sampleFindPlatform`. -/
def sampleReport : TestReport :=
  { JobResults :=
      [{ Name := "e2e-aws", Successes := 7, Failures := 3, KnownFailures := 2 },
       { Name := "e2e-aws-metal", Successes := 1, Failures := 4, KnownFailures := 1 },
       { Name := "e2e-metal", Successes := 5, Failures := 0, KnownFailures := 0 }] }

/-- A classifier whose tag list repeats a tag: `aws` twice, for every job name. -/
def repeatedTagFindPlatform (_name : String) : List String := ["aws", "aws"]

/-- A report with a single job. -/
def repeatedTagReport : TestReport :=
  { JobResults := [{ Name := "e2e-aws", Successes := 3, Failures := 1, KnownFailures := 1 }] }

/-! ## `ComputeFailureGroupStats` of `pkg/util/utils.go` -/

/-- Modelled from the spec: a group of failures of one run
(`sippyprocessingv1.JobRunResult`, declared outside the sources); `TestFailures` is the
only field `ComputeFailureGroupStats` reads. -/
structure JobRunResult where
  TestFailures : ℤ := 0
deriving DecidableEq, Repr

/-- Go `a / b` on `int`: the quotient truncated towards zero, a run-time panic (`none`)
on a zero divisor. -/
def goDiv (a b : ℤ) : Option ℤ :=
  if b = 0 then none else some (wrap64 (Int.tdiv a b))

/-- One of the two summing loops of `ComputeFailureGroupStats`. -/
def sumTestFailures (groups : List JobRunResult) : ℤ :=
  groups.foldl (fun count group => wrap64 (count + group.TestFailures)) 0

/-- `ComputeFailureGroupStats` of `utils.go`.  The result is
`(count, countPrev, median, medianPrev, avg, avgPrev)`; `none` stands for a run-time
panic (index out of range, division by zero). -/
def ComputeFailureGroupStats (failureGroups failureGroupsPrev : List JobRunResult) :
    Option (ℤ × ℤ × ℤ × ℤ × ℤ × ℤ) := do
  let count := sumTestFailures failureGroups
  let countPrev := sumTestFailures failureGroupsPrev
  let (median, avg) ←
    if failureGroups.length ≠ 0 then do
      let group ← failureGroups[failureGroups.length / 2]?
      let avg ← goDiv count failureGroups.length
      pure (group.TestFailures, avg)
    else pure (0, 0)
  let (medianPrev, avgPrev) ←
    if failureGroupsPrev.length ≠ 0 then do
      let group ← failureGroupsPrev[failureGroupsPrev.length / 2]?
      let avgPrev ← goDiv count failureGroupsPrev.length
      pure (group.TestFailures, avgPrev)
    else pure (0, 0)
  pure (count, countPrev, median, medianPrev, avg, avgPrev)

/-! ## `areAllFailuresKnown` with its lookups recorded -/

/-- The loop of `areAllFailuresKnown`, returning next to the value of `allFailuresKnown`
the arguments `(release, component, testName)` of the calls to `ListBugs` it makes, in
the order of the calls. -/
def areAllFailuresKnownTrace (bugCache : BugCache) (release : String) :
    List String → Bool → Bool × List (String × String × String)
  | [], allFailuresKnown => (allFailuresKnown, [])
  | testName :: rest, allFailuresKnown =>
    let bugs := bugCache release "" testName
    let isKnownFailure := decide (bugs.length > 0)
    if !isKnownFailure then (false, [(release, "", testName)])
    else
      let r := areAllFailuresKnownTrace bugCache release rest allFailuresKnown
      (r.1, (release, "", testName) :: r.2)

/-- The calls to `ListBugs` made by `areAllFailuresKnown` on a run. -/
def areAllFailuresKnownCalls (rawJRR : RawJobRunResult) (bugCache : BugCache)
    (release : String) : List (String × String × String) :=
  (areAllFailuresKnownTrace bugCache release rawJRR.FailedTestNames true).2

/-- A failed run whose second failed test is unknown to `sampleBugCache`. -/
def shortCircuitRun : RawJobRunResult :=
  { Failed := true, FailedTestNames := ["known-test", "unknown-test", "known-test"] }

/-! ## `AddTestResult` of `pkg/util/utils.go`

A Go map is a reference: a struct that holds a map holds a reference to it, two structs
may hold the same map, the zero value of a map type is the nil map, which can be read
(every key is absent) but not written (a run-time panic), and `make` allocates a map that
no other reference reaches.  `AddTestResult` reads and writes the inner maps
`RawTestResults` through the struct values stored in `categories`, so the inner maps are
embedded as a heap: a reference is a number, and the state gives the contents of every
map and the number of maps allocated so far, which is the reference `make` returns next.
The outer map `categories` is either nil or its contents, a function from the key to the
value if the key is present.  A panic is `none`. -/

/-- Modelled from the spec: the cumulative counts of one test
(`testgridanalysisapi.RawTestResult`, declared outside the sources).  The default of
every field is the Go zero value. -/
structure RawTestResult where
  Name : String := ""
  Successes : ℤ := 0
  Failures : ℤ := 0
  Flakes : ℤ := 0
deriving DecidableEq, Repr

/-- Modelled from the spec: the test results of one category
(`testgridanalysisapi.AggregateTestsResult`, declared outside the sources): its field
`RawTestResults`, a map from the test name to its `RawTestResult`, held by reference;
`none` is the nil map, the zero value of the field. -/
structure AggregateTestsResult where
  RawTestResults : Option ℕ := none
deriving DecidableEq, Repr

/-- The maps that `AddTestResult` reads and writes: the map `categories` (`none` is the
nil map), the contents of the inner map at every reference, and the number of inner maps
allocated so far. -/
structure CategoriesState where
  categories : Option (String → Option AggregateTestsResult) := none
  maps : ℕ → String → Option RawTestResult := fun _ _ => none
  allocated : ℕ := 0

/-- Go map read `categories[categoryKey]` with the presence test: the stored struct, or
`none` when the key is absent or the map is nil. -/
def categoryAt (state : CategoriesState) (categoryKey : String) :
    Option AggregateTestsResult :=
  state.categories.bind (fun entries => entries categoryKey)

/-- `AddTestResult` of `utils.go`; the result is the state of the maps after the call,
`none` if the call panics. -/
def AddTestResult (categoryKey : String) (state : CategoriesState) (testName : String)
    (passed failed flaked : ℤ) : Option CategoriesState :=
  -- `category, ok := categories[categoryKey]`, and `make` when `!ok`
  let found : AggregateTestsResult × CategoriesState :=
    match categoryAt state categoryKey with
    | some category => (category, state)
    | none =>
      ({ RawTestResults := some state.allocated },
       { state with
         maps := Function.update state.maps state.allocated (fun _ => none)
         allocated := state.allocated + 1 })
  let category := found.1
  let state := found.2
  -- `result, ok := category.RawTestResults[testName]`, the zero value when `!ok`
  let result : RawTestResult :=
    match category.RawTestResults with
    | some ref => (state.maps ref testName).getD {}
    | none => {}
  let result := { result with Name := testName }
  let result := { result with Successes := wrap64 (result.Successes + passed) }
  let result := { result with Failures := wrap64 (result.Failures + failed) }
  let result := { result with Flakes := wrap64 (result.Flakes + flaked) }
  -- `category.RawTestResults[testName] = result`
  match category.RawTestResults with
  | none => none
  | some ref =>
    let state :=
      { state with
        maps := Function.update state.maps ref
          (Function.update (state.maps ref) testName (some result)) }
    -- `categories[categoryKey] = category`
    match state.categories with
    | none => none
    | some entries =>
      some { state with
             categories := some (Function.update entries categoryKey (some category)) }

/-- The inner map held by the category `categoryKey`, if the category is present and its
map is not nil. -/
def categoryRef (state : CategoriesState) (categoryKey : String) : Option ℕ :=
  (categoryAt state categoryKey).bind (fun category => category.RawTestResults)

/-- The entry of `testName` in the category `categoryKey`, if there is one. -/
def testEntry (state : CategoriesState) (categoryKey testName : String) :
    Option RawTestResult :=
  (categoryRef state categoryKey).bind (fun ref => state.maps ref testName)

/-- The counts of `testName` in the category `categoryKey`: those of its entry, all zero
when the category or the test is absent. -/
def testCounts (state : CategoriesState) (categoryKey testName : String) : RawTestResult :=
  (testEntry state categoryKey testName).getD {}

/-- Every inner map held by a category has been allocated, as in every state of a Go
program, where a map other than nil comes from `make`. -/
def Allocated (state : CategoriesState) : Prop :=
  ∀ key ref, categoryRef state key = some ref → ref < state.allocated

/-- A map of categories as `AddTestResult` builds it from a map made empty: the map is
not nil, and every category holds an allocated map, not nil, that no other category
holds. -/
def OwnMaps (state : CategoriesState) : Prop :=
  state.categories ≠ none ∧
  (∀ key category, categoryAt state key = some category → category.RawTestResults ≠ none) ∧
  Allocated state ∧
  (∀ key other ref, key ≠ other → categoryRef state key = some ref →
    categoryRef state other ≠ some ref)

/-- A map of categories with one category, `"all"`, holding one test, `"t"`, with 2
successes, 1 failure and no flake. -/
def sampleCategories : CategoriesState :=
  { categories := some (fun key => if key = "all" then some { RawTestResults := some 0 }
      else none)
    maps := fun ref name =>
      if ref = 0 ∧ name = "t" then some { Name := "t", Successes := 2, Failures := 1 }
      else none
    allocated := 1 }

/-- A map of categories whose only category, `"all"`, holds the nil map. -/
def nilMapCategories : CategoriesState :=
  { categories := some (fun key => if key = "all" then some { RawTestResults := none }
      else none) }

/-- The nil map of categories. -/
def nilCategories : CategoriesState := {}

/-- A map of categories in which `"all"` and `"aws"` hold the same map, with one test,
`"t"`, with 2 successes, 1 failure and no flake. -/
def sharedMapCategories : CategoriesState :=
  { categories := some (fun key =>
      if key = "all" ∨ key = "aws" then some { RawTestResults := some 0 } else none)
    maps := fun ref name =>
      if ref = 0 ∧ name = "t" then some { Name := "t", Successes := 2, Failures := 1 }
      else none
    allocated := 1 }

/-! ## `ComputeLookback` of `pkg/util/utils.go`

The standard library's `time` package is taken by its contract.  A reading of the clock
is the number of nanoseconds since the Unix epoch; `Add` adds a duration in nanoseconds,
`Unix` gives the whole seconds since the epoch.  The function reads the clock twice, once
for each cut-off. -/

/-- Go `math.MaxInt32`, the initial value of `start`. -/
def MaxInt32 : ℤ := 2147483647

/-- The cut-off `time.Now().Add(time.Duration(-1*days*24)*time.Hour).Unix() * 1000` for
the clock reading `now`: a timestamp in milliseconds. -/
def lookbackCutoff (now days : ℤ) : ℤ :=
  let duration := wrap64 (wrap64 (wrap64 (-1 * days) * 24) * 3600000000000)
  wrap64 ((now + duration) / 1000000000 * 1000)

/-- The loop of `ComputeLookback` from index `i` on, with the current value of `start`,
over the timestamps not yet visited.  An index whose timestamp is older than `stopTs`
returns at once; when the timestamps are used up, `i` is `len(timestamps)`. -/
def lookbackLoop (startTs stopTs : ℤ) : List ℤ → ℤ → ℤ → ℤ × ℤ
  | [], i, start => (start, i)
  | t :: rest, i, start =>
    let start := if t < startTs ∧ i < start then i else start
    if t < stopTs then (start, i)
    else lookbackLoop startTs stopTs rest (i + 1) start

/-- `ComputeLookback` of `utils.go`, for the clock readings `nowStop` (first call of
`time.Now`) and `nowStart` (second call). -/
def ComputeLookback (nowStop nowStart : ℤ) (startday lookback : ℤ) (timestamps : List ℤ) :
    ℤ × ℤ :=
  let stopTs := lookbackCutoff nowStop lookback
  let startTs := lookbackCutoff nowStart startday
  let start := MaxInt32
  lookbackLoop startTs stopTs timestamps 0 start

/-- A clock reading: 2020-09-13 12:26:40.5 UTC, in nanoseconds since the epoch. -/
def sampleNow : ℤ := 1600000000500000000

/-- One timestamp per day, in milliseconds, at `sampleNow - k days - 1 hour` for
`k = 0..9`. -/
def sampleTimestamps : List ℤ :=
  (List.range 10).map (fun k => 1600000000500 - (k : ℤ) * 86400000 - 3600000)

/-! ## `SummarizeJobsFailuresByBugzillaComponent` of `pkg/util/utils.go` -/

/-- The comparison closure of `SummarizeJobsFailuresByBugzillaComponent` on the two
elements compared; `none` stands for the run-time panic of `JobsFailed[0]` on an empty
slice.  `ToLower` is `strings.ToLower` of the standard library; `strings.Compare(a, b) < 0`
is the order of the strings by bytes, which for text is the order by code points. -/
def bugzillaLess (ToLower : String → String) (a b : SortedBugzillaComponentResult) :
    Option Bool := do
  let x ← a.JobsFailed[0]?
  let y ← b.JobsFailed[0]?
  if x.FailPercentage > y.FailPercentage then
    pure true
  else if x.FailPercentage < y.FailPercentage then
    pure false
  else if ToLower a.Name < ToLower b.Name then
    pure true
  else
    pure false

/-- Insertion step of `sortStableM`. -/
def insertStableM {α : Type} (less : α → α → Option Bool) (a : α) :
    List α → Option (List α)
  | [] => some [a]
  | b :: l => do
    if ← less b a then
      let l ← insertStableM less a l
      pure (b :: l)
    else
      pure (a :: b :: l)

/-- Go `sort.SliceStable` with a comparison that can panic: the stable insertion sort of
`sortStable`, `none` as soon as a comparison panics. -/
def sortStableM {α : Type} (less : α → α → Option Bool) : List α → Option (List α)
  | [] => some []
  | a :: l => do
    let l ← sortStableM less l
    insertStableM less a l

/-- `SummarizeJobsFailuresByBugzillaComponent` of `utils.go`; `none` stands for a
run-time panic. -/
def SummarizeJobsFailuresByBugzillaComponent (ToLower : String → String)
    (report : TestReport) : Option (List SortedBugzillaComponentResult) :=
  let bzComponentResults := report.JobFailuresByBugzillaComponent.foldl
    (fun bzComponentResults entry => bzComponentResults ++ [entry.2]) []
  sortStableM (bugzillaLess ToLower) bzComponentResults

/-- The fail percentage of the first `JobsFailed` entry (`0` when there is none). -/
def firstFailPercentage (c : SortedBugzillaComponentResult) : ℚ :=
  ((c.JobsFailed[0]?).map (fun x => x.FailPercentage)).getD 0

/-- The comparison of `SummarizeJobsFailuresByBugzillaComponent` on components with a
first `JobsFailed` entry. -/
def bugzillaLessTotal (ToLower : String → String) (a b : SortedBugzillaComponentResult) :
    Bool :=
  decide (firstFailPercentage a > firstFailPercentage b) ||
    (!decide (firstFailPercentage a < firstFailPercentage b) &&
      decide (ToLower a.Name < ToLower b.Name))

/-- A report with four defect components: fail rates 60, 80, 60 and 60 percent. -/
def sampleBugzillaReport : TestReport :=
  { JobFailuresByBugzillaComponent :=
      [("XYZ", { Name := "XYZ", JobsFailed := [{ FailPercentage := 60 }] }),
       ("A", { Name := "A", JobsFailed := [{ FailPercentage := 80 }, { FailPercentage := 5 }] }),
       ("abc", { Name := "abc", JobsFailed := [{ FailPercentage := 60 }] }),
       ("B", { Name := "B", JobsFailed := [{ FailPercentage := 60 }] })] }

/-! ## Theorems -/

theorem wrap64_of_range {x : ℤ} (h1 : -2 ^ 63 ≤ x) (h2 : x < 2 ^ 63) : wrap64 x = x := by
  unfold wrap64
  norm_num at h1 h2 ⊢
  omega

theorem wrap64_zero : wrap64 0 = 0 := by decide

/-! ### binary64 rounding: binades, nearest integers, monotonicity -/

namespace F64

theorem log2Aux_spec : ∀ (fuel n : ℕ), 1 ≤ n → n ≤ fuel →
    2 ^ log2Aux fuel n ≤ n ∧ n < 2 ^ (log2Aux fuel n + 1) := by
  intro fuel
  induction fuel with
  | zero => intro n h1 h2; omega
  | succ fuel ih =>
    intro n h1 h2
    unfold log2Aux
    by_cases h : n < 2
    · have : n = 1 := by omega
      subst this
      simp
    · simp only [h, if_false]
      obtain ⟨a, b⟩ := ih (n / 2) (by omega) (by omega)
      constructor
      · rw [pow_succ]; omega
      · rw [pow_succ]; omega

theorem natLog2_spec (n : ℕ) (h : 1 ≤ n) :
    2 ^ natLog2 n ≤ n ∧ n < 2 ^ (natLog2 n + 1) :=
  log2Aux_spec n n h (le_refl n)

/-- Bounds on a ratio of naturals from the positions of their highest bits. -/
theorem ratio_bounds (N D a b : ℕ) (hD : 0 < D) (n1 : 2 ^ a ≤ N) (n2 : N < 2 ^ (a + 1))
    (d1 : 2 ^ b ≤ D) (d2 : D < 2 ^ (b + 1)) :
    (2 : ℚ) ^ ((a : ℤ) - (b : ℤ) - 1) ≤ (N : ℚ) / (D : ℚ) ∧
    (N : ℚ) / (D : ℚ) < (2 : ℚ) ^ ((a : ℤ) - (b : ℤ) + 1) := by
  have hdq : (0 : ℚ) < (D : ℚ) := by exact_mod_cast hD
  have n1' : (2 : ℚ) ^ a ≤ (N : ℚ) := by exact_mod_cast n1
  have n2' : (N : ℚ) < (2 : ℚ) ^ (a + 1) := by exact_mod_cast n2
  have d1' : (2 : ℚ) ^ b ≤ (D : ℚ) := by exact_mod_cast d1
  have d2' : (D : ℚ) < (2 : ℚ) ^ (b + 1) := by exact_mod_cast d2
  constructor
  · have e : (2 : ℚ) ^ ((a : ℤ) - (b : ℤ) - 1) = (2 : ℚ) ^ a / (2 : ℚ) ^ (b + 1) := by
      rw [show ((a : ℤ) - (b : ℤ) - 1) = ((a : ℕ) : ℤ) - ((b + 1 : ℕ) : ℤ) by push_cast; ring]
      rw [zpow_sub₀ (by norm_num), zpow_natCast, zpow_natCast]
    rw [e, div_le_div_iff₀ (by positivity) hdq]
    calc (2 : ℚ) ^ a * D ≤ (N : ℚ) * D := mul_le_mul_of_nonneg_right n1' hdq.le
      _ ≤ (N : ℚ) * 2 ^ (b + 1) := mul_le_mul_of_nonneg_left d2'.le (by positivity)
  · have e : (2 : ℚ) ^ ((a : ℤ) - (b : ℤ) + 1) = (2 : ℚ) ^ (a + 1) / (2 : ℚ) ^ b := by
      rw [show ((a : ℤ) - (b : ℤ) + 1) = ((a + 1 : ℕ) : ℤ) - ((b : ℕ) : ℤ) by push_cast; ring]
      rw [zpow_sub₀ (by norm_num), zpow_natCast, zpow_natCast]
    rw [e, div_lt_div_iff₀ hdq (by positivity)]
    calc (N : ℚ) * 2 ^ b ≤ (N : ℚ) * D := mul_le_mul_of_nonneg_left d1' (by positivity)
      _ < 2 ^ (a + 1) * D := mul_lt_mul_of_pos_right n2' hdq

/-- The binade computed by `ilog2` is the binade of the positive rational. -/
theorem ilog2_spec (q : ℚ) (hq : 0 < q) :
    (2 : ℚ) ^ ilog2 q ≤ q ∧ q < (2 : ℚ) ^ (ilog2 q + 1) := by
  have hnum : 0 < q.num := Rat.num_pos.2 hq
  have hden : 0 < q.den := q.den_pos
  have hn1 : 1 ≤ q.num.natAbs := by omega
  obtain ⟨n1, n2⟩ := natLog2_spec q.num.natAbs hn1
  obtain ⟨d1, d2⟩ := natLog2_spec q.den hden
  have hnum' : (q.num : ℚ) = (q.num.natAbs : ℚ) := by
    conv_lhs => rw [← Int.natAbs_of_nonneg hnum.le]
    exact Int.cast_natCast _
  have hqeq : (q.num.natAbs : ℚ) / (q.den : ℚ) = q := by
    rw [← hnum']
    exact Rat.num_div_den q
  obtain ⟨hlow, hup⟩ := ratio_bounds q.num.natAbs q.den _ _ hden n1 n2 d1 d2
  rw [hqeq] at hlow hup
  unfold ilog2
  simp only
  split_ifs with hc
  · exact ⟨hc, hup⟩
  · refine ⟨hlow, ?_⟩
    rw [sub_add_cancel]
    exact lt_of_not_le hc

theorem ilog2_lt_of_lt_zpow (q : ℚ) (hq : 0 < q) (e : ℤ) (h : q < (2 : ℚ) ^ e) :
    ilog2 q < e := by
  have h1 := (ilog2_spec q hq).1
  exact (zpow_lt_zpow_iff_right₀ (by norm_num : (1 : ℚ) < 2)).1 (lt_of_le_of_lt h1 h)

theorem le_ilog2_of_zpow_le (q : ℚ) (hq : 0 < q) (e : ℤ) (h : (2 : ℚ) ^ e ≤ q) :
    e ≤ ilog2 q := by
  have h2 := (ilog2_spec q hq).2
  have := (zpow_lt_zpow_iff_right₀ (by norm_num : (1 : ℚ) < 2)).1 (lt_of_le_of_lt h h2)
  omega

theorem ilog2_mono (a b : ℚ) (ha : 0 < a) (hab : a ≤ b) : ilog2 a ≤ ilog2 b :=
  le_ilog2_of_zpow_le b (lt_of_lt_of_le ha hab) _ (le_trans (ilog2_spec a ha).1 hab)

theorem ulpExp_mono (a b : ℚ) (ha : 0 < a) (hab : a ≤ b) : ulpExp a ≤ ulpExp b := by
  have := ilog2_mono a b ha hab
  unfold ulpExp
  omega

theorem rne_bounds (x : ℚ) : ⌊x⌋ ≤ rne x ∧ rne x ≤ ⌊x⌋ + 1 := by
  unfold rne
  simp only
  split_ifs <;> constructor <;> omega

theorem rne_intCast (n : ℤ) : rne (n : ℚ) = n := by
  unfold rne
  simp

theorem rne_mono {x y : ℚ} (h : x ≤ y) : rne x ≤ rne y := by
  have hf : ⌊x⌋ ≤ ⌊y⌋ := Int.floor_mono h
  rcases lt_or_eq_of_le hf with hlt | heq
  · have := (rne_bounds x).2
    have := (rne_bounds y).1
    omega
  · unfold rne
    simp only
    rw [heq]
    have hxy : x - (⌊y⌋ : ℚ) ≤ y - (⌊y⌋ : ℚ) := by linarith
    split_ifs <;> first | omega | (exfalso; linarith)

theorem rne_le_of_le_intCast {x : ℚ} {n : ℤ} (h : x ≤ (n : ℚ)) : rne x ≤ n := by
  have := rne_mono h
  rwa [rne_intCast] at this

theorem le_rne_of_intCast_le {x : ℚ} {n : ℤ} (h : (n : ℚ) ≤ x) : n ≤ rne x := by
  have := rne_mono h
  rwa [rne_intCast] at this

/-- The nearest integer is at most one half away. -/
theorem rne_abs_sub_le (x : ℚ) : |(rne x : ℚ) - x| ≤ 1 / 2 := by
  have h1 : (⌊x⌋ : ℚ) ≤ x := Int.floor_le x
  have h2 : x < (⌊x⌋ : ℚ) + 1 := Int.lt_floor_add_one x
  unfold rne
  simp only
  rw [abs_le]
  split_ifs <;> push_cast <;> constructor <;> linarith

theorem round_zero : round 0 = 0 := by
  simp [round]

theorem round_of_pos {q : ℚ} (h : 0 < q) :
    round q = (rne (q / 2 ^ ulpExp q) : ℚ) * 2 ^ ulpExp q := by
  simp [round, h, h.ne']

theorem round_of_neg {q : ℚ} (h : q < 0) :
    round q = -((rne (-q / 2 ^ ulpExp (-q)) : ℚ) * 2 ^ ulpExp (-q)) := by
  simp [round, h.ne, not_lt.2 h.le]

theorem round_neg (q : ℚ) : round (-q) = -round q := by
  rcases lt_trichotomy q 0 with h | h | h
  · rw [round_of_neg h, round_of_pos (neg_pos.2 h), neg_neg]
  · subst h; simp [round_zero]
  · rw [round_of_pos h, round_of_neg (neg_neg_of_pos h), neg_neg]

theorem two_zpow_pos (e : ℤ) : (0 : ℚ) < (2 : ℚ) ^ e := zpow_pos (by norm_num) e

theorem round_nonneg {q : ℚ} (h : 0 ≤ q) : 0 ≤ round q := by
  rcases eq_or_lt_of_le h with h0 | hpos
  · rw [← h0, round_zero]
  · rw [round_of_pos hpos]
    have hx : ((0 : ℤ) : ℚ) ≤ q / 2 ^ ulpExp q := by
      simpa using div_nonneg h (two_zpow_pos _).le
    have : (0 : ℚ) ≤ (rne (q / 2 ^ ulpExp q) : ℚ) := by
      exact_mod_cast le_rne_of_intCast_le hx
    exact mul_nonneg this (two_zpow_pos _).le

/-- Rounding is monotone on the positive rationals. -/
theorem round_mono_pos {a b : ℚ} (ha : 0 < a) (hab : a ≤ b) : round a ≤ round b := by
  have hb : 0 < b := lt_of_lt_of_le ha hab
  rw [round_of_pos ha, round_of_pos hb]
  have hp := ulpExp_mono a b ha hab
  rcases eq_or_lt_of_le hp with heq | hlt
  · rw [heq]
    have hx : a / 2 ^ ulpExp b ≤ b / 2 ^ ulpExp b :=
      div_le_div_of_nonneg_right hab (two_zpow_pos _).le
    have : (rne (a / 2 ^ ulpExp b) : ℚ) ≤ (rne (b / 2 ^ ulpExp b) : ℚ) := by
      exact_mod_cast rne_mono hx
    exact mul_le_mul_of_nonneg_right this (two_zpow_pos _).le
  · -- the binade of `b` is a higher, normal one: `2 ^ ilog2 b` separates the two results
    have hpb : ulpExp b = ilog2 b - 52 := by
      have h1074 : -1074 ≤ ulpExp a := by unfold ulpExp; omega
      unfold ulpExp at hlt ⊢
      omega
    have hea : ilog2 a + 1 ≤ ilog2 b := by
      have : ilog2 a - 52 ≤ ulpExp a := by unfold ulpExp; omega
      omega
    have hk : 0 ≤ ilog2 b - ulpExp a := by omega
    -- upper bound of the lower result
    have h1 : (rne (a / 2 ^ ulpExp a) : ℚ) * 2 ^ ulpExp a ≤ (2 : ℚ) ^ ilog2 b := by
      have hx : a / 2 ^ ulpExp a ≤ (((2 : ℤ) ^ (ilog2 b - ulpExp a).toNat : ℤ) : ℚ) := by
        have e : (((2 : ℤ) ^ (ilog2 b - ulpExp a).toNat : ℤ) : ℚ) =
            (2 : ℚ) ^ (ilog2 b - ulpExp a) := by
          push_cast
          rw [← zpow_natCast, Int.toNat_of_nonneg hk]
        rw [e, zpow_sub₀ (by norm_num)]
        apply div_le_div_of_nonneg_right _ (two_zpow_pos _).le
        exact le_trans (ilog2_spec a ha).2.le
          (zpow_le_zpow_right₀ (by norm_num) hea)
      have hr := rne_le_of_le_intCast hx
      have hr' : (rne (a / 2 ^ ulpExp a) : ℚ) ≤ (2 : ℚ) ^ (ilog2 b - ulpExp a) := by
        have : (rne (a / 2 ^ ulpExp a) : ℚ) ≤
            (((2 : ℤ) ^ (ilog2 b - ulpExp a).toNat : ℤ) : ℚ) := by exact_mod_cast hr
        refine le_trans this (le_of_eq ?_)
        push_cast
        rw [← zpow_natCast, Int.toNat_of_nonneg hk]
      calc (rne (a / 2 ^ ulpExp a) : ℚ) * 2 ^ ulpExp a
          ≤ (2 : ℚ) ^ (ilog2 b - ulpExp a) * 2 ^ ulpExp a :=
            mul_le_mul_of_nonneg_right hr' (two_zpow_pos _).le
        _ = (2 : ℚ) ^ ilog2 b := by
            rw [← zpow_add₀ (by norm_num)]
            congr 1
            ring
    -- lower bound of the higher result
    have h52 : (((2 : ℤ) ^ (52 : ℕ) : ℤ) : ℚ) = (2 : ℚ) ^ (ilog2 b - ulpExp b) := by
      rw [hpb, show ilog2 b - (ilog2 b - 52) = ((52 : ℕ) : ℤ) by push_cast; ring,
        zpow_natCast, Int.cast_pow]
      rfl
    have h2 : (2 : ℚ) ^ ilog2 b ≤ (rne (b / 2 ^ ulpExp b) : ℚ) * 2 ^ ulpExp b := by
      have hx : (((2 : ℤ) ^ (52 : ℕ) : ℤ) : ℚ) ≤ b / 2 ^ ulpExp b := by
        rw [h52, zpow_sub₀ (by norm_num)]
        exact div_le_div_of_nonneg_right (ilog2_spec b hb).1 (two_zpow_pos _).le
      have hr := le_rne_of_intCast_le hx
      have hr' : (2 : ℚ) ^ (ilog2 b - ulpExp b) ≤ (rne (b / 2 ^ ulpExp b) : ℚ) := by
        have : (((2 : ℤ) ^ (52 : ℕ) : ℤ) : ℚ) ≤ (rne (b / 2 ^ ulpExp b) : ℚ) := by
          exact_mod_cast hr
        exact le_trans (le_of_eq h52.symm) this
      calc (2 : ℚ) ^ ilog2 b = (2 : ℚ) ^ (ilog2 b - ulpExp b) * 2 ^ ulpExp b := by
            rw [← zpow_add₀ (by norm_num)]
            congr 1
            ring
        _ ≤ (rne (b / 2 ^ ulpExp b) : ℚ) * 2 ^ ulpExp b :=
            mul_le_mul_of_nonneg_right hr' (two_zpow_pos _).le
    exact le_trans h1 h2

/-- IEEE rounding is monotone. -/
theorem round_mono {a b : ℚ} (hab : a ≤ b) : round a ≤ round b := by
  rcases lt_trichotomy a 0 with ha | ha | ha
  · rcases lt_or_le b 0 with hb | hb
    · have h := round_mono_pos (neg_pos.2 hb) (neg_le_neg hab)
      rw [round_neg, round_neg] at h
      linarith
    · have h1 : round a ≤ 0 := by
        have := round_nonneg (neg_pos.2 ha).le
        rw [round_neg] at this
        linarith
      exact le_trans h1 (round_nonneg hb)
  · subst ha
    rw [round_zero]
    exact round_nonneg hab
  · exact round_mono_pos ha hab

end F64

/-! ### `Percent` stays within the finite binary64 numbers -/

theorem F64.round_abs (q : ℚ) : F64.round |q| = |F64.round q| := by
  rcases le_total 0 q with h | h
  · rw [abs_of_nonneg h, abs_of_nonneg (F64.round_nonneg h)]
  · have h' : F64.round q ≤ 0 := by
      have := F64.round_nonneg (neg_nonneg.2 h)
      rw [F64.round_neg] at this
      linarith
    rw [abs_of_nonpos h, abs_of_nonpos h', F64.round_neg]

theorem wrap64_range (x : ℤ) : -2 ^ 63 ≤ wrap64 x ∧ wrap64 x < 2 ^ 63 := by
  unfold wrap64
  norm_num
  omega

/-- The conversion of a non-zero integer to binary64 is not zero, so the division of
`Percent` is never one by zero. -/
theorem ofInt_ne_zero (n : ℤ) (h : n ≠ 0) : F64.ofInt n ≠ 0 := by
  have h1 : (1 : ℚ) ≤ |(n : ℚ)| := by
    have : (1 : ℤ) ≤ |n| := Int.one_le_abs h
    exact_mod_cast this
  have h2 := F64.round_mono h1
  have e1 : F64.round 1 = 1 := by decide!
  rw [e1, F64.round_abs] at h2
  intro h0
  unfold F64.ofInt at h0
  rw [h0] at h2
  norm_num at h2

/-- Magnitude of `Percent` for a 64-bit `success`: far below the binary64 overflow
threshold `2^1024`, so every intermediate result is a finite number. -/
theorem Percent_abs_le (success failure : ℤ) (h1 : -2 ^ 63 ≤ success)
    (h2 : success < 2 ^ 63) : |Percent success failure| ≤ 100 * 2 ^ 63 := by
  unfold Percent
  split_ifs with h0
  · norm_num
  · have hs : |F64.ofInt success| ≤ 2 ^ 63 := by
      have : |(success : ℚ)| ≤ 2 ^ 63 := by
        rw [abs_le]
        constructor
        · exact_mod_cast h1
        · exact_mod_cast h2.le
      have h := F64.round_mono this
      have e : F64.round (2 ^ 63) = 2 ^ 63 := by decide!
      rw [e, F64.round_abs] at h
      exact h
    have ht : 1 ≤ |F64.ofInt (wrap64 (success + failure))| := by
      have h1' : (1 : ℚ) ≤ |((wrap64 (success + failure) : ℤ) : ℚ)| := by
        have : (1 : ℤ) ≤ |wrap64 (success + failure)| := Int.one_le_abs h0
        exact_mod_cast this
      have h := F64.round_mono h1'
      have e1 : F64.round 1 = 1 := by decide!
      rw [e1, F64.round_abs] at h
      exact h
    have hq : |F64.div (F64.ofInt success) (F64.ofInt (wrap64 (success + failure)))| ≤
        2 ^ 63 := by
      unfold F64.div
      rw [← F64.round_abs]
      have hle : |F64.ofInt success / F64.ofInt (wrap64 (success + failure))| ≤ 2 ^ 63 := by
        rw [abs_div]
        have hpos : (0 : ℚ) < |F64.ofInt (wrap64 (success + failure))| := by linarith
        rw [div_le_iff₀ hpos]
        calc |F64.ofInt success| ≤ 2 ^ 63 := hs
          _ = 2 ^ 63 * 1 := by ring
          _ ≤ 2 ^ 63 * |F64.ofInt (wrap64 (success + failure))| :=
              mul_le_mul_of_nonneg_left ht (by positivity)
      have h := F64.round_mono hle
      have e : F64.round (2 ^ 63) = 2 ^ 63 := by decide!
      rw [e] at h
      exact h
    unfold F64.mul
    rw [← F64.round_abs]
    have hle : |F64.div (F64.ofInt success) (F64.ofInt (wrap64 (success + failure))) * 100| ≤
        100 * 2 ^ 63 := by
      rw [abs_mul]
      have : |(100 : ℚ)| = 100 := abs_of_pos (by norm_num)
      rw [this]
      linarith
    have h := F64.round_mono hle
    have e : F64.round (100 * 2 ^ 63) = 100 * 2 ^ 63 := by decide!
    rw [e] at h
    exact h

/-! ### Claims -/

/-- C1: `Percent success failure` is exactly `0` when the Go sum `success+failure` is
zero (in particular whenever the two integers add up to zero), and otherwise it is the
float64 product by `100` of the float64 quotient of `float64(success)` by
`float64(success+failure)`; when the sum of the two integers fits the `int` range, the
Go sum is their sum. -/
theorem Percent_contract (success failure : ℤ) :
    (success + failure = 0 → Percent success failure = 0) ∧
    (wrap64 (success + failure) = 0 → Percent success failure = 0) ∧
    (wrap64 (success + failure) ≠ 0 →
      Percent success failure =
        F64.round (F64.round (F64.round success / F64.round (wrap64 (success + failure)))
          * 100)) ∧
    (-2 ^ 63 ≤ success + failure → success + failure < 2 ^ 63 → success + failure ≠ 0 →
      Percent success failure =
        F64.round (F64.round (F64.round success / F64.round ((success + failure : ℤ) : ℚ))
          * 100)) := by
  refine ⟨fun h => ?_, fun h => ?_, fun h => ?_, fun h1 h2 h => ?_⟩
  · simp [Percent, h, wrap64_zero]
  · simp [Percent, h]
  · simp [Percent, h, F64.mul, F64.div, F64.ofInt]
  · simp [Percent, wrap64_of_range h1 h2, h, F64.mul, F64.div, F64.ofInt]

theorem Percent_contract_witness :
    Percent 0 0 = 0 ∧ Percent 7 3 = 70 ∧ Percent 1 2 = 2345624805922133 / 70368744177664 :=
  ⟨(Percent_contract 0 0).1 (by decide), by
    rw [(Percent_contract 7 3).2.2.1 (by decide)]; decide!, by
    rw [(Percent_contract 1 2).2.2.2 (by decide) (by decide) (by decide)]; decide!⟩

theorem areAllFailuresKnownLoop_eq_all (bugCache : BugCache) (release : String) :
    ∀ names : List String, areAllFailuresKnownLoop bugCache release names true =
      names.all (fun n => decide (0 < (bugCache release "" n).length)) := by
  intro names
  induction names with
  | nil => rfl
  | cons n rest ih =>
    by_cases h : 0 < (bugCache release "" n).length
    · simp [areAllFailuresKnownLoop, h, ih]
    · simp [areAllFailuresKnownLoop, h]

theorem convertRun_Failures (bugCache : BugCache) (release : String) (job : JobResult)
    (x : RawJobRunResult) :
    (convertRun bugCache release job x).Failures =
      if x.Failed then wrap64 (job.Failures + 1) else job.Failures := by
  unfold convertRun
  cases x.Failed <;> cases x.Succeeded <;>
    cases areAllFailuresKnown x bugCache release <;> simp

theorem convertRun_Successes (bugCache : BugCache) (release : String) (job : JobResult)
    (x : RawJobRunResult) :
    (convertRun bugCache release job x).Successes =
      if (!x.Failed && x.Succeeded) then wrap64 (job.Successes + 1) else job.Successes := by
  unfold convertRun
  cases x.Failed <;> cases x.Succeeded <;>
    cases areAllFailuresKnown x bugCache release <;> simp

theorem convertRun_KnownFailures (bugCache : BugCache) (release : String) (job : JobResult)
    (x : RawJobRunResult) :
    (convertRun bugCache release job x).KnownFailures =
      if (x.Failed && areAllFailuresKnown x bugCache release) then
        wrap64 (job.KnownFailures + 1) else job.KnownFailures := by
  unfold convertRun
  cases x.Failed <;> cases x.Succeeded <;>
    cases areAllFailuresKnown x bugCache release <;> simp

theorem convertRun_frame (bugCache : BugCache) (release : String) (job : JobResult)
    (x : RawJobRunResult) :
    (convertRun bugCache release job x).Name = job.Name ∧
    (convertRun bugCache release job x).Platform = job.Platform ∧
    (convertRun bugCache release job x).TestGridUrl = job.TestGridUrl ∧
    (convertRun bugCache release job x).TestResults = job.TestResults := by
  unfold convertRun
  cases x.Failed <;> cases x.Succeeded <;>
    cases areAllFailuresKnown x bugCache release <;> simp

theorem foldl_convertRun_frame (bugCache : BugCache) (release : String) :
    ∀ (runs : List RawJobRunResult) (job : JobResult),
      (runs.foldl (convertRun bugCache release) job).Name = job.Name ∧
      (runs.foldl (convertRun bugCache release) job).Platform = job.Platform ∧
      (runs.foldl (convertRun bugCache release) job).TestGridUrl = job.TestGridUrl ∧
      (runs.foldl (convertRun bugCache release) job).TestResults = job.TestResults := by
  intro runs
  induction runs with
  | nil => intro job; simp
  | cons x rest ih =>
    intro job
    obtain ⟨h1, h2, h3, h4⟩ := convertRun_frame bugCache release job x
    obtain ⟨k1, k2, k3, k4⟩ := ih (convertRun bugCache release job x)
    simp only [List.foldl_cons]
    exact ⟨k1.trans h1, k2.trans h2, k3.trans h3, k4.trans h4⟩

/-- Counters of the conversion loop: as long as the counters cannot leave the 64-bit
range, each one is its start value plus the number of runs that increment it. -/
theorem foldl_convertRun_counts (bugCache : BugCache) (release : String) :
    ∀ (runs : List RawJobRunResult) (job : JobResult),
      0 ≤ job.Successes → 0 ≤ job.Failures → 0 ≤ job.KnownFailures →
      job.Successes + job.Failures + runs.length < 2 ^ 63 →
      job.KnownFailures ≤ job.Failures →
      (runs.foldl (convertRun bugCache release) job).Successes =
        job.Successes + runs.countP (fun x => !x.Failed && x.Succeeded) ∧
      (runs.foldl (convertRun bugCache release) job).Failures =
        job.Failures + runs.countP (fun x => x.Failed) ∧
      (runs.foldl (convertRun bugCache release) job).KnownFailures =
        job.KnownFailures +
          runs.countP (fun x => x.Failed && areAllFailuresKnown x bugCache release) := by
  intro runs
  induction runs with
  | nil => intro job; simp
  | cons x rest ih =>
    intro job hS hF hK hlen hKF
    simp only [List.length_cons, Nat.cast_add, Nat.cast_one] at hlen
    have hl : (0 : ℤ) ≤ (rest.length : ℤ) := Int.natCast_nonneg _
    have eS := convertRun_Successes bugCache release job x
    have eF := convertRun_Failures bugCache release job x
    have eK := convertRun_KnownFailures bugCache release job x
    have wS : wrap64 (job.Successes + 1) = job.Successes + 1 :=
      wrap64_of_range (by norm_num; omega) (by norm_num at hlen ⊢; omega)
    have wF : wrap64 (job.Failures + 1) = job.Failures + 1 :=
      wrap64_of_range (by norm_num; omega) (by norm_num at hlen ⊢; omega)
    have wK : wrap64 (job.KnownFailures + 1) = job.KnownFailures + 1 :=
      wrap64_of_range (by norm_num; omega) (by norm_num at hlen ⊢; omega)
    rw [wS] at eS; rw [wF] at eF; rw [wK] at eK
    have := ih (convertRun bugCache release job x)
    simp only [List.foldl_cons, List.countP_cons]
    cases hf : x.Failed <;> cases hs : x.Succeeded <;>
      cases hk : areAllFailuresKnown x bugCache release <;>
      simp [hf, hs, hk] at eS eF eK ⊢ <;>
      (rw [eS, eF, eK] at this
       obtain ⟨a, b, c⟩ := this (by omega) (by omega) (by omega)
         (by norm_num at hlen ⊢; omega) (by omega)
       refine ⟨?_, ?_, ?_⟩ <;> omega)

theorem areAllFailuresKnown_eq_all (rawJRR : RawJobRunResult) (bugCache : BugCache)
    (release : String) :
    areAllFailuresKnown rawJRR bugCache release =
      rawJRR.FailedTestNames.all (fun n => decide (0 < (bugCache release "" n).length)) :=
  areAllFailuresKnownLoop_eq_all bugCache release rawJRR.FailedTestNames

/-- The three counters of a converted job, for a run list of a length a Go slice can
have. -/
theorem convert_counts (rawJobResult : RawJobResult) (byJob : String → List TestResult)
    (bugCache : BugCache) (release : String)
    (hlen : rawJobResult.JobRunResults.length < 2 ^ 63) :
    (convertRawJobResultToProcessedJobResult rawJobResult byJob bugCache release).Successes =
      rawJobResult.JobRunResults.countP (fun x => !x.Failed && x.Succeeded) ∧
    (convertRawJobResultToProcessedJobResult rawJobResult byJob bugCache release).Failures =
      rawJobResult.JobRunResults.countP (fun x => x.Failed) ∧
    (convertRawJobResultToProcessedJobResult rawJobResult byJob bugCache release).KnownFailures =
      rawJobResult.JobRunResults.countP
        (fun x => x.Failed && areAllFailuresKnown x bugCache release) := by
  have hl : ((rawJobResult.JobRunResults.length : ℕ) : ℤ) < 2 ^ 63 := by exact_mod_cast hlen
  have := foldl_convertRun_counts bugCache release rawJobResult.JobRunResults
    { Name := rawJobResult.JobName
      TestGridUrl := rawJobResult.TestGridJobUrl
      TestResults := byJob rawJobResult.JobName }
    (le_refl _) (le_refl _) (le_refl _) (by simpa using hl) (le_refl _)
  simpa [convertRawJobResultToProcessedJobResult] using this

/-- Known failures never exceed failures, and successes plus failures never exceed the
number of runs. -/
theorem countP_known_le_failed (bugCache : BugCache) (release : String)
    (runs : List RawJobRunResult) :
    runs.countP (fun x => x.Failed && areAllFailuresKnown x bugCache release) ≤
      runs.countP (fun x => x.Failed) := by
  apply List.countP_mono_left
  intro x _ h
  simp only [Bool.and_eq_true] at h
  exact h.1

theorem countP_succ_add_failed_le (runs : List RawJobRunResult) :
    runs.countP (fun x => !x.Failed && x.Succeeded) + runs.countP (fun x => x.Failed) ≤
      runs.length := by
  induction runs with
  | nil => simp
  | cons x rest ih =>
    simp only [List.countP_cons, List.length_cons]
    cases x.Failed <;> cases x.Succeeded <;> simp <;> omega

/-- C2: the converted job has `PassPercentage = percent(Successes, Failures)` and
`PassPercentageWithKnownFailures = percent(Successes + KnownFailures,
Failures - KnownFailures)` over the counts it has just computed; a job with 10 runs, 7 of
them succeeded and 3 failed, 2 of the failed ones with all failed tests known, converts
to Successes 7, Failures 3, KnownFailures 2, PassPercentage 70 and
PassPercentageWithKnownFailures 90. -/
theorem convert_percentages (rawJobResult : RawJobResult)
    (byJob : String → List TestResult) (bugCache : BugCache) (release : String)
    (job : JobResult)
    (hjob : job = convertRawJobResultToProcessedJobResult rawJobResult byJob bugCache release)
    (hlen : rawJobResult.JobRunResults.length < 2 ^ 63) :
    job.PassPercentage = percent job.Successes job.Failures ∧
    job.PassPercentageWithKnownFailures =
      percent (job.Successes + job.KnownFailures) (job.Failures - job.KnownFailures) ∧
    (rawJobResult.JobRunResults.length = 10 →
      (∀ x ∈ rawJobResult.JobRunResults, ¬(x.Failed = true ∧ x.Succeeded = true)) →
      rawJobResult.JobRunResults.countP (fun x => x.Succeeded) = 7 →
      rawJobResult.JobRunResults.countP (fun x => x.Failed) = 3 →
      rawJobResult.JobRunResults.countP
        (fun x => x.Failed && areAllFailuresKnown x bugCache release) = 2 →
      job.Successes = 7 ∧ job.Failures = 3 ∧ job.KnownFailures = 2 ∧
        job.PassPercentage = 70 ∧ job.PassPercentageWithKnownFailures = 90) := by
  obtain ⟨hS, hF, hK⟩ := convert_counts rawJobResult byJob bugCache release hlen
  rw [← hjob] at hS hF hK
  have hKF := countP_known_le_failed bugCache release rawJobResult.JobRunResults
  have hSF := countP_succ_add_failed_le rawJobResult.JobRunResults
  have hPP : job.PassPercentage = percent job.Successes job.Failures := by rw [hjob]; rfl
  have hPK : job.PassPercentageWithKnownFailures =
      percent (wrap64 (job.Successes + job.KnownFailures))
        (wrap64 (job.Failures - job.KnownFailures)) := by rw [hjob]; rfl
  have w1 : wrap64 (job.Successes + job.KnownFailures) = job.Successes + job.KnownFailures :=
    wrap64_of_range (by rw [hS, hK]; norm_num; omega) (by rw [hS, hK]; norm_num; omega)
  have w2 : wrap64 (job.Failures - job.KnownFailures) = job.Failures - job.KnownFailures :=
    wrap64_of_range (by rw [hF, hK]; norm_num; omega) (by rw [hF, hK]; norm_num; omega)
  rw [w1, w2] at hPK
  refine ⟨hPP, hPK, ?_⟩
  intro _ hdisj h7 h3 h2
  have hcong : rawJobResult.JobRunResults.countP (fun x => !x.Failed && x.Succeeded) =
      rawJobResult.JobRunResults.countP (fun x => x.Succeeded) := by
    apply List.countP_congr
    intro x hx
    have := hdisj x hx
    cases hf : x.Failed <;> cases hs : x.Succeeded <;> simp_all
  rw [hcong, h7] at hS
  rw [h3] at hF
  rw [h2] at hK
  have e1 : percent 7 3 = 70 := by decide!
  have e2 : percent (7 + 2) (3 - 2) = 90 := by decide!
  rw [hS, hF] at hPP
  rw [hS, hF, hK] at hPK
  exact ⟨hS, hF, hK, by rw [hPP]; exact_mod_cast e1, by rw [hPK]; exact_mod_cast e2⟩

theorem convert_percentages_witness :
    sampleRawJob.JobRunResults.length < 2 ^ 63 ∧
    (convertRawJobResultToProcessedJobResult sampleRawJob (fun _ => []) sampleBugCache
      "4.6").PassPercentage = 70 ∧
    (convertRawJobResultToProcessedJobResult sampleRawJob (fun _ => []) sampleBugCache
      "4.6").PassPercentageWithKnownFailures = 90 :=
  ⟨by decide,
   ((convert_percentages sampleRawJob (fun _ => []) sampleBugCache "4.6" _ rfl
      (by decide)).2.2 (by decide) (by decide) (by decide) (by decide) (by decide)).2.2.2⟩

/-- C3 as stated fails: a job whose single run carries both the `Failed` and the
`Succeeded` flag has one run with `Succeeded` true, yet its `Successes` is `0` (the run is
counted as a failure only). -/
theorem convert_Successes_counterexample :
    bothFlagsRawJob.JobRunResults.countP (fun x => x.Succeeded) = 1 ∧
    (convertRawJobResultToProcessedJobResult bothFlagsRawJob (fun _ => []) sampleBugCache
      "4.6").Successes = 0 ∧
    (convertRawJobResultToProcessedJobResult bothFlagsRawJob (fun _ => []) sampleBugCache
      "4.6").Failures = 1 := by
  decide

/-- C3 (amended): `Successes` is the number of runs whose `Succeeded` flag is true and
whose `Failed` flag is false; a run with both flags set is counted as a failure only. -/
theorem convert_Successes (rawJobResult : RawJobResult) (byJob : String → List TestResult)
    (bugCache : BugCache) (release : String)
    (hlen : rawJobResult.JobRunResults.length < 2 ^ 63) :
    (convertRawJobResultToProcessedJobResult rawJobResult byJob bugCache release).Successes =
      rawJobResult.JobRunResults.countP (fun x => !x.Failed && x.Succeeded) :=
  (convert_counts rawJobResult byJob bugCache release hlen).1

theorem convert_Successes_witness :
    sampleRawJob.JobRunResults.length < 2 ^ 63 ∧
    (convertRawJobResultToProcessedJobResult sampleRawJob (fun _ => []) sampleBugCache
      "4.6").Successes = (7 : ℕ) :=
  ⟨by decide, convert_Successes sampleRawJob (fun _ => []) sampleBugCache "4.6" (by decide)⟩

/-- A run that is neither failed nor succeeded leaves the job unchanged in the loop. -/
theorem convertRun_neither (bugCache : BugCache) (release : String) (job : JobResult)
    (x : RawJobRunResult) (hf : x.Failed = false) (hs : x.Succeeded = false) :
    convertRun bugCache release job x = job := by
  simp [convertRun, hf, hs]

/-- C4: `Failures` is the number of runs whose `Failed` flag is true, and appending a
run that is neither failed nor succeeded leaves `Successes`, `Failures` and
`KnownFailures` unchanged. -/
theorem convert_Failures (rawJobResult : RawJobResult) (byJob : String → List TestResult)
    (bugCache : BugCache) (release : String)
    (hlen : rawJobResult.JobRunResults.length < 2 ^ 63) :
    (convertRawJobResultToProcessedJobResult rawJobResult byJob bugCache release).Failures =
      rawJobResult.JobRunResults.countP (fun x => x.Failed) ∧
    ∀ run : RawJobRunResult, run.Failed = false → run.Succeeded = false →
      (convertRawJobResultToProcessedJobResult
        { rawJobResult with JobRunResults := rawJobResult.JobRunResults ++ [run] }
        byJob bugCache release).Successes =
        (convertRawJobResultToProcessedJobResult rawJobResult byJob bugCache
          release).Successes ∧
      (convertRawJobResultToProcessedJobResult
        { rawJobResult with JobRunResults := rawJobResult.JobRunResults ++ [run] }
        byJob bugCache release).Failures =
        (convertRawJobResultToProcessedJobResult rawJobResult byJob bugCache
          release).Failures ∧
      (convertRawJobResultToProcessedJobResult
        { rawJobResult with JobRunResults := rawJobResult.JobRunResults ++ [run] }
        byJob bugCache release).KnownFailures =
        (convertRawJobResultToProcessedJobResult rawJobResult byJob bugCache
          release).KnownFailures := by
  refine ⟨(convert_counts rawJobResult byJob bugCache release hlen).2.1, ?_⟩
  intro run hf hs
  simp [convertRawJobResultToProcessedJobResult, List.foldl_append,
    convertRun_neither bugCache release _ run hf hs]

theorem convert_Failures_witness :
    sampleRawJob.JobRunResults.length < 2 ^ 63 ∧
    (convertRawJobResultToProcessedJobResult sampleRawJob (fun _ => []) sampleBugCache
      "4.6").Failures = (3 : ℕ) :=
  ⟨by decide,
   (convert_Failures sampleRawJob (fun _ => []) sampleBugCache "4.6" (by decide)).1⟩

/-- C5: `KnownFailures` is the number of runs that are failed and for which
`areAllFailuresKnown` holds, that is, failed runs in which every failed test name has at
least one defect in the lookup for the release with the empty component filter; a failed
run without failed test names is among them. -/
theorem convert_KnownFailures (rawJobResult : RawJobResult)
    (byJob : String → List TestResult) (bugCache : BugCache) (release : String)
    (hlen : rawJobResult.JobRunResults.length < 2 ^ 63) :
    (convertRawJobResultToProcessedJobResult rawJobResult byJob bugCache
      release).KnownFailures =
      rawJobResult.JobRunResults.countP
        (fun x => x.Failed && areAllFailuresKnown x bugCache release) ∧
    (convertRawJobResultToProcessedJobResult rawJobResult byJob bugCache
      release).KnownFailures =
      rawJobResult.JobRunResults.countP
        (fun x => x.Failed &&
          x.FailedTestNames.all (fun n => decide (0 < (bugCache release "" n).length))) ∧
    ∀ x : RawJobRunResult, x.Failed = true → x.FailedTestNames = [] →
      (x.Failed && areAllFailuresKnown x bugCache release) = true := by
  have h := (convert_counts rawJobResult byJob bugCache release hlen).2.2
  refine ⟨h, ?_, ?_⟩
  · rw [h]
    congr 2
    funext x
    rw [areAllFailuresKnown_eq_all]
  · intro x hf hn
    simp [hf, areAllFailuresKnown_eq_all, hn]

theorem convert_KnownFailures_witness :
    sampleRawJob.JobRunResults.length < 2 ^ 63 ∧
    (convertRawJobResultToProcessedJobResult sampleRawJob (fun _ => []) sampleBugCache
      "4.6").KnownFailures = (2 : ℕ) :=
  ⟨by decide,
   (convert_KnownFailures sampleRawJob (fun _ => []) sampleBugCache "4.6" (by decide)).1⟩

/-- C6: `areAllFailuresKnown` is true exactly when every name of the run's
`FailedTestNames` has a non-empty lookup result for `(release, "", name)`; it is true for
a run without failed test names, whatever the lookup returns. -/
theorem areAllFailuresKnown_iff (rawJRR : RawJobRunResult) (bugCache : BugCache)
    (release : String) :
    (areAllFailuresKnown rawJRR bugCache release = true ↔
      ∀ name ∈ rawJRR.FailedTestNames, bugCache release "" name ≠ []) ∧
    (rawJRR.FailedTestNames = [] → areAllFailuresKnown rawJRR bugCache release = true) := by
  rw [areAllFailuresKnown_eq_all]
  constructor
  · simp [List.all_eq_true, List.length_pos]
  · intro h; simp [h]

/-- The relation `sortStable` inserts by, for the pass-percentage comparison, is the
order of the pass percentages. -/
theorem jobsByPassPercentageLess_false_iff (a b : JobResult) :
    jobsByPassPercentageLess b a = false ↔ a.PassPercentage ≤ b.PassPercentage := by
  simp [jobsByPassPercentageLess]

theorem sortStable_perm {α : Type} (less : α → α → Bool) (l : List α) :
    (sortStable less l).Perm l :=
  List.perm_insertionSort _ l

/-- Sorting by pass percentage yields a list ascending in pass percentage. -/
theorem sortStable_passPercentage_pairwise (l : List JobResult) :
    (sortStable jobsByPassPercentageLess l).Pairwise
      (fun a b => a.PassPercentage ≤ b.PassPercentage) := by
  haveI : IsTotal JobResult (fun a b => jobsByPassPercentageLess b a = false) :=
    ⟨fun a b => by
      simp only [jobsByPassPercentageLess_false_iff]
      exact le_total _ _⟩
  haveI : IsTrans JobResult (fun a b => jobsByPassPercentageLess b a = false) :=
    ⟨fun a b c => by
      simp only [jobsByPassPercentageLess_false_iff]
      exact le_trans⟩
  have h := List.sorted_insertionSort (fun a b => jobsByPassPercentageLess b a = false) l
  exact List.Pairwise.imp (fun {a b} hab => (jobsByPassPercentageLess_false_iff a b).1 hab) h

/-- The classification loop, started from any pair of lists, appends to the first the
converted jobs above the threshold and to the second the others, both in input order. -/
theorem foldl_summarizeStep (byJob : String → List TestResult) (bugCache : BugCache)
    (release : String) (numberOfDaysOfData : ℤ) :
    ∀ (raws : List RawJobResult) (acc : List JobResult × List JobResult),
      raws.foldl (summarizeStep byJob bugCache release numberOfDaysOfData) acc =
        (acc.1 ++ (raws.map
            (fun r => convertRawJobResultToProcessedJobResult r byJob bugCache release)).filter
            (fun job => decide (wrap64 (job.Successes + job.Failures) >
              Int.tdiv (wrap64 (numberOfDaysOfData * 3)) 2)),
         acc.2 ++ (raws.map
            (fun r => convertRawJobResultToProcessedJobResult r byJob bugCache release)).filter
            (fun job => !decide (wrap64 (job.Successes + job.Failures) >
              Int.tdiv (wrap64 (numberOfDaysOfData * 3)) 2))) := by
  intro raws
  induction raws with
  | nil => intro acc; simp
  | cons r rest ih =>
    intro acc
    rw [List.foldl_cons, ih]
    by_cases h : wrap64 ((convertRawJobResultToProcessedJobResult r byJob bugCache
        release).Successes + (convertRawJobResultToProcessedJobResult r byJob bugCache
        release).Failures) > Int.tdiv (wrap64 (numberOfDaysOfData * 3)) 2
    · simp [summarizeStep, h]
    · simp [summarizeStep, h]

/-- For a run list of a length a Go slice can have, the sum `Successes + Failures` of
the converted job does not wrap, and is not negative. -/
theorem convert_sum_range (rawJobResult : RawJobResult) (byJob : String → List TestResult)
    (bugCache : BugCache) (release : String)
    (hlen : rawJobResult.JobRunResults.length < 2 ^ 63) :
    wrap64 ((convertRawJobResultToProcessedJobResult rawJobResult byJob bugCache
        release).Successes +
      (convertRawJobResultToProcessedJobResult rawJobResult byJob bugCache
        release).Failures) =
      (convertRawJobResultToProcessedJobResult rawJobResult byJob bugCache
        release).Successes +
      (convertRawJobResultToProcessedJobResult rawJobResult byJob bugCache
        release).Failures ∧
    0 ≤ (convertRawJobResultToProcessedJobResult rawJobResult byJob bugCache
        release).Successes +
      (convertRawJobResultToProcessedJobResult rawJobResult byJob bugCache
        release).Failures := by
  obtain ⟨hS, hF, _⟩ := convert_counts rawJobResult byJob bugCache release hlen
  have hSF := countP_succ_add_failed_le rawJobResult.JobRunResults
  rw [hS, hF]
  exact ⟨wrap64_of_range (by norm_num; omega) (by norm_num; omega), by omega⟩

/-- Without overflow of `numberOfDaysOfData*3`, the Go threshold is one and a half times
the number of days, rounded down. -/
theorem threshold_eq_floor (numberOfDaysOfData : ℤ) (h0 : 0 ≤ numberOfDaysOfData)
    (h1 : numberOfDaysOfData * 3 < 2 ^ 63) :
    Int.tdiv (wrap64 (numberOfDaysOfData * 3)) 2 = ⌊(numberOfDaysOfData : ℚ) * (3 / 2)⌋ := by
  rw [wrap64_of_range (by norm_num; omega) h1, Int.tdiv_eq_ediv (by omega) (by norm_num)]
  have : (numberOfDaysOfData : ℚ) * (3 / 2) = ((numberOfDaysOfData * 3 : ℤ) : ℚ) / ((2 : ℕ) : ℚ) := by
    push_cast; ring
  rw [this, Rat.floor_intCast_div_natCast]
  rfl

/-- C7: every converted job goes to exactly one output, to `jobs` when
`Successes + Failures` exceeds the threshold `numberOfDaysOfData*3/2` of Go integer
arithmetic and to `infrequentJobs` otherwise; the two outputs together are the
conversions of the input entries, one per entry; without overflow of
`numberOfDaysOfData*3` the threshold is `numberOfDaysOfData * 1.5` rounded down (for a
negative number of days the Go quotient is rounded towards zero instead, which classifies
the jobs in the same way). -/
theorem summarize_classification (rawJobResults : List (String × RawJobResult))
    (byJob : String → List TestResult) (bugCache : BugCache) (release : String)
    (numberOfDaysOfData : ℤ)
    (hlen : ∀ e ∈ rawJobResults, e.2.JobRunResults.length < 2 ^ 63) :
    (summarizeJobRunResults rawJobResults byJob bugCache release numberOfDaysOfData).1.Perm
      ((rawJobResults.map
        (fun e => convertRawJobResultToProcessedJobResult e.2 byJob bugCache release)).filter
        (fun job => decide (job.Successes + job.Failures >
          Int.tdiv (wrap64 (numberOfDaysOfData * 3)) 2))) ∧
    (summarizeJobRunResults rawJobResults byJob bugCache release numberOfDaysOfData).2.Perm
      ((rawJobResults.map
        (fun e => convertRawJobResultToProcessedJobResult e.2 byJob bugCache release)).filter
        (fun job => !decide (job.Successes + job.Failures >
          Int.tdiv (wrap64 (numberOfDaysOfData * 3)) 2))) ∧
    (∀ job ∈ (summarizeJobRunResults rawJobResults byJob bugCache release
        numberOfDaysOfData).1,
      job.Successes + job.Failures > Int.tdiv (wrap64 (numberOfDaysOfData * 3)) 2) ∧
    (∀ job ∈ (summarizeJobRunResults rawJobResults byJob bugCache release
        numberOfDaysOfData).2,
      ¬ job.Successes + job.Failures > Int.tdiv (wrap64 (numberOfDaysOfData * 3)) 2) ∧
    ((summarizeJobRunResults rawJobResults byJob bugCache release numberOfDaysOfData).1 ++
      (summarizeJobRunResults rawJobResults byJob bugCache release numberOfDaysOfData).2).Perm
      (rawJobResults.map
        (fun e => convertRawJobResultToProcessedJobResult e.2 byJob bugCache release)) ∧
    (∀ e ∈ rawJobResults,
      (convertRawJobResultToProcessedJobResult e.2 byJob bugCache release ∈
          (summarizeJobRunResults rawJobResults byJob bugCache release
            numberOfDaysOfData).1 ↔
        (convertRawJobResultToProcessedJobResult e.2 byJob bugCache release).Successes +
          (convertRawJobResultToProcessedJobResult e.2 byJob bugCache release).Failures >
          Int.tdiv (wrap64 (numberOfDaysOfData * 3)) 2) ∧
      (convertRawJobResultToProcessedJobResult e.2 byJob bugCache release ∈
          (summarizeJobRunResults rawJobResults byJob bugCache release
            numberOfDaysOfData).2 ↔
        ¬ (convertRawJobResultToProcessedJobResult e.2 byJob bugCache release).Successes +
          (convertRawJobResultToProcessedJobResult e.2 byJob bugCache release).Failures >
          Int.tdiv (wrap64 (numberOfDaysOfData * 3)) 2)) ∧
    (summarizeJobRunResults rawJobResults byJob bugCache release
        numberOfDaysOfData).1.length +
      (summarizeJobRunResults rawJobResults byJob bugCache release
        numberOfDaysOfData).2.length = rawJobResults.length ∧
    (0 ≤ numberOfDaysOfData → numberOfDaysOfData * 3 < 2 ^ 63 →
      Int.tdiv (wrap64 (numberOfDaysOfData * 3)) 2 =
        ⌊(numberOfDaysOfData : ℚ) * (3 / 2)⌋) ∧
    (-2 ^ 63 ≤ numberOfDaysOfData * 3 → numberOfDaysOfData * 3 < 2 ^ 63 →
      ∀ job ∈ rawJobResults.map
        (fun e => convertRawJobResultToProcessedJobResult e.2 byJob bugCache release),
        (job.Successes + job.Failures > Int.tdiv (wrap64 (numberOfDaysOfData * 3)) 2 ↔
          job.Successes + job.Failures > ⌊(numberOfDaysOfData : ℚ) * (3 / 2)⌋)) := by
  have hcongr : ∀ job ∈ rawJobResults.map
      (fun e => convertRawJobResultToProcessedJobResult e.2 byJob bugCache release),
      decide (wrap64 (job.Successes + job.Failures) >
          Int.tdiv (wrap64 (numberOfDaysOfData * 3)) 2) =
        decide (job.Successes + job.Failures >
          Int.tdiv (wrap64 (numberOfDaysOfData * 3)) 2) := by
    intro job hjob
    obtain ⟨e, he, rfl⟩ := List.mem_map.1 hjob
    rw [(convert_sum_range e.2 byJob bugCache release (hlen e he)).1]
  have hmap : (rawJobResults.map Prod.snd).map
      (fun r => convertRawJobResultToProcessedJobResult r byJob bugCache release) =
      rawJobResults.map
        (fun e => convertRawJobResultToProcessedJobResult e.2 byJob bugCache release) := by
    rw [List.map_map]
    rfl
  have h1 : (summarizeJobRunResults rawJobResults byJob bugCache release
      numberOfDaysOfData).1.Perm
      ((rawJobResults.map
        (fun e => convertRawJobResultToProcessedJobResult e.2 byJob bugCache release)).filter
        (fun job => decide (job.Successes + job.Failures >
          Int.tdiv (wrap64 (numberOfDaysOfData * 3)) 2))) := by
    unfold summarizeJobRunResults
    rw [foldl_summarizeStep, hmap]
    simp only [List.nil_append]
    refine (sortStable_perm _ _).trans ?_
    rw [List.filter_congr hcongr]
  have h2 : (summarizeJobRunResults rawJobResults byJob bugCache release
      numberOfDaysOfData).2.Perm
      ((rawJobResults.map
        (fun e => convertRawJobResultToProcessedJobResult e.2 byJob bugCache release)).filter
        (fun job => !decide (job.Successes + job.Failures >
          Int.tdiv (wrap64 (numberOfDaysOfData * 3)) 2))) := by
    unfold summarizeJobRunResults
    rw [foldl_summarizeStep, hmap]
    simp only [List.nil_append]
    refine (sortStable_perm _ _).trans ?_
    have hneg : ∀ job ∈ rawJobResults.map
        (fun e => convertRawJobResultToProcessedJobResult e.2 byJob bugCache release),
        (!decide (wrap64 (job.Successes + job.Failures) >
            Int.tdiv (wrap64 (numberOfDaysOfData * 3)) 2)) =
          !decide (job.Successes + job.Failures >
            Int.tdiv (wrap64 (numberOfDaysOfData * 3)) 2) := by
      intro job hjob
      rw [hcongr job hjob]
    rw [List.filter_congr hneg]
  have h12 := (h1.append h2).trans (List.filter_append_perm _ _)
  refine ⟨h1, h2, ?_, ?_, h12, ?_, ?_, threshold_eq_floor numberOfDaysOfData, ?_⟩
  · intro job hjob
    have := (List.mem_filter.1 (h1.subset hjob)).2
    simpa using this
  · intro job hjob
    have := (List.mem_filter.1 (h2.subset hjob)).2
    simpa using this
  · intro e he
    have hmem : convertRawJobResultToProcessedJobResult e.2 byJob bugCache release ∈
        rawJobResults.map
          (fun e => convertRawJobResultToProcessedJobResult e.2 byJob bugCache release) :=
      List.mem_map.2 ⟨e, he, rfl⟩
    constructor
    · rw [h1.mem_iff, List.mem_filter]
      simp [hmem]
    · rw [h2.mem_iff, List.mem_filter]
      simp [hmem]
  · have := h12.length_eq
    simpa using this
  · intro hlo hhi job hjob
    obtain ⟨e, he, rfl⟩ := List.mem_map.1 hjob
    have hnn := (convert_sum_range e.2 byJob bugCache release (hlen e he)).2
    by_cases h0 : 0 ≤ numberOfDaysOfData
    · rw [threshold_eq_floor numberOfDaysOfData h0 hhi]
    · have hneg : numberOfDaysOfData * 3 < 0 := by omega
      have ht : Int.tdiv (wrap64 (numberOfDaysOfData * 3)) 2 < 0 := by
        rw [wrap64_of_range hlo hhi]
        have e := Int.neg_tdiv (-(numberOfDaysOfData * 3)) 2
        rw [neg_neg, @Int.tdiv_eq_ediv (-(numberOfDaysOfData * 3)) 2 (by omega)
          (by norm_num)] at e
        rw [e]
        omega
      have hfl : ⌊(numberOfDaysOfData : ℚ) * (3 / 2)⌋ < 0 := by
        refine Int.floor_lt.2 ?_
        have : (numberOfDaysOfData : ℚ) < 0 := by exact_mod_cast lt_of_not_le h0
        push_cast
        linarith
      constructor <;> intro _ <;> omega

theorem summarize_classification_witness :
    (∀ e ∈ sampleRawJobs, e.2.JobRunResults.length < 2 ^ 63) ∧
    (∀ job ∈ (summarizeJobRunResults sampleRawJobs (fun _ => []) sampleBugCache "4.6" 1).1,
      job.Successes + job.Failures > Int.tdiv (wrap64 (1 * 3)) 2) :=
  ⟨by decide,
   (summarize_classification sampleRawJobs (fun _ => []) sampleBugCache "4.6" 1
     (by decide)).2.2.1⟩

/-- C8: both lists returned by `summarizeJobRunResults` ascend in `PassPercentage`: the
element at a lower position never has the greater pass percentage. -/
theorem summarize_sorted (rawJobResults : List (String × RawJobResult))
    (byJob : String → List TestResult) (bugCache : BugCache) (release : String)
    (numberOfDaysOfData : ℤ) :
    (∀ (i j : ℕ)
      (hi : i < (summarizeJobRunResults rawJobResults byJob bugCache release
        numberOfDaysOfData).1.length)
      (hj : j < (summarizeJobRunResults rawJobResults byJob bugCache release
        numberOfDaysOfData).1.length),
      i < j →
      ((summarizeJobRunResults rawJobResults byJob bugCache release
        numberOfDaysOfData).1[i]).PassPercentage ≤
      ((summarizeJobRunResults rawJobResults byJob bugCache release
        numberOfDaysOfData).1[j]).PassPercentage) ∧
    (∀ (i j : ℕ)
      (hi : i < (summarizeJobRunResults rawJobResults byJob bugCache release
        numberOfDaysOfData).2.length)
      (hj : j < (summarizeJobRunResults rawJobResults byJob bugCache release
        numberOfDaysOfData).2.length),
      i < j →
      ((summarizeJobRunResults rawJobResults byJob bugCache release
        numberOfDaysOfData).2[i]).PassPercentage ≤
      ((summarizeJobRunResults rawJobResults byJob bugCache release
        numberOfDaysOfData).2[j]).PassPercentage) := by
  constructor
  · intro i j hi hj hij
    exact List.pairwise_iff_getElem.1 (sortStable_passPercentage_pairwise _) i j hi hj hij
  · intro i j hi hj hij
    exact List.pairwise_iff_getElem.1 (sortStable_passPercentage_pairwise _) i j hi hj hij

theorem summarize_sorted_witness :
    ((summarizeJobRunResults sampleRawJobs (fun _ => []) sampleBugCache "4.6" 0).1.get
      ⟨0, by decide!⟩).PassPercentage ≤
    ((summarizeJobRunResults sampleRawJobs (fun _ => []) sampleBugCache "4.6" 0).1.get
      ⟨1, by decide!⟩).PassPercentage :=
  (summarize_sorted sampleRawJobs (fun _ => []) sampleBugCache "4.6" 0).1 0 1 _ _ (by decide)

/-- C9 fails on the code: the two enumeration orders of one and the same input map (two
jobs with equal pass percentages) give `jobs` lists in different orders. -/
theorem summarize_depends_on_enumeration :
    (tiedRawJobs.map Prod.fst).Nodup ∧
    tiedRawJobs.reverse.Perm tiedRawJobs ∧
    (summarizeJobRunResults tiedRawJobs (fun _ => []) sampleBugCache "4.6" 0).1.map
      (fun job => (job.Name, job.PassPercentage)) = [("A", 100), ("B", 100)] ∧
    (summarizeJobRunResults tiedRawJobs.reverse (fun _ => []) sampleBugCache "4.6" 0).1.map
      (fun job => (job.Name, job.PassPercentage)) = [("B", 100), ("A", 100)] ∧
    (summarizeJobRunResults tiedRawJobs (fun _ => []) sampleBugCache "4.6" 0).1 ≠
      (summarizeJobRunResults tiedRawJobs.reverse (fun _ => []) sampleBugCache "4.6" 0).1 := by
  refine ⟨by decide, List.reverse_perm _, by decide!, by decide!, by decide!⟩

theorem wrap64_add_left (a b : ℤ) : wrap64 (wrap64 a + b) = wrap64 (a + b) := by
  unfold wrap64
  norm_num
  omega

theorem platformStep_eq (report : TestReport) (job : JobResult)
    (m : List (String × JobResult)) (platform : String) :
    platformStep report job m platform =
      goMapStore m platform (platformEntry report job platform (goMapLookup m platform)) :=
  rfl

theorem goMapLookup_nil (key : String) : goMapLookup [] key = {} := rfl

theorem goMapLookup_cons (k : String) (w : JobResult) (rest : List (String × JobResult))
    (key : String) :
    goMapLookup ((k, w) :: rest) key = if k = key then w else goMapLookup rest key := by
  by_cases h : k = key
  · subst h
    simp [goMapLookup, List.lookup]
  · have h' : (key == k) = false := by
      simpa using fun e => h e.symm
    simp [goMapLookup, List.lookup, h', h]

theorem goMapLookup_store (m : List (String × JobResult)) (key : String) (v : JobResult)
    (k : String) :
    goMapLookup (goMapStore m key v) k = if k = key then v else goMapLookup m k := by
  induction m with
  | nil =>
    by_cases h : k = key
    · simp [goMapStore, goMapLookup_cons, h]
    · have h' : ¬ key = k := fun e => h e.symm
      simp [goMapStore, goMapLookup_cons, h, h']
  | cons e rest ih =>
    obtain ⟨k0, w⟩ := e
    by_cases h0 : k0 = key
    · subst h0
      by_cases h : k = k0
      · simp [goMapStore, goMapLookup_cons, h]
      · have h' : ¬ k0 = k := fun e => h e.symm
        simp [goMapStore, goMapLookup_cons, h, h']
    · by_cases h : k = key
      · subst h
        simp [goMapStore, goMapLookup_cons, h0, ih]
      · simp [goMapStore, goMapLookup_cons, h0, ih, h]

theorem goMapStore_keys (m : List (String × JobResult)) (key : String) (v : JobResult) :
    (goMapStore m key v).map Prod.fst =
      if key ∈ m.map Prod.fst then m.map Prod.fst else m.map Prod.fst ++ [key] := by
  induction m with
  | nil => simp [goMapStore]
  | cons e rest ih =>
    obtain ⟨k0, w⟩ := e
    by_cases h0 : k0 = key
    · subst h0
      simp [goMapStore]
    · have h' : ¬ key = k0 := fun e => h0 e.symm
      by_cases hm : key ∈ rest.map Prod.fst
      · simp only [goMapStore, h0, if_false, List.map_cons, ih, hm, if_true, List.mem_cons,
          or_true]
      · simp only [goMapStore, h0, if_false, List.map_cons, ih, hm, List.mem_cons, h',
          or_self, List.cons_append]

theorem goMapStore_keys_nodup (m : List (String × JobResult)) (key : String)
    (v : JobResult) (h : (m.map Prod.fst).Nodup) :
    ((goMapStore m key v).map Prod.fst).Nodup := by
  rw [goMapStore_keys]
  by_cases hm : key ∈ m.map Prod.fst
  · simpa [hm] using h
  · rw [if_neg hm]
    exact List.Nodup.append h (List.nodup_singleton _) (by simpa using hm)

theorem goMapStore_mem_keys (m : List (String × JobResult)) (key : String) (v : JobResult)
    (k : String) :
    k ∈ (goMapStore m key v).map Prod.fst ↔ k ∈ m.map Prod.fst ∨ k = key := by
  rw [goMapStore_keys]
  by_cases hm : key ∈ m.map Prod.fst
  · rw [if_pos hm]
    constructor
    · exact Or.inl
    · rintro (h | h)
      · exact h
      · rw [h]; exact hm
  · rw [if_neg hm]
    simp

/-- With distinct keys, the entries of the map are the keys paired with what a read at
the key returns. -/
theorem mem_iff_goMapLookup (m : List (String × JobResult))
    (h : (m.map Prod.fst).Nodup) (k : String) (v : JobResult) :
    (k, v) ∈ m ↔ k ∈ m.map Prod.fst ∧ goMapLookup m k = v := by
  induction m with
  | nil => simp
  | cons e rest ih =>
    obtain ⟨k0, w⟩ := e
    simp only [List.map_cons, List.nodup_cons] at h
    rw [goMapLookup_cons]
    by_cases h0 : k0 = k
    · subst h0
      have hnot : ∀ v, (k0, v) ∉ rest := fun v hv => h.1 (List.mem_map.2 ⟨_, hv, rfl⟩)
      simp only [List.mem_cons, Prod.mk.injEq, true_and, hnot, or_false, List.map_cons,
        true_or, if_true]
      exact eq_comm
    · have h' : ¬ k = k0 := fun e => h0 e.symm
      simp only [List.mem_cons, Prod.mk.injEq, h', false_and, false_or, List.map_cons,
        h0, if_false]
      exact ih h.2

/-- The inner loop of `SummarizeJobsByPlatform` over the platform tags of one job: the
keys gain the tags, a read at a tag returns an entry named after it, a read elsewhere
is unchanged, and each count grows by the count of the job once for every occurrence of
the key among the tags. -/
theorem foldl_platformStep (report : TestReport) (job : JobResult) :
    ∀ (tags : List String) (m : List (String × JobResult)),
      ((m.map Prod.fst).Nodup →
        ((tags.foldl (platformStep report job) m).map Prod.fst).Nodup) ∧
      (∀ k, k ∈ (tags.foldl (platformStep report job) m).map Prod.fst ↔
        k ∈ m.map Prod.fst ∨ k ∈ tags) ∧
      (∀ k, k ∈ tags →
        (goMapLookup (tags.foldl (platformStep report job) m) k).Name = k ∧
        (goMapLookup (tags.foldl (platformStep report job) m) k).Platform = k) ∧
      (∀ k, k ∉ tags →
        goMapLookup (tags.foldl (platformStep report job) m) k = goMapLookup m k) ∧
      (∀ k (a b c : ℤ), (goMapLookup m k).Successes = wrap64 a →
        (goMapLookup m k).Failures = wrap64 b →
        (goMapLookup m k).KnownFailures = wrap64 c →
        (goMapLookup (tags.foldl (platformStep report job) m) k).Successes =
          wrap64 (a + (tags.count k : ℤ) * job.Successes) ∧
        (goMapLookup (tags.foldl (platformStep report job) m) k).Failures =
          wrap64 (b + (tags.count k : ℤ) * job.Failures) ∧
        (goMapLookup (tags.foldl (platformStep report job) m) k).KnownFailures =
          wrap64 (c + (tags.count k : ℤ) * job.KnownFailures)) := by
  intro tags
  induction tags with
  | nil =>
    intro m
    refine ⟨by simp, by simp, by simp, by simp, fun k a b c ha hb hc => ?_⟩
    simpa using ⟨ha, hb, hc⟩
  | cons t ts ih =>
    intro m
    obtain ⟨ih1, ih2, ih3, ih4, ih5⟩ := ih (platformStep report job m t)
    simp only [List.foldl_cons]
    have hstep : ∀ k, goMapLookup (platformStep report job m t) k =
        if k = t then platformEntry report job t (goMapLookup m t) else goMapLookup m k := by
      intro k
      rw [platformStep_eq, goMapLookup_store]
    refine ⟨fun hm => ih1 ?_, fun k => ?_, fun k hk => ?_, fun k hk => ?_,
      fun k a b c ha hb hc => ?_⟩
    · rw [platformStep_eq]
      exact goMapStore_keys_nodup _ _ _ hm
    · rw [ih2, platformStep_eq, goMapStore_mem_keys, List.mem_cons]
      tauto
    · by_cases hkts : k ∈ ts
      · exact ih3 k hkts
      · have hkt : k = t := by
          rcases List.mem_cons.1 hk with h | h
          · exact h
          · exact absurd h hkts
        rw [ih4 k hkts, hstep, if_pos hkt, hkt]
        simp [platformEntry]
    · rw [List.mem_cons, not_or] at hk
      rw [ih4 k hk.2, hstep, if_neg hk.1]
    · by_cases hkt : k = t
      · subst hkt
        have e := hstep k
        rw [if_pos rfl] at e
        have := ih5 k (a + job.Successes) (b + job.Failures) (c + job.KnownFailures)
          (by rw [e]; simp [platformEntry, ha, wrap64_add_left])
          (by rw [e]; simp [platformEntry, hb, wrap64_add_left])
          (by rw [e]; simp [platformEntry, hc, wrap64_add_left])
        rw [List.count_cons_self]
        push_cast
        rw [show a + ((ts.count k : ℤ) + 1) * job.Successes =
            a + job.Successes + (ts.count k : ℤ) * job.Successes by ring,
          show b + ((ts.count k : ℤ) + 1) * job.Failures =
            b + job.Failures + (ts.count k : ℤ) * job.Failures by ring,
          show c + ((ts.count k : ℤ) + 1) * job.KnownFailures =
            c + job.KnownFailures + (ts.count k : ℤ) * job.KnownFailures by ring]
        exact this
      · have e := hstep k
        rw [if_neg hkt] at e
        have := ih5 k a b c (by rw [e]; exact ha) (by rw [e]; exact hb) (by rw [e]; exact hc)
        rw [List.count_cons_of_ne hkt]
        exact this

theorem platformCountedSum_append (FindPlatform : String → List String)
    (js : List JobResult) (job : JobResult) (tag : String) (field : JobResult → ℤ) :
    platformCountedSum FindPlatform (js ++ [job]) tag field =
      platformCountedSum FindPlatform js tag field +
        ((FindPlatform job.Name).count tag : ℤ) * field job := by
  simp [platformCountedSum]

/-- Where no job repeats the tag in its tag list, the sum with multiplicities is the
sum over the jobs whose tags contain the tag. -/
theorem platformCountedSum_eq_platformSum (FindPlatform : String → List String)
    (tag : String) (field : JobResult → ℤ) :
    ∀ jobs : List JobResult,
      (∀ job ∈ jobs, (FindPlatform job.Name).count tag ≤ 1) →
      platformCountedSum FindPlatform jobs tag field =
        platformSum FindPlatform jobs tag field := by
  intro jobs
  induction jobs with
  | nil => intro _; rfl
  | cons job rest ih =>
    intro h
    have hrest := ih (fun j hj => h j (List.mem_cons_of_mem _ hj))
    have hjob := h job (List.mem_cons_self _ _)
    unfold platformCountedSum platformSum at *
    by_cases hmem : tag ∈ FindPlatform job.Name
    · have hc : (FindPlatform job.Name).count tag = 1 := by
        have := List.count_pos_iff.2 hmem
        omega
      simp [List.filter_cons, hmem, hc, hrest]
    · have hc : (FindPlatform job.Name).count tag = 0 := List.count_eq_zero.2 hmem
      simp [List.filter_cons, hmem, hc, hrest]

theorem PlatformInv_step (FindPlatform : String → List String) (report : TestReport)
    (m : List (String × JobResult)) (js : List JobResult) (job : JobResult)
    (h : PlatformInv FindPlatform m js) :
    PlatformInv FindPlatform ((FindPlatform job.Name).foldl (platformStep report job) m)
      (js ++ [job]) := by
  obtain ⟨ha, hb, hc, hd⟩ := h
  obtain ⟨f1, f2, f3, f4, f5⟩ := foldl_platformStep report job (FindPlatform job.Name) m
  refine ⟨f1 ha, fun k => ?_, fun k hk => ?_, fun k => ?_⟩
  · rw [f2, hb]
    constructor
    · rintro (⟨j, hj, hkj⟩ | hk)
      · exact ⟨j, List.mem_append_left _ hj, hkj⟩
      · exact ⟨job, by simp, hk⟩
    · rintro ⟨j, hj, hkj⟩
      rcases List.mem_append.1 hj with hj | hj
      · exact Or.inl ⟨j, hj, hkj⟩
      · rw [List.mem_singleton] at hj
        exact Or.inr (hj ▸ hkj)
  · by_cases hkt : k ∈ FindPlatform job.Name
    · exact f3 k hkt
    · rw [f4 k hkt]
      rcases (f2 k).1 hk with hk' | hk'
      · exact hc k hk'
      · exact absurd hk' hkt
  · simp only [platformCountedSum_append]
    obtain ⟨d1, d2, d3⟩ := hd k
    exact f5 k _ _ _ d1 d2 d3

theorem PlatformInv_foldl (FindPlatform : String → List String) (report : TestReport) :
    ∀ (jobs : List JobResult) (m : List (String × JobResult)) (js : List JobResult),
      PlatformInv FindPlatform m js →
      PlatformInv FindPlatform
        (jobs.foldl
          (fun jobRunsByPlatform job =>
            (FindPlatform job.Name).foldl (platformStep report job) jobRunsByPlatform) m)
        (js ++ jobs) := by
  intro jobs
  induction jobs with
  | nil => intro m js h; simpa using h
  | cons job rest ih =>
    intro m js h
    have := ih _ (js ++ [job]) (PlatformInv_step FindPlatform report m js job h)
    simpa using this

theorem PlatformInv_accumulate (FindPlatform : String → List String) (report : TestReport) :
    PlatformInv FindPlatform (accumulateByPlatform FindPlatform report) report.JobResults := by
  have h0 : PlatformInv FindPlatform [] [] := by
    refine ⟨by simp, by simp, by simp, fun k => ?_⟩
    simp [goMapLookup_nil, platformCountedSum, wrap64_zero]
  simpa [accumulateByPlatform] using
    PlatformInv_foldl FindPlatform report report.JobResults [] [] h0

theorem foldl_append_singleton {α β : Type} (f : α → β) :
    ∀ (l : List α) (init : List β),
      l.foldl (fun acc x => acc ++ [f x]) init = init ++ l.map f := by
  intro l
  induction l with
  | nil => intro init; simp
  | cons x rest ih => intro init; simp [ih]

/-- The result of `SummarizeJobsByPlatform` is, up to order, the list of the entries of
the accumulated map with their percentages filled in. -/
theorem SummarizeJobsByPlatform_perm (FindPlatform : String → List String)
    (rangeOrder : List (String × JobResult) → List (String × JobResult))
    (report : TestReport) (hrange : ∀ m, (rangeOrder m).Perm m) :
    (SummarizeJobsByPlatform FindPlatform rangeOrder report).Perm
      ((accumulateByPlatform FindPlatform report).map
        (fun entry => platformPercentages entry.2)) := by
  unfold SummarizeJobsByPlatform
  refine (sortStable_perm _ _).trans ?_
  rw [foldl_append_singleton (fun entry : String × JobResult => platformPercentages entry.2)]
  simpa using (hrange _).map _

/-- C10 as stated fails for a classifier whose tag list repeats a tag: with the tag list
`["aws", "aws"]` for every name, a single job with counts 3, 1, 1 gives the entry `aws`
the counts 6, 2, 2, while the sums over the jobs whose tag list contains `aws` are
3, 1, 1. -/
theorem SummarizeJobsByPlatform_entries_counterexample :
    (SummarizeJobsByPlatform repeatedTagFindPlatform id repeatedTagReport).map
      (fun e => (e.Name, e.Platform, e.Successes, e.Failures, e.KnownFailures)) =
      [("aws", "aws", 6, 2, 2)] ∧
    platformSum repeatedTagFindPlatform repeatedTagReport.JobResults "aws"
      (fun job => job.Successes) = 3 ∧
    platformSum repeatedTagFindPlatform repeatedTagReport.JobResults "aws"
      (fun job => job.Failures) = 1 ∧
    platformSum repeatedTagFindPlatform repeatedTagReport.JobResults "aws"
      (fun job => job.KnownFailures) = 1 := by
  decide!

/-- C10 (amended): for every report and every classifier, `SummarizeJobsByPlatform`
returns exactly one entry per distinct platform tag derived from some job of the report;
the entry has `Name` and `Platform` equal to the tag, and its `Successes`, `Failures`
and `KnownFailures` are the (64-bit) sums of those fields over the jobs, each job taken
once for every occurrence of the tag in its tag list, hence the sums themselves whenever
these fit the `int` range; where no job of the report repeats the tag in its tag list
these are the sums over the jobs whose tag list contains the tag; a job with two
distinct tags is counted in full in both entries. -/
theorem SummarizeJobsByPlatform_entries (FindPlatform : String → List String)
    (rangeOrder : List (String × JobResult) → List (String × JobResult))
    (report : TestReport)
    (hrange : ∀ m, (rangeOrder m).Perm m) :
    ((SummarizeJobsByPlatform FindPlatform rangeOrder report).map
      (fun e => e.Name)).Nodup ∧
    (∀ tag, tag ∈ (SummarizeJobsByPlatform FindPlatform rangeOrder report).map
        (fun e => e.Name) ↔
      ∃ job ∈ report.JobResults, tag ∈ FindPlatform job.Name) ∧
    (∀ e ∈ SummarizeJobsByPlatform FindPlatform rangeOrder report,
      e.Platform = e.Name ∧
      e.Successes =
        wrap64 (platformCountedSum FindPlatform report.JobResults e.Name
          (fun job => job.Successes)) ∧
      e.Failures =
        wrap64 (platformCountedSum FindPlatform report.JobResults e.Name
          (fun job => job.Failures)) ∧
      e.KnownFailures =
        wrap64 (platformCountedSum FindPlatform report.JobResults e.Name
          (fun job => job.KnownFailures)) ∧
      (∀ field : JobResult → ℤ,
        -2 ^ 63 ≤ platformCountedSum FindPlatform report.JobResults e.Name field →
        platformCountedSum FindPlatform report.JobResults e.Name field < 2 ^ 63 →
        wrap64 (platformCountedSum FindPlatform report.JobResults e.Name field) =
          platformCountedSum FindPlatform report.JobResults e.Name field) ∧
      ((∀ job ∈ report.JobResults, (FindPlatform job.Name).count e.Name ≤ 1) →
        ∀ field : JobResult → ℤ,
          platformCountedSum FindPlatform report.JobResults e.Name field =
            platformSum FindPlatform report.JobResults e.Name field)) := by
  obtain ⟨ha, hb, hc, hd⟩ := PlatformInv_accumulate FindPlatform report
  have hperm := SummarizeJobsByPlatform_perm FindPlatform rangeOrder report hrange
  have hentry : ∀ entry ∈ accumulateByPlatform FindPlatform report,
      entry.1 ∈ (accumulateByPlatform FindPlatform report).map Prod.fst ∧
        goMapLookup (accumulateByPlatform FindPlatform report) entry.1 = entry.2 := by
    intro entry hentry
    exact (mem_iff_goMapLookup _ ha entry.1 entry.2).1 hentry
  have hnames : (accumulateByPlatform FindPlatform report).map
      (fun entry => (platformPercentages entry.2).Name) =
      (accumulateByPlatform FindPlatform report).map Prod.fst := by
    apply List.map_congr_left
    intro entry hmem
    obtain ⟨h1, h2⟩ := hentry entry hmem
    have := (hc entry.1 h1).1
    rw [h2] at this
    exact this
  have hpermNames : ((SummarizeJobsByPlatform FindPlatform rangeOrder report).map
      (fun e => e.Name)).Perm ((accumulateByPlatform FindPlatform report).map Prod.fst) := by
    have := hperm.map (fun e : JobResult => e.Name)
    rw [List.map_map] at this
    rw [← hnames]
    exact this
  refine ⟨hpermNames.nodup_iff.2 ha, fun tag => ?_, fun e he => ?_⟩
  · rw [hpermNames.mem_iff, hb]
  · obtain ⟨entry, hmem, rfl⟩ := List.mem_map.1 (hperm.subset he)
    obtain ⟨h1, h2⟩ := hentry entry hmem
    obtain ⟨c1, c2⟩ := hc entry.1 h1
    obtain ⟨d1, d2, d3⟩ := hd entry.1
    rw [h2] at c1 c2 d1 d2 d3
    have hname : (platformPercentages entry.2).Name = entry.1 := c1
    rw [hname]
    exact ⟨c2, d1, d2, d3, fun field => wrap64_of_range,
      fun hone field =>
        platformCountedSum_eq_platformSum FindPlatform entry.1 field report.JobResults hone⟩

theorem SummarizeJobsByPlatform_entries_witness :
    (∀ m : List (String × JobResult), (id m).Perm m) ∧
    (SummarizeJobsByPlatform sampleFindPlatform id sampleReport).map
      (fun e => (e.Name, e.Platform, e.Successes, e.Failures, e.KnownFailures)) =
      [("aws", "aws", 8, 7, 3), ("metal", "metal", 6, 4, 1)] ∧
    ((SummarizeJobsByPlatform sampleFindPlatform id sampleReport).map
      (fun e => e.Name)).Nodup ∧
    (∀ tag, tag ∈ (SummarizeJobsByPlatform repeatedTagFindPlatform id
        repeatedTagReport).map (fun e => e.Name) ↔
      ∃ job ∈ repeatedTagReport.JobResults, tag ∈ repeatedTagFindPlatform job.Name) ∧
    platformCountedSum repeatedTagFindPlatform repeatedTagReport.JobResults "aws"
      (fun job => job.Successes) = 6 :=
  ⟨fun m => List.Perm.refl m, by decide!,
    (SummarizeJobsByPlatform_entries sampleFindPlatform id sampleReport
      (fun m => List.Perm.refl m)).1,
    (SummarizeJobsByPlatform_entries repeatedTagFindPlatform id repeatedTagReport
      (fun m => List.Perm.refl m)).2.1,
    by decide⟩

theorem platformPercentages_fields (platform : JobResult) :
    (platformPercentages platform).Name = platform.Name ∧
    (platformPercentages platform).Successes = platform.Successes ∧
    (platformPercentages platform).Failures = platform.Failures ∧
    (platformPercentages platform).KnownFailures = platform.KnownFailures ∧
    (platformPercentages platform).PassPercentage =
      Percent platform.Successes platform.Failures ∧
    (platformPercentages platform).PassPercentageWithKnownFailures =
      Percent (wrap64 (platform.Successes + platform.KnownFailures))
        (wrap64 (platform.Failures - platform.KnownFailures)) :=
  ⟨rfl, rfl, rfl, rfl, rfl, rfl⟩

/-- C11: every entry returned by `SummarizeJobsByPlatform` has
`PassPercentage = Percent(Successes, Failures)` and `PassPercentageWithKnownFailures =
Percent(Successes + KnownFailures, Failures - KnownFailures)` over its own (summed)
counts, the two arguments being the Go sum and difference, which are the sum and the
difference themselves when these fit the `int` range; and the returned list ascends in
`PassPercentage`. -/
theorem SummarizeJobsByPlatform_percentages (FindPlatform : String → List String)
    (rangeOrder : List (String × JobResult) → List (String × JobResult))
    (report : TestReport) :
    (∀ e ∈ SummarizeJobsByPlatform FindPlatform rangeOrder report,
      e.PassPercentage = Percent e.Successes e.Failures ∧
      e.PassPercentageWithKnownFailures =
        Percent (wrap64 (e.Successes + e.KnownFailures))
          (wrap64 (e.Failures - e.KnownFailures)) ∧
      (-2 ^ 63 ≤ e.Successes + e.KnownFailures → e.Successes + e.KnownFailures < 2 ^ 63 →
        -2 ^ 63 ≤ e.Failures - e.KnownFailures → e.Failures - e.KnownFailures < 2 ^ 63 →
        e.PassPercentageWithKnownFailures =
          Percent (e.Successes + e.KnownFailures) (e.Failures - e.KnownFailures))) ∧
    (∀ (i j : ℕ)
      (hi : i < (SummarizeJobsByPlatform FindPlatform rangeOrder report).length)
      (hj : j < (SummarizeJobsByPlatform FindPlatform rangeOrder report).length),
      i < j →
      ((SummarizeJobsByPlatform FindPlatform rangeOrder report)[i]).PassPercentage ≤
        ((SummarizeJobsByPlatform FindPlatform rangeOrder report)[j]).PassPercentage) := by
  constructor
  · intro e he
    have hmem : e ∈ (rangeOrder (accumulateByPlatform FindPlatform report)).map
        (fun entry => platformPercentages entry.2) := by
      have h := (sortStable_perm _ _).subset he
      rw [foldl_append_singleton
        (fun entry : String × JobResult => platformPercentages entry.2)] at h
      simpa using h
    obtain ⟨entry, _, rfl⟩ := List.mem_map.1 hmem
    obtain ⟨_, h2, h3, h4, h5, h6⟩ := platformPercentages_fields entry.2
    rw [h2, h3, h4, h5, h6]
    refine ⟨rfl, rfl, fun a b c d => ?_⟩
    rw [wrap64_of_range a b, wrap64_of_range c d]
  · intro i j hi hj hij
    exact List.pairwise_iff_getElem.1 (sortStable_passPercentage_pairwise _) i j hi hj hij

theorem SummarizeJobsByPlatform_percentages_witness :
    ((SummarizeJobsByPlatform sampleFindPlatform id sampleReport).get
      ⟨0, by decide!⟩).PassPercentage ≤
    ((SummarizeJobsByPlatform sampleFindPlatform id sampleReport).get
      ⟨1, by decide!⟩).PassPercentage :=
  (SummarizeJobsByPlatform_percentages sampleFindPlatform id sampleReport).2 0 1 _ _
    (by decide)

theorem foldl_sumTestFailures (groups : List JobRunResult) :
    ∀ a : ℤ, groups.foldl (fun count group => wrap64 (count + group.TestFailures))
      (wrap64 a) = wrap64 (a + (groups.map (fun g => g.TestFailures)).sum) := by
  induction groups with
  | nil => intro a; simp
  | cons g rest ih =>
    intro a
    simp only [List.foldl_cons, List.map_cons, List.sum_cons]
    rw [wrap64_add_left, ih, add_assoc]

/-- The summing loop yields the 64-bit sum of the `TestFailures`. -/
theorem sumTestFailures_eq (groups : List JobRunResult) :
    sumTestFailures groups = wrap64 ((groups.map (fun g => g.TestFailures)).sum) := by
  have h := foldl_sumTestFailures groups 0
  rw [wrap64_zero, zero_add] at h
  exact h

/-- A 64-bit dividend divided by a positive length stays in the 64-bit range. -/
theorem goDiv_length (c : ℤ) (n : ℕ) (hn : n ≠ 0) (h1 : -2 ^ 63 ≤ c) (h2 : c < 2 ^ 63) :
    goDiv c n = some (Int.tdiv c n) := by
  have hn' : (0 : ℤ) < (n : ℤ) := by exact_mod_cast Nat.pos_of_ne_zero hn
  have hne : (n : ℤ) ≠ 0 := hn'.ne'
  unfold goDiv
  rw [if_neg hne]
  congr 1
  rcases le_or_lt 0 c with hc | hc
  · have e := Int.tdiv_eq_ediv hc hn'.le
    have l1 : 0 ≤ c / (n : ℤ) := Int.ediv_nonneg hc hn'.le
    have l2 : c / (n : ℤ) ≤ c := Int.ediv_le_self _ hc
    rw [e]
    exact wrap64_of_range (by norm_num at h1 ⊢; omega) (by omega)
  · have e := Int.neg_tdiv (-c) (n : ℤ)
    rw [neg_neg, @Int.tdiv_eq_ediv (-c) (n : ℤ) (by omega) hn'.le] at e
    have l1 : 0 ≤ (-c) / (n : ℤ) := Int.ediv_nonneg (by omega) hn'.le
    have l2 : (-c) / (n : ℤ) ≤ -c := Int.ediv_le_self _ (by omega)
    rw [e]
    exact wrap64_of_range (by omega) (by norm_num at h2 ⊢; omega)

/-- Closed form of `ComputeFailureGroupStats`: it always returns, with these six
values. -/
theorem ComputeFailureGroupStats_eq (failureGroups failureGroupsPrev : List JobRunResult) :
    ComputeFailureGroupStats failureGroups failureGroupsPrev =
      some (sumTestFailures failureGroups, sumTestFailures failureGroupsPrev,
        ((failureGroups[failureGroups.length / 2]?).map (fun g => g.TestFailures)).getD 0,
        ((failureGroupsPrev[failureGroupsPrev.length / 2]?).map
          (fun g => g.TestFailures)).getD 0,
        (if failureGroups.length = 0 then 0
          else Int.tdiv (sumTestFailures failureGroups) failureGroups.length),
        (if failureGroupsPrev.length = 0 then 0
          else Int.tdiv (sumTestFailures failureGroups) failureGroupsPrev.length)) := by
  have hr : -2 ^ 63 ≤ sumTestFailures failureGroups ∧
      sumTestFailures failureGroups < 2 ^ 63 := by
    rw [sumTestFailures_eq]
    exact wrap64_range _
  unfold ComputeFailureGroupStats
  by_cases h1 : failureGroups.length = 0 <;> by_cases h2 : failureGroupsPrev.length = 0
  · have e1 := List.length_eq_zero.1 h1
    have e2 := List.length_eq_zero.1 h2
    subst e1 e2
    rfl
  · have e1 := List.length_eq_zero.1 h1
    subst e1
    have hlt : failureGroupsPrev.length / 2 < failureGroupsPrev.length := by omega
    simp [h2, List.getElem?_eq_getElem hlt, goDiv_length _ _ h2 hr.1 hr.2]
  · have e2 := List.length_eq_zero.1 h2
    subst e2
    have hlt : failureGroups.length / 2 < failureGroups.length := by omega
    simp [h1, List.getElem?_eq_getElem hlt, goDiv_length _ _ h1 hr.1 hr.2]
  · have hlt1 : failureGroups.length / 2 < failureGroups.length := by omega
    have hlt2 : failureGroupsPrev.length / 2 < failureGroupsPrev.length := by omega
    simp [h1, h2, List.getElem?_eq_getElem hlt1, List.getElem?_eq_getElem hlt2,
      goDiv_length _ _ h1 hr.1 hr.2, goDiv_length _ _ h2 hr.1 hr.2]

/-- C15: `ComputeFailureGroupStats` returns `avg = count / len(failureGroups)` and
`avgPrev = count / len(failureGroupsPrev)` in (truncating) integer division, `count`
being in both the (64-bit) sum of `TestFailures` over the current `failureGroups`, not
`countPrev`; an average is `0` when its own list is empty. -/
theorem ComputeFailureGroupStats_averages
    (failureGroups failureGroupsPrev : List JobRunResult) :
    ∃ count countPrev median medianPrev avg avgPrev : ℤ,
      ComputeFailureGroupStats failureGroups failureGroupsPrev =
        some (count, countPrev, median, medianPrev, avg, avgPrev) ∧
      count = wrap64 ((failureGroups.map (fun g => g.TestFailures)).sum) ∧
      (-2 ^ 63 ≤ (failureGroups.map (fun g => g.TestFailures)).sum →
        (failureGroups.map (fun g => g.TestFailures)).sum < 2 ^ 63 →
        count = (failureGroups.map (fun g => g.TestFailures)).sum) ∧
      (failureGroups ≠ [] → avg = Int.tdiv count failureGroups.length) ∧
      (failureGroups = [] → avg = 0) ∧
      (failureGroupsPrev ≠ [] → avgPrev = Int.tdiv count failureGroupsPrev.length) ∧
      (failureGroupsPrev = [] → avgPrev = 0) := by
  refine ⟨_, _, _, _, _, _, ComputeFailureGroupStats_eq failureGroups failureGroupsPrev,
    sumTestFailures_eq failureGroups, fun h1 h2 => ?_, fun h => ?_, fun h => ?_,
    fun h => ?_, fun h => ?_⟩
  · rw [sumTestFailures_eq, wrap64_of_range h1 h2]
  · rw [if_neg (fun e => h (List.length_eq_zero.1 e))]
  · rw [if_pos (by rw [h]; rfl)]
  · rw [if_neg (fun e => h (List.length_eq_zero.1 e))]
  · rw [if_pos (by rw [h]; rfl)]

theorem ComputeFailureGroupStats_averages_witness :
    ComputeFailureGroupStats [{ TestFailures := 1 }, { TestFailures := 5 },
        { TestFailures := 9 }] [{ TestFailures := 2 }, { TestFailures := 4 }] =
      some (15, 6, 5, 4, 5, 7) ∧
    ∃ count countPrev median medianPrev avg avgPrev : ℤ,
      ComputeFailureGroupStats [{ TestFailures := 1 }, { TestFailures := 5 },
          { TestFailures := 9 }] [{ TestFailures := 2 }, { TestFailures := 4 }] =
        some (count, countPrev, median, medianPrev, avg, avgPrev) ∧
      avgPrev = Int.tdiv count 2 := by
  refine ⟨by decide, ?_⟩
  obtain ⟨c, cp, m, mp, a, ap, h, _, _, _, _, h6, _⟩ :=
    ComputeFailureGroupStats_averages [{ TestFailures := 1 }, { TestFailures := 5 },
      { TestFailures := 9 }] [{ TestFailures := 2 }, { TestFailures := 4 }]
  exact ⟨c, cp, m, mp, a, ap, h, h6 (by decide)⟩

/-- C16: `ComputeFailureGroupStats` returns for all lists, empty ones included (no index
out of range, no division by zero); `count` and `countPrev` are the (64-bit) sums of
`TestFailures` over the respective lists, and `median` and `medianPrev` are the
`TestFailures` of the element at index `len/2` of the respective list as given, or `0`
for an empty list. -/
theorem ComputeFailureGroupStats_total
    (failureGroups failureGroupsPrev : List JobRunResult) :
    ∃ count countPrev median medianPrev avg avgPrev : ℤ,
      ComputeFailureGroupStats failureGroups failureGroupsPrev =
        some (count, countPrev, median, medianPrev, avg, avgPrev) ∧
      count = wrap64 ((failureGroups.map (fun g => g.TestFailures)).sum) ∧
      countPrev = wrap64 ((failureGroupsPrev.map (fun g => g.TestFailures)).sum) ∧
      (-2 ^ 63 ≤ (failureGroups.map (fun g => g.TestFailures)).sum →
        (failureGroups.map (fun g => g.TestFailures)).sum < 2 ^ 63 →
        count = (failureGroups.map (fun g => g.TestFailures)).sum) ∧
      (-2 ^ 63 ≤ (failureGroupsPrev.map (fun g => g.TestFailures)).sum →
        (failureGroupsPrev.map (fun g => g.TestFailures)).sum < 2 ^ 63 →
        countPrev = (failureGroupsPrev.map (fun g => g.TestFailures)).sum) ∧
      (failureGroups = [] → median = 0) ∧
      (failureGroups ≠ [] →
        ∃ g, failureGroups[failureGroups.length / 2]? = some g ∧
          median = g.TestFailures) ∧
      (failureGroupsPrev = [] → medianPrev = 0) ∧
      (failureGroupsPrev ≠ [] →
        ∃ g, failureGroupsPrev[failureGroupsPrev.length / 2]? = some g ∧
          medianPrev = g.TestFailures) := by
  have hmid : ∀ l : List JobRunResult, l ≠ [] →
      ∃ g, l[l.length / 2]? = some g ∧
        ((l[l.length / 2]?).map (fun g => g.TestFailures)).getD 0 = g.TestFailures := by
    intro l hl
    have hpos : 0 < l.length := List.length_pos.2 hl
    have hlt : l.length / 2 < l.length := by omega
    exact ⟨l[l.length / 2], List.getElem?_eq_getElem hlt, by
      simp [List.getElem?_eq_getElem hlt]⟩
  refine ⟨_, _, _, _, _, _, ComputeFailureGroupStats_eq failureGroups failureGroupsPrev,
    sumTestFailures_eq failureGroups, sumTestFailures_eq failureGroupsPrev,
    fun h1 h2 => ?_, fun h1 h2 => ?_, fun h => ?_, hmid failureGroups, fun h => ?_,
    hmid failureGroupsPrev⟩
  · rw [sumTestFailures_eq, wrap64_of_range h1 h2]
  · rw [sumTestFailures_eq, wrap64_of_range h1 h2]
  · rw [h]; rfl
  · rw [h]; rfl

theorem ComputeFailureGroupStats_total_witness :
    ComputeFailureGroupStats [] [] = some (0, 0, 0, 0, 0, 0) ∧
    ∃ count countPrev median medianPrev avg avgPrev : ℤ,
      ComputeFailureGroupStats [] [{ TestFailures := 3 }] =
        some (count, countPrev, median, medianPrev, avg, avgPrev) ∧
      median = 0 := by
  refine ⟨by decide, ?_⟩
  obtain ⟨c, cp, m, mp, a, ap, h, _, _, _, _, h6, _⟩ :=
    ComputeFailureGroupStats_total [] [{ TestFailures := 3 }]
  exact ⟨c, cp, m, mp, a, ap, h, h6 rfl⟩

/-- The recording loop computes the value of the loop of `areAllFailuresKnown`. -/
theorem areAllFailuresKnownTrace_fst (bugCache : BugCache) (release : String) :
    ∀ (names : List String) (b : Bool),
      (areAllFailuresKnownTrace bugCache release names b).1 =
        areAllFailuresKnownLoop bugCache release names b := by
  intro names
  induction names with
  | nil => intro b; rfl
  | cons n rest ih =>
    intro b
    by_cases h : 0 < (bugCache release "" n).length
    · simp [areAllFailuresKnownTrace, areAllFailuresKnownLoop, h, ih]
    · simp [areAllFailuresKnownTrace, areAllFailuresKnownLoop, h]

/-- The recording loop on a list whose first unknown name is `u`, after the known names
`pre`: the value is `false` and the calls are those for `pre` and `u`. -/
theorem areAllFailuresKnownTrace_upto (bugCache : BugCache) (release : String)
    (u : String) (post : List String) (hu : bugCache release "" u = []) :
    ∀ (pre : List String) (b : Bool), (∀ n ∈ pre, bugCache release "" n ≠ []) →
      areAllFailuresKnownTrace bugCache release (pre ++ u :: post) b =
        (false, (pre ++ [u]).map (fun n => (release, "", n))) := by
  intro pre
  induction pre with
  | nil =>
    intro b _
    simp [areAllFailuresKnownTrace, hu]
  | cons n rest ih =>
    intro b hpre
    have hn : 0 < (bugCache release "" n).length :=
      List.length_pos.2 (hpre n (List.mem_cons_self _ _))
    have := ih b (fun m hm => hpre m (List.mem_cons_of_mem _ hm))
    simp [areAllFailuresKnownTrace, hn, this]

/-- A list with an unknown name splits at its first unknown name. -/
theorem exists_first_unknown (bugCache : BugCache) (release : String) :
    ∀ names : List String, (∃ n ∈ names, bugCache release "" n = []) →
      ∃ pre u post, names = pre ++ u :: post ∧
        (∀ n ∈ pre, bugCache release "" n ≠ []) ∧ bugCache release "" u = [] := by
  intro names
  induction names with
  | nil => rintro ⟨n, hn, _⟩; cases hn
  | cons a rest ih =>
    rintro ⟨n, hn, hempty⟩
    by_cases ha : bugCache release "" a = []
    · exact ⟨[], a, rest, rfl, by simp, ha⟩
    · have hrest : ∃ n ∈ rest, bugCache release "" n = [] := by
        rcases List.mem_cons.1 hn with e | hmem
        · exact absurd (e ▸ hempty) ha
        · exact ⟨n, hmem, hempty⟩
      obtain ⟨pre, u, post, e, hpre, hu⟩ := ih hrest
      refine ⟨a :: pre, u, post, by rw [e]; rfl, ?_, hu⟩
      intro m hm
      rcases List.mem_cons.1 hm with e' | hmem
      · rw [e']; exact ha
      · exact hpre m hmem

/-- C19: the lookups of `areAllFailuresKnown` are those of its loop with the calls
recorded, which has the same value on every run; on a run whose `FailedTestNames` contain
a name with an empty lookup result, the value is `false` and the lookups are exactly
those for the names up to and including the first such name, with the release and the
empty component; the names after it are not looked up and do not change value or
lookups, and neither does any change of the lookup results outside these calls. -/
theorem areAllFailuresKnown_short_circuit (rawJRR : RawJobRunResult)
    (bugCache : BugCache) (release : String)
    (h : ∃ n ∈ rawJRR.FailedTestNames, bugCache release "" n = []) :
    (∀ (run : RawJobRunResult) (cache : BugCache) (rel : String),
      areAllFailuresKnown run cache rel =
        (areAllFailuresKnownTrace cache rel run.FailedTestNames true).1 ∧
      areAllFailuresKnownCalls run cache rel =
        (areAllFailuresKnownTrace cache rel run.FailedTestNames true).2) ∧
    (∃ pre u post, rawJRR.FailedTestNames = pre ++ u :: post ∧
      (∀ n ∈ pre, bugCache release "" n ≠ []) ∧ bugCache release "" u = [] ∧
      areAllFailuresKnown rawJRR bugCache release = false ∧
      areAllFailuresKnownCalls rawJRR bugCache release =
        (pre ++ [u]).map (fun n => (release, "", n)) ∧
      ∀ post' : List String,
        areAllFailuresKnown { rawJRR with FailedTestNames := pre ++ u :: post' } bugCache
          release = false ∧
        areAllFailuresKnownCalls { rawJRR with FailedTestNames := pre ++ u :: post' }
          bugCache release = (pre ++ [u]).map (fun n => (release, "", n))) ∧
    (∀ cache : BugCache,
      (∀ call ∈ areAllFailuresKnownCalls rawJRR bugCache release,
        cache call.1 call.2.1 call.2.2 = bugCache call.1 call.2.1 call.2.2) →
      areAllFailuresKnown rawJRR cache release =
        areAllFailuresKnown rawJRR bugCache release ∧
      areAllFailuresKnownCalls rawJRR cache release =
        areAllFailuresKnownCalls rawJRR bugCache release) := by
  obtain ⟨pre, u, post, e, hpre, hu⟩ := exists_first_unknown bugCache release _ h
  have hval : areAllFailuresKnown rawJRR bugCache release = false := by
    unfold areAllFailuresKnown
    rw [← areAllFailuresKnownTrace_fst, e,
      areAllFailuresKnownTrace_upto bugCache release u post hu pre true hpre]
  have hcalls : areAllFailuresKnownCalls rawJRR bugCache release =
      (pre ++ [u]).map (fun n => (release, "", n)) := by
    unfold areAllFailuresKnownCalls
    rw [e, areAllFailuresKnownTrace_upto bugCache release u post hu pre true hpre]
  refine ⟨fun run cache rel => ⟨?_, rfl⟩, ⟨pre, u, post, e, hpre, hu, hval, hcalls,
    fun post' => ⟨?_, ?_⟩⟩, fun cache hagree => ?_⟩
  · unfold areAllFailuresKnown
    rw [areAllFailuresKnownTrace_fst]
  · unfold areAllFailuresKnown
    rw [← areAllFailuresKnownTrace_fst]
    simp only
    rw [areAllFailuresKnownTrace_upto bugCache release u post' hu pre true hpre]
  · unfold areAllFailuresKnownCalls
    simp only
    rw [areAllFailuresKnownTrace_upto bugCache release u post' hu pre true hpre]
  · rw [hcalls] at hagree
    have hpre' : ∀ n ∈ pre, cache release "" n ≠ [] := by
      intro n hn
      have := hagree (release, "", n)
        (List.mem_map.2 ⟨n, List.mem_append_left _ hn, rfl⟩)
      simp only at this
      rw [this]
      exact hpre n hn
    have hu' : cache release "" u = [] := by
      have := hagree (release, "", u)
        (List.mem_map.2 ⟨u, List.mem_append_right _ (List.mem_singleton_self u), rfl⟩)
      simp only at this
      rw [this]
      exact hu
    constructor
    · rw [hval]
      unfold areAllFailuresKnown
      rw [← areAllFailuresKnownTrace_fst, e,
        areAllFailuresKnownTrace_upto cache release u post hu' pre true hpre']
    · rw [hcalls]
      unfold areAllFailuresKnownCalls
      rw [e, areAllFailuresKnownTrace_upto cache release u post hu' pre true hpre']

theorem areAllFailuresKnown_short_circuit_witness :
    (∃ n ∈ shortCircuitRun.FailedTestNames, sampleBugCache "4.6" "" n = []) ∧
    areAllFailuresKnownCalls shortCircuitRun sampleBugCache "4.6" =
      [("4.6", "", "known-test"), ("4.6", "", "unknown-test")] ∧
    areAllFailuresKnown { FailedTestNames := [] } sampleBugCache "4.6" =
      (areAllFailuresKnownTrace sampleBugCache "4.6" [] true).1 ∧
    ∃ pre u post, shortCircuitRun.FailedTestNames = pre ++ u :: post ∧
      areAllFailuresKnown shortCircuitRun sampleBugCache "4.6" = false := by
  have hex : ∃ n ∈ shortCircuitRun.FailedTestNames, sampleBugCache "4.6" "" n = [] :=
    ⟨"unknown-test", by decide, by decide⟩
  obtain ⟨htie, ⟨pre, u, post, e, _, _, hfalse, _⟩, _⟩ :=
    areAllFailuresKnown_short_circuit shortCircuitRun sampleBugCache "4.6" hex
  exact ⟨hex, by decide, (htie { FailedTestNames := [] } sampleBugCache "4.6").1,
    pre, u, post, e, hfalse⟩

/-- The state after `AddTestResult` on a map of categories that is not nil and whose
category at `categoryKey`, if present, holds a map that is not nil: the call returns,
the category holds the map `ref` it held before, or a new one, and only the entry of
`testName` in that map is written. -/
theorem AddTestResult_state (categoryKey : String) (state : CategoriesState)
    (testName : String) (passed failed flaked : ℤ)
    (hcat : state.categories ≠ none)
    (hmap : ∀ category, categoryAt state categoryKey = some category →
      category.RawTestResults ≠ none) :
    ∃ (after : CategoriesState) (ref : ℕ),
      AddTestResult categoryKey state testName passed failed flaked = some after ∧
      after.categories ≠ none ∧
      categoryAt after categoryKey = some { RawTestResults := some ref } ∧
      (∀ key, key ≠ categoryKey → categoryAt after key = categoryAt state key) ∧
      ((categoryRef state categoryKey = some ref ∧ after.allocated = state.allocated) ∨
        (categoryAt state categoryKey = none ∧ ref = state.allocated ∧
          after.allocated = state.allocated + 1)) ∧
      after.maps ref testName =
        some { Name := testName
               Successes := wrap64 ((testCounts state categoryKey testName).Successes
                 + passed)
               Failures := wrap64 ((testCounts state categoryKey testName).Failures
                 + failed)
               Flakes := wrap64 ((testCounts state categoryKey testName).Flakes
                 + flaked) } ∧
      (∀ name, name ≠ testName → after.maps ref name = testEntry state categoryKey name) ∧
      (∀ other, other ≠ ref → after.maps other = state.maps other) := by
  obtain ⟨entries, he⟩ := Option.ne_none_iff_exists'.1 hcat
  cases hc : entries categoryKey with
  | none =>
    have hat : categoryAt state categoryKey = none := by simp [categoryAt, he, hc]
    obtain ⟨after, hafter⟩ : ∃ after,
        AddTestResult categoryKey state testName passed failed flaked = some after :=
      ⟨_, by simp [AddTestResult, hat, he]; rfl⟩
    have hafter2 := hafter
    simp only [AddTestResult, hat, he, Option.some.injEq] at hafter2
    subst hafter2
    refine ⟨_, state.allocated, hafter, by simp, ?_, ?_,
      Or.inr ⟨hat, rfl, rfl⟩, ?_, ?_, ?_⟩
    · simp [categoryAt]
    · intro key hkey
      simp [categoryAt, he, Function.update, hkey]
    · simp [testCounts, testEntry, categoryRef, hat]
    · intro name hname
      simp [testEntry, categoryRef, hat, Function.update, hname]
    · intro other hother
      simp [Function.update, hother]
  | some category =>
    have hat : categoryAt state categoryKey = some category := by simp [categoryAt, he, hc]
    obtain ⟨r⟩ := category
    cases r with
    | none => exact absurd rfl (hmap _ hat)
    | some ref =>
      obtain ⟨after, hafter⟩ : ∃ after,
          AddTestResult categoryKey state testName passed failed flaked = some after :=
        ⟨_, by simp [AddTestResult, hat, he]; rfl⟩
      have hafter2 := hafter
      simp only [AddTestResult, hat, he, Option.some.injEq] at hafter2
      subst hafter2
      refine ⟨_, ref, hafter, by simp, ?_, ?_,
        Or.inl ⟨by simp [categoryRef, hat], rfl⟩, ?_, ?_, ?_⟩
      · simp [categoryAt]
      · intro key hkey
        simp [categoryAt, he, Function.update, hkey]
      · simp [testCounts, testEntry, categoryRef, hat]
      · intro name hname
        simp [testEntry, categoryRef, hat, Function.update, hname]
      · intro other hother
        simp [Function.update, hother]

theorem categoryRef_of_categoryAt (state after : CategoriesState) (key : String)
    (h : categoryAt after key = categoryAt state key) :
    categoryRef after key = categoryRef state key := by
  unfold categoryRef
  rw [h]

/-- The categories map made empty holds, vacuously, a map of its own for every
category. -/
theorem OwnMaps_make : OwnMaps { categories := some (fun _ => none) } := by
  refine ⟨by simp, ?_, ?_, ?_⟩ <;> simp [categoryAt, categoryRef, Allocated]

/-- C17 as stated fails on three kinds of categories map: where the category is present
with the nil map as its `RawTestResults` the call panics at the write of the entry; on
the nil categories map the call panics at the write of the category; and where two
categories hold the same map a contribution to one (`"aws"`) changes the entry of the
other (`"all"`, from 2, 1, 0 to 5, 1, 1). -/
theorem AddTestResult_accumulates_counterexample :
    (AddTestResult "all" nilMapCategories "t" 1 0 0).isSome = false ∧
    (AddTestResult "all" nilCategories "t" 1 0 0).isSome = false ∧
    testEntry sharedMapCategories "all" "t" =
      some { Name := "t", Successes := 2, Failures := 1, Flakes := 0 } ∧
    (AddTestResult "aws" sharedMapCategories "t" 3 0 1).bind
        (fun after => testEntry after "all" "t") =
      some { Name := "t", Successes := 5, Failures := 1, Flakes := 1 } := by
  decide

/-- C17 (amended): on a categories map that is not nil and whose category at the key,
if present, holds a `RawTestResults` map that is not nil, `AddTestResult` returns, and
afterwards the entry of the test in the category has `Name` equal to the test name and
`Successes`, `Failures` and `Flakes` equal to the previous values (`0` if the category
or the test was absent) plus `passed`, `failed` and `flaked` (64-bit sums, which are the
sums themselves when these fit the `int` range); every other test of the category is
unchanged; every other category holds the map it held, and its entries are unchanged
unless it shares that map with the category at the key (after the call, and so, every
map held being allocated, before it); a categories map in which every category holds a
map of its own stays so; a second contribution for the same test returns too and adds
to the same entry. -/
theorem AddTestResult_accumulates (categoryKey : String) (state : CategoriesState)
    (testName : String) (passed failed flaked : ℤ)
    (hcat : state.categories ≠ none)
    (hmap : ∀ category, categoryAt state categoryKey = some category →
      category.RawTestResults ≠ none) :
    ∃ after : CategoriesState,
      AddTestResult categoryKey state testName passed failed flaked = some after ∧
      (∃ result : RawTestResult,
        testEntry after categoryKey testName = some result ∧
        result.Name = testName ∧
        result.Successes =
          wrap64 ((testCounts state categoryKey testName).Successes + passed) ∧
        result.Failures =
          wrap64 ((testCounts state categoryKey testName).Failures + failed) ∧
        result.Flakes =
          wrap64 ((testCounts state categoryKey testName).Flakes + flaked) ∧
        (-2 ^ 63 ≤ (testCounts state categoryKey testName).Successes + passed →
          (testCounts state categoryKey testName).Successes + passed < 2 ^ 63 →
          result.Successes = (testCounts state categoryKey testName).Successes + passed) ∧
        (-2 ^ 63 ≤ (testCounts state categoryKey testName).Failures + failed →
          (testCounts state categoryKey testName).Failures + failed < 2 ^ 63 →
          result.Failures = (testCounts state categoryKey testName).Failures + failed) ∧
        (-2 ^ 63 ≤ (testCounts state categoryKey testName).Flakes + flaked →
          (testCounts state categoryKey testName).Flakes + flaked < 2 ^ 63 →
          result.Flakes = (testCounts state categoryKey testName).Flakes + flaked)) ∧
      (∀ name, name ≠ testName →
        testEntry after categoryKey name = testEntry state categoryKey name) ∧
      (∀ key, key ≠ categoryKey →
        categoryAt after key = categoryAt state key ∧
        (categoryRef after key ≠ categoryRef after categoryKey →
          ∀ name, testEntry after key name = testEntry state key name) ∧
        (Allocated state →
          (∀ ref, categoryRef state key = some ref →
            categoryRef state categoryKey ≠ some ref) →
          ∀ name, testEntry after key name = testEntry state key name)) ∧
      (OwnMaps state → OwnMaps after) ∧
      (∀ passed2 failed2 flaked2 : ℤ,
        ∃ last : CategoriesState,
          AddTestResult categoryKey after testName passed2 failed2 flaked2 = some last ∧
          testEntry last categoryKey testName =
            some { Name := testName
                   Successes := wrap64 ((testCounts state categoryKey testName).Successes
                     + passed + passed2)
                   Failures := wrap64 ((testCounts state categoryKey testName).Failures
                     + failed + failed2)
                   Flakes := wrap64 ((testCounts state categoryKey testName).Flakes
                     + flaked + flaked2) }) := by
  obtain ⟨after, ref, hres, hcat2, hat2, hother, hcase, hentry, hnames, hmaps⟩ :=
    AddTestResult_state categoryKey state testName passed failed flaked hcat hmap
  have href : categoryRef after categoryKey = some ref := by simp [categoryRef, hat2]
  have hrefOther : ∀ key, key ≠ categoryKey →
      categoryRef after key = categoryRef state key :=
    fun key hkey => categoryRef_of_categoryAt state after key (hother key hkey)
  have hfresh : Allocated state → ∀ key r, key ≠ categoryKey →
      categoryRef state key = some r →
      categoryRef state categoryKey ≠ some r → r ≠ ref := by
    intro halloc key r _ hr hne
    rcases hcase with ⟨h1, _⟩ | ⟨_, h2, _⟩
    · intro e
      exact hne (e ▸ h1)
    · have := halloc key r hr
      omega
  have hframe : ∀ key, key ≠ categoryKey → ∀ name,
      (∀ r, categoryRef state key = some r → r ≠ ref) →
      testEntry after key name = testEntry state key name := by
    intro key hkey name hne
    have e := hrefOther key hkey
    unfold testEntry
    rw [e]
    cases hr : categoryRef state key with
    | none => rfl
    | some r =>
      simp only [Option.bind]
      rw [hmaps r (hne r hr)]
  have hentry2 : testEntry after categoryKey testName =
      some { Name := testName
             Successes := wrap64 ((testCounts state categoryKey testName).Successes + passed)
             Failures := wrap64 ((testCounts state categoryKey testName).Failures + failed)
             Flakes := wrap64 ((testCounts state categoryKey testName).Flakes + flaked) } := by
    unfold testEntry
    rw [href]
    exact hentry
  refine ⟨after, hres, ⟨_, hentry2, rfl, rfl, rfl, rfl, fun a b => wrap64_of_range a b,
      fun a b => wrap64_of_range a b, fun a b => wrap64_of_range a b⟩,
    fun name hname => ?_,
    fun key hkey => ⟨hother key hkey, fun hne name => hframe key hkey name (fun r hr e => ?_),
      fun halloc hown name =>
        hframe key hkey name (fun r hr => hfresh halloc key r hkey hr (hown r hr))⟩,
    fun hown => ?_, fun passed2 failed2 flaked2 => ?_⟩
  · unfold testEntry
    rw [href]
    exact hnames name hname
  · apply hne
    rw [hrefOther key hkey, hr, href, e]
  · obtain ⟨_, hnonil, halloc, hsep⟩ := hown
    have halloc2 : Allocated after := by
      intro key r hr
      by_cases hkey : key = categoryKey
      · rw [hkey, href] at hr
        injection hr with hr
        rcases hcase with ⟨h1, h2⟩ | ⟨_, h2, h3⟩
        · rw [← hr, h2]
          exact halloc categoryKey ref h1
        · omega
      · rw [hrefOther key hkey] at hr
        have := halloc key r hr
        rcases hcase with ⟨_, h2⟩ | ⟨_, _, h3⟩ <;> omega
    refine ⟨hcat2, fun key category hc => ?_, halloc2, fun key other r hne hr => ?_⟩
    · by_cases hkey : key = categoryKey
      · rw [hkey, hat2] at hc
        injection hc with hc
        rw [← hc]
        simp
      · rw [hother key hkey] at hc
        exact hnonil key category hc
    · by_cases hkey : key = categoryKey
      · have hoth : other ≠ categoryKey := fun e => hne (hkey.trans e.symm)
        rw [hkey, href] at hr
        injection hr with hr
        rw [hrefOther other hoth]
        intro e
        rcases hcase with ⟨h1, _⟩ | ⟨_, h2, _⟩
        · exact hsep other categoryKey r hoth e (hr ▸ h1)
        · have := halloc other r e
          omega
      · rw [hrefOther key hkey] at hr
        by_cases hoth : other = categoryKey
        · rw [hoth, href]
          intro e
          injection e with e
          rcases hcase with ⟨h1, _⟩ | ⟨_, h2, _⟩
          · exact hsep key categoryKey r hkey hr (e ▸ h1)
          · have := halloc key r hr
            omega
        · rw [hrefOther other hoth]
          exact hsep key other r hne hr
  · have hmap2 : ∀ category, categoryAt after categoryKey = some category →
        category.RawTestResults ≠ none := by
      intro category hc
      rw [hat2] at hc
      injection hc with hc
      rw [← hc]
      simp
    obtain ⟨last, ref2, hres2, _, hat3, _, _, hentry3, _, _⟩ :=
      AddTestResult_state categoryKey after testName passed2 failed2 flaked2 hcat2 hmap2
    refine ⟨last, hres2, ?_⟩
    have href2 : categoryRef last categoryKey = some ref2 := by simp [categoryRef, hat3]
    unfold testEntry
    rw [href2]
    simp only [Option.bind]
    rw [hentry3]
    have hc : testCounts after categoryKey testName =
        { Name := testName
          Successes := wrap64 ((testCounts state categoryKey testName).Successes + passed)
          Failures := wrap64 ((testCounts state categoryKey testName).Failures + failed)
          Flakes := wrap64 ((testCounts state categoryKey testName).Flakes + flaked) } := by
      unfold testCounts
      rw [hentry2]
      rfl
    rw [hc]
    simp only [wrap64_add_left]

theorem AddTestResult_accumulates_witness :
    sampleCategories.categories ≠ none ∧
    (∀ category, categoryAt sampleCategories "all" = some category →
      category.RawTestResults ≠ none) ∧
    (∀ category, categoryAt sampleCategories "aws" = some category →
      category.RawTestResults ≠ none) ∧
    (∃ after : CategoriesState,
      AddTestResult "all" sampleCategories "t" 3 0 1 = some after ∧
      testEntry after "all" "t" =
        some { Name := "t", Successes := 5, Failures := 1, Flakes := 1 } ∧
      ∀ name, name ≠ "t" →
        testEntry after "all" name = testEntry sampleCategories "all" name) ∧
    (∃ after : CategoriesState,
      AddTestResult "aws" sampleCategories "t" 3 0 1 = some after ∧
      testEntry after "aws" "t" =
        some { Name := "t", Successes := 3, Failures := 0, Flakes := 1 } ∧
      categoryAt after "all" = categoryAt sampleCategories "all") := by
  have hcat : sampleCategories.categories ≠ none := by simp [sampleCategories]
  have hall : ∀ category, categoryAt sampleCategories "all" = some category →
      category.RawTestResults ≠ none := by
    intro category h
    have e : categoryAt sampleCategories "all" = some { RawTestResults := some 0 } := by
      decide
    rw [e] at h
    injection h with h
    rw [← h]
    simp
  have haws : ∀ category, categoryAt sampleCategories "aws" = some category →
      category.RawTestResults ≠ none := by
    intro category h
    have e : categoryAt sampleCategories "aws" = none := by decide
    rw [e] at h
    exact absurd h (by simp)
  obtain ⟨after, hres, _, hnames, _⟩ :=
    AddTestResult_accumulates "all" sampleCategories "t" 3 0 1 hcat hall
  have hd : (AddTestResult "all" sampleCategories "t" 3 0 1).bind
      (fun after => testEntry after "all" "t") =
      some { Name := "t", Successes := 5, Failures := 1, Flakes := 1 } := by decide
  rw [hres] at hd
  obtain ⟨after2, hres2, _, _, hframe, _⟩ :=
    AddTestResult_accumulates "aws" sampleCategories "t" 3 0 1 hcat haws
  have hd2 : (AddTestResult "aws" sampleCategories "t" 3 0 1).bind
      (fun after => testEntry after "aws" "t") =
      some { Name := "t", Successes := 3, Failures := 0, Flakes := 1 } := by decide
  rw [hres2] at hd2
  exact ⟨hcat, hall, haws, ⟨after, hres, hd, hnames⟩,
    ⟨after2, hres2, hd2, (hframe "all" (by decide)).1⟩⟩

/-- Characterisation of the scan of `ComputeLookback`, started at index `i` with the value
`s` of `start`, in terms of the offset `k` of the first timestamp older than `stopTs`. -/
theorem lookbackLoop_spec (startTs stopTs : ℤ) :
    ∀ (l : List ℤ) (i s : ℤ),
      ∃ k : ℕ, (lookbackLoop startTs stopTs l i s).2 = i + k ∧ k ≤ l.length ∧
        (∀ j t, j < k → l[j]? = some t → ¬ t < stopTs) ∧
        (k < l.length → ∃ t, l[k]? = some t ∧ t < stopTs) ∧
        (((lookbackLoop startTs stopTs l i s).1 = s ∧
            ∀ (j : ℕ) t, j ≤ k → l[j]? = some t → t < startTs → ¬ i + j < s) ∨
          ∃ (j : ℕ) (t : ℤ), j ≤ k ∧ l[j]? = some t ∧ t < startTs ∧ i + j < s ∧
            (lookbackLoop startTs stopTs l i s).1 = i + j ∧
            ∀ j' t', j' < j → l[j']? = some t' → ¬ t' < startTs) := by
  intro l
  induction l with
  | nil =>
    intro i s
    exact ⟨0, by simp [lookbackLoop], le_refl _, by simp, by simp,
      Or.inl ⟨rfl, by simp⟩⟩
  | cons t rest ih =>
    intro i s
    by_cases hstop : t < stopTs
    · -- the scan returns at this index
      refine ⟨0, by simp [lookbackLoop, hstop], by simp, by simp,
        fun _ => ⟨t, by simp, hstop⟩, ?_⟩
      by_cases hup : t < startTs ∧ i < s
      · refine Or.inr ⟨0, t, le_refl _, by simp, hup.1, by simpa using hup.2,
          by simp [lookbackLoop, hstop, hup], by simp⟩
      · refine Or.inl ⟨by simp [lookbackLoop, hstop, hup], ?_⟩
        intro j t' hj ht' hlt
        have hj0 : j = 0 := by omega
        subst hj0
        simp only [List.getElem?_cons_zero, Option.some.injEq] at ht'
        subst ht'
        intro hi
        exact hup ⟨hlt, by simpa using hi⟩
    · -- the scan goes on with the next index
      have hloop : lookbackLoop startTs stopTs (t :: rest) i s =
          lookbackLoop startTs stopTs rest (i + 1)
            (if t < startTs ∧ i < s then i else s) := by
        simp [lookbackLoop, hstop]
      rw [hloop]
      obtain ⟨k, h2, hk, hbefore, hat, hstart⟩ :=
        ih (i + 1) (if t < startTs ∧ i < s then i else s)
      refine ⟨k + 1, by rw [h2]; push_cast; ring, by simpa using hk, ?_, ?_, ?_⟩
      · intro j t' hj ht'
        cases j with
        | zero =>
          simp only [List.getElem?_cons_zero, Option.some.injEq] at ht'
          subst ht'
          exact hstop
        | succ j =>
          simp only [List.getElem?_cons_succ] at ht'
          exact hbefore j t' (by omega) ht'
      · intro hlt
        obtain ⟨t', ht', hlt'⟩ := hat (by simpa using hlt)
        exact ⟨t', by simpa using ht', hlt'⟩
      · by_cases hup : t < startTs ∧ i < s
        · -- `start` is set here and never again
          rw [if_pos hup] at hstart ⊢
          refine Or.inr ⟨0, t, by omega, by simp, hup.1, by simpa using hup.2, ?_, by simp⟩
          rcases hstart with ⟨h1, _⟩ | ⟨j, t', _, _, _, hlt, _, _⟩
          · simpa using h1
          · exfalso
            have : (0 : ℤ) ≤ (j : ℤ) := Int.natCast_nonneg j
            omega
        · rw [if_neg hup] at hstart ⊢
          rcases hstart with ⟨h1, hnone⟩ | ⟨j, t', hj, ht', hlt, hi, h1, hmin⟩
          · refine Or.inl ⟨h1, ?_⟩
            intro j t' hj ht' hlt
            cases j with
            | zero =>
              simp only [List.getElem?_cons_zero, Option.some.injEq] at ht'
              subst ht'
              intro hi
              exact hup ⟨hlt, by simpa using hi⟩
            | succ j =>
              simp only [List.getElem?_cons_succ] at ht'
              have := hnone j t' (by omega) ht' hlt
              push_cast
              intro hi
              exact this (by omega)
          · refine Or.inr ⟨j + 1, t', by omega, by simpa using ht', hlt,
              by push_cast; omega, by rw [h1]; push_cast; ring, ?_⟩
            intro j' t'' hj' ht''
            cases j' with
            | zero =>
              simp only [List.getElem?_cons_zero, Option.some.injEq] at ht''
              subst ht''
              intro hlt0
              have : (0 : ℤ) ≤ (j : ℤ) := Int.natCast_nonneg j
              exact hup ⟨hlt0, by omega⟩
            | succ j' =>
              simp only [List.getElem?_cons_succ] at ht''
              exact hmin j' t'' (by omega) ht''

/-- Without overflow (clock readings up to the year 2116, at most 106751 days back) a
cut-off is the reading in whole seconds, less the days, in milliseconds. -/
theorem lookbackCutoff_eq (now days : ℤ) (h0 : 0 ≤ now) (h1 : now < 2 ^ 62)
    (h2 : -106751 ≤ days) (h3 : days ≤ 106751) :
    lookbackCutoff now days = (now / 1000000000 - days * 86400) * 1000 := by
  norm_num at h1
  unfold lookbackCutoff
  simp only
  rw [wrap64_of_range (x := -1 * days) (by norm_num; omega) (by norm_num; omega),
    wrap64_of_range (x := -1 * days * 24) (by norm_num; omega) (by norm_num; omega),
    wrap64_of_range (x := -1 * days * 24 * 3600000000000) (by norm_num; omega)
      (by norm_num; omega)]
  rw [wrap64_of_range (by norm_num; omega) (by norm_num; omega)]
  omega

/-- The scan passes over leading timestamps that are older than neither cut-off. -/
theorem lookbackLoop_replicate (startTs stopTs t : ℤ) (h1 : ¬ t < startTs)
    (h2 : ¬ t < stopTs) (rest : List ℤ) :
    ∀ (n : ℕ) (i s : ℤ),
      lookbackLoop startTs stopTs (List.replicate n t ++ rest) i s =
        lookbackLoop startTs stopTs rest (i + n) s := by
  intro n
  induction n with
  | zero => intro i s; simp
  | succ n ih =>
    intro i s
    rw [List.replicate_succ, List.cons_append]
    simp only [lookbackLoop, h1, h2, false_and, if_false]
    rw [ih]
    push_cast
    congr 1
    ring

theorem getElem?_replicate_append_left (a : ℤ) (rest : List ℤ) (n k : ℕ) (h : k < n) :
    (List.replicate n a ++ rest)[k]? = some a := by
  rw [List.getElem?_append_left (by simpa using h)]
  simp [h]

theorem getElem?_replicate_append_singleton (a b : ℤ) (n : ℕ) :
    (List.replicate n a ++ [b])[n]? = some b := by
  rw [List.getElem?_append_right (by simp)]
  simp

/-- The scan with the clock at the epoch, `startday = 0` and `lookback = 1`, on `n`
timestamps `0` followed by the timestamp `-1`, for `n` from the sentinel on. -/
theorem ComputeLookback_replicate (n : ℕ) (m : ℤ) (hm : (n : ℤ) + 1 = m)
    (hn : (2147483647 : ℤ) ≤ n) :
    ComputeLookback 0 0 0 1 (List.replicate n (0 : ℤ) ++ [-1]) = (2147483647, m) := by
  have c0 : lookbackCutoff 0 0 = 0 := by decide
  have c1 : lookbackCutoff 0 1 = -86400000 := by decide
  unfold ComputeLookback
  simp only [c0, c1]
  rw [lookbackLoop_replicate 0 (-86400000) 0 (by decide) (by decide)]
  have hlt : ¬ ((0 : ℤ) + n < MaxInt32) := by
    unfold MaxInt32
    omega
  simp only [lookbackLoop, hlt, and_false, if_false]
  rw [show (0 : ℤ) + n + 1 = m by omega]
  simp [MaxInt32]

/-- C13 as stated fails: with the clock at the epoch, `startday = 0` and `lookback = 1`,
on 2147483648 timestamps `0` followed by the timestamp `-1`, the only timestamp older than
`startTs = 0` is at index 2147483648, below `stop = 2147483649`, yet `start` is the
sentinel 2147483647. -/
theorem ComputeLookback_counterexample :
    lookbackCutoff 0 0 = 0 ∧ lookbackCutoff 0 1 = -86400000 ∧
    (List.replicate 2147483648 (0 : ℤ) ++ [-1])[2147483648]? = some (-1) ∧
    (List.replicate 2147483648 (0 : ℤ) ++ [-1])[2147483647]? = some 0 ∧
    ComputeLookback 0 0 0 1 (List.replicate 2147483648 (0 : ℤ) ++ [-1]) =
      (2147483647, 2147483649) :=
  ⟨by decide, by decide,
    getElem?_replicate_append_singleton 0 (-1) 2147483648,
    getElem?_replicate_append_left 0 [-1] 2147483648 2147483647 (by decide),
    ComputeLookback_replicate 2147483648 2147483649 (by decide) (by decide)⟩

/-- C13 (amended): with `stopTs` and `startTs` the cut-offs for `lookback` and `startday`
days (the clock reading in whole seconds, less the days, in milliseconds, when nothing
overflows), `stop` is the least index whose timestamp is less than `stopTs`, or
`len(timestamps)` if there is none, and `start` is the least index `i` with `i <= stop`,
`i < len(timestamps)`, `i < 2147483647` and timestamp less than `startTs`, or the sentinel
2147483647 if there is none. -/
theorem ComputeLookback_spec (nowStop nowStart startday lookback : ℤ)
    (timestamps : List ℤ) :
    (∃ stop : ℕ,
      (ComputeLookback nowStop nowStart startday lookback timestamps).2 = stop ∧
      stop ≤ timestamps.length ∧
      (∀ i t, i < stop → timestamps[i]? = some t → ¬ t < lookbackCutoff nowStop lookback) ∧
      (stop < timestamps.length →
        ∃ t, timestamps[stop]? = some t ∧ t < lookbackCutoff nowStop lookback) ∧
      ((∃ start : ℕ,
          (ComputeLookback nowStop nowStart startday lookback timestamps).1 = start ∧
          start ≤ stop ∧ (start : ℤ) < 2147483647 ∧
          (∃ t, timestamps[start]? = some t ∧ t < lookbackCutoff nowStart startday) ∧
          ∀ i t, i < start → timestamps[i]? = some t →
            ¬ t < lookbackCutoff nowStart startday) ∨
        ((ComputeLookback nowStop nowStart startday lookback timestamps).1 = 2147483647 ∧
          ∀ (i : ℕ) t, i ≤ stop → (i : ℤ) < 2147483647 → timestamps[i]? = some t →
            ¬ t < lookbackCutoff nowStart startday))) ∧
    (0 ≤ nowStop → nowStop < 2 ^ 62 → -106751 ≤ lookback → lookback ≤ 106751 →
      lookbackCutoff nowStop lookback =
        (nowStop / 1000000000 - lookback * 86400) * 1000) ∧
    (0 ≤ nowStart → nowStart < 2 ^ 62 → -106751 ≤ startday → startday ≤ 106751 →
      lookbackCutoff nowStart startday =
        (nowStart / 1000000000 - startday * 86400) * 1000) := by
  refine ⟨?_, lookbackCutoff_eq nowStop lookback, lookbackCutoff_eq nowStart startday⟩
  obtain ⟨k, h2, hk, hbefore, hat, hstart⟩ :=
    lookbackLoop_spec (lookbackCutoff nowStart startday) (lookbackCutoff nowStop lookback)
      timestamps 0 MaxInt32
  refine ⟨k, by simpa [ComputeLookback] using h2, hk, hbefore, hat, ?_⟩
  rcases hstart with ⟨h1, hnone⟩ | ⟨j, t, hj, ht, hlt, hi, h1, hmin⟩
  · refine Or.inr ⟨h1, ?_⟩
    intro i t hi hlt ht hts
    exact hnone i t hi ht hts (by simpa [MaxInt32] using hlt)
  · refine Or.inl ⟨j, by simpa [ComputeLookback] using h1, hj,
      by simpa [MaxInt32] using hi, ⟨t, ht, hlt⟩, hmin⟩

theorem ComputeLookback_spec_witness :
    ComputeLookback sampleNow sampleNow 0 7 sampleTimestamps = (0, 7) ∧
    ∃ stop : ℕ,
      (ComputeLookback sampleNow sampleNow 0 7 sampleTimestamps).2 = stop ∧
      stop ≤ sampleTimestamps.length := by
  refine ⟨by decide!, ?_⟩
  obtain ⟨stop, h1, h2, _⟩ :=
    (ComputeLookback_spec sampleNow sampleNow 0 7 sampleTimestamps).1
  exact ⟨stop, h1, h2⟩

/-- C14 as stated fails: for `startday = 7`, `lookback = 1` and one timestamp per day at
`now - k days - 1 hour`, `k = 0..9`, the first index older than 7 days is 7 and the first
index older than 1 day is 1; the result has `stop = 1`, but `start` is the sentinel
2147483647, not 7. -/
theorem ComputeLookback_startday7_counterexample :
    sampleTimestamps.findIdx (fun t => decide (t < lookbackCutoff sampleNow 7)) = 7 ∧
    sampleTimestamps.findIdx (fun t => decide (t < lookbackCutoff sampleNow 1)) = 1 ∧
    ComputeLookback sampleNow sampleNow 7 1 sampleTimestamps = (2147483647, 1) := by
  decide!

/-- For clock readings at most an hour apart (up to the year 2116), the cut-off for 7
days is not later than the one for 1 day. -/
theorem lookbackCutoff_7_le_1 (nowStop nowStart : ℤ) (h0 : 0 ≤ nowStop) (h1 : 0 ≤ nowStart)
    (h2 : nowStop < 2 ^ 62) (h3 : nowStart < 2 ^ 62)
    (h4 : nowStart ≤ nowStop + 3600000000000) :
    lookbackCutoff nowStart 7 ≤ lookbackCutoff nowStop 1 := by
  rw [lookbackCutoff_eq nowStart 7 h1 h3 (by norm_num) (by norm_num),
    lookbackCutoff_eq nowStop 1 h0 h2 (by norm_num) (by norm_num)]
  omega

/-- C14 (amended): for `startday = 7` and `lookback = 1`, with the two clock readings at
most an hour apart, `ComputeLookback` returns as `stop` the first index whose timestamp
is older than 1 day ago (`len(timestamps)` if there is none); the scan ends there, so
`start` is the sentinel 2147483647 unless the timestamp at `stop` is itself older than 7
days ago and `stop < 2147483647`, in which case `start = stop`. -/
theorem ComputeLookback_startday7 (nowStop nowStart : ℤ) (timestamps : List ℤ)
    (h0 : 0 ≤ nowStop) (h1 : 0 ≤ nowStart) (h2 : nowStop < 2 ^ 62) (h3 : nowStart < 2 ^ 62)
    (h4 : nowStart ≤ nowStop + 3600000000000) :
    ∃ stop : ℕ,
      (ComputeLookback nowStop nowStart 7 1 timestamps).2 = stop ∧
      stop ≤ timestamps.length ∧
      (∀ i t, i < stop → timestamps[i]? = some t → ¬ t < lookbackCutoff nowStop 1) ∧
      (stop < timestamps.length →
        ∃ t, timestamps[stop]? = some t ∧ t < lookbackCutoff nowStop 1) ∧
      (((ComputeLookback nowStop nowStart 7 1 timestamps).1 = 2147483647 ∧
          ∀ t, (stop : ℤ) < 2147483647 → timestamps[stop]? = some t →
            ¬ t < lookbackCutoff nowStart 7) ∨
        ((ComputeLookback nowStop nowStart 7 1 timestamps).1 = stop ∧
          (stop : ℤ) < 2147483647 ∧
          ∃ t, timestamps[stop]? = some t ∧ t < lookbackCutoff nowStart 7)) := by
  have hcut := lookbackCutoff_7_le_1 nowStop nowStart h0 h1 h2 h3 h4
  obtain ⟨k, h2', hk, hbefore, hat, hstart⟩ :=
    lookbackLoop_spec (lookbackCutoff nowStart 7) (lookbackCutoff nowStop 1)
      timestamps 0 MaxInt32
  refine ⟨k, by simpa [ComputeLookback] using h2', hk, hbefore, hat, ?_⟩
  rcases hstart with ⟨e1, hnone⟩ | ⟨j, t, hj, ht, hlt, hi, e1, hmin⟩
  · refine Or.inl ⟨e1, ?_⟩
    intro t hlt ht hts
    exact hnone k t (le_refl _) ht hts (by simpa [MaxInt32] using hlt)
  · have hjk : j = k := by
      by_contra hne
      exact hbefore j t (by omega) ht (lt_of_lt_of_le hlt hcut)
    subst hjk
    exact Or.inr ⟨by simpa [ComputeLookback] using e1, by simpa [MaxInt32] using hi,
      t, ht, hlt⟩

theorem ComputeLookback_startday7_witness :
    (0 ≤ sampleNow ∧ sampleNow < 2 ^ 62 ∧ sampleNow ≤ sampleNow + 3600000000000) ∧
    ComputeLookback sampleNow sampleNow 7 1 sampleTimestamps = (2147483647, 1) ∧
    ∃ stop : ℕ, (ComputeLookback sampleNow sampleNow 7 1 sampleTimestamps).2 = stop ∧
      stop ≤ sampleTimestamps.length := by
  refine ⟨by decide, by decide!, ?_⟩
  obtain ⟨stop, e, hle, _⟩ :=
    ComputeLookback_startday7 sampleNow sampleNow sampleTimestamps (by decide) (by decide)
      (by decide) (by decide) (by decide)
  exact ⟨stop, e, hle⟩

/-- On components with a first `JobsFailed` entry the comparison does not panic. -/
theorem bugzillaLess_eq (ToLower : String → String) (a b : SortedBugzillaComponentResult)
    (ha : a.JobsFailed ≠ []) (hb : b.JobsFailed ≠ []) :
    bugzillaLess ToLower a b = some (bugzillaLessTotal ToLower a b) := by
  obtain ⟨x, xs, hx⟩ := List.exists_cons_of_ne_nil ha
  obtain ⟨y, ys, hy⟩ := List.exists_cons_of_ne_nil hb
  unfold bugzillaLess bugzillaLessTotal firstFailPercentage
  rw [hx, hy]
  simp only [List.getElem?_cons_zero, Option.map_some', Option.getD_some]
  by_cases h1 : x.FailPercentage > y.FailPercentage
  · simp [h1]
  · by_cases h2 : x.FailPercentage < y.FailPercentage
    · simp [h1, h2]
    · by_cases h3 : ToLower a.Name < ToLower b.Name
      · simp [h1, h2, h3]
      · simp [h1, h2, h3]

theorem insertStableM_eq {α : Type} (less : α → α → Option Bool) (f : α → α → Bool)
    (a : α) :
    ∀ l : List α, (∀ b ∈ l, less b a = some (f b a)) →
      insertStableM less a l =
        some (List.orderedInsert (fun x y => f y x = false) a l) := by
  intro l
  induction l with
  | nil => intro _; rfl
  | cons b l ih =>
    intro h
    have hb := h b (List.mem_cons_self _ _)
    have hl := ih (fun c hc => h c (List.mem_cons_of_mem _ hc))
    cases hf : f b a with
    | true => simp [insertStableM, hb, hf, hl]
    | false => simp [insertStableM, hb, hf]

/-- A sort whose comparisons do not panic is the stable sort by the comparison. -/
theorem sortStableM_eq {α : Type} (less : α → α → Option Bool) (f : α → α → Bool) :
    ∀ l : List α, (∀ x ∈ l, ∀ y ∈ l, less x y = some (f x y)) →
      sortStableM less l = some (sortStable f l) := by
  intro l
  induction l with
  | nil => intro _; rfl
  | cons a l ih =>
    intro h
    have hl := ih (fun x hx y hy =>
      h x (List.mem_cons_of_mem _ hx) y (List.mem_cons_of_mem _ hy))
    have hins := insertStableM_eq less f a (sortStable f l) (fun b hb =>
      h b (List.mem_cons_of_mem _ ((sortStable_perm f l).subset hb)) a
        (List.mem_cons_self _ _))
    simp only [sortStableM, hl, Option.bind_eq_bind, Option.some_bind, hins]
    rfl

/-- The relation the stable sort inserts by, for the comparison of the defect
components: a greater fail percentage first, ties by the lower-cased name. -/
theorem bugzillaLessTotal_false_iff (ToLower : String → String)
    (a b : SortedBugzillaComponentResult) :
    bugzillaLessTotal ToLower b a = false ↔
      firstFailPercentage a > firstFailPercentage b ∨
        (firstFailPercentage a = firstFailPercentage b ∧
          ToLower a.Name ≤ ToLower b.Name) := by
  unfold bugzillaLessTotal
  simp only [Bool.or_eq_false_iff, decide_eq_false_iff_not, Bool.and_eq_false_imp,
    Bool.not_eq_true', decide_eq_true_eq, not_lt, gt_iff_lt]
  constructor
  · rintro ⟨h1, h2⟩
    rcases lt_or_eq_of_le h1 with h | h
    · exact Or.inl h
    · exact Or.inr ⟨h.symm, h2 (by simpa using h.symm.le)⟩
  · rintro (h | ⟨h1, h2⟩)
    · exact ⟨h.le, fun h' => absurd h (by simpa using h')⟩
    · exact ⟨h1.ge, fun _ => h2⟩

theorem sortStable_bugzilla_pairwise (ToLower : String → String)
    (l : List SortedBugzillaComponentResult) :
    (sortStable (bugzillaLessTotal ToLower) l).Pairwise
      (fun a b => firstFailPercentage a > firstFailPercentage b ∨
        (firstFailPercentage a = firstFailPercentage b ∧
          ToLower a.Name ≤ ToLower b.Name)) := by
  haveI : IsTotal SortedBugzillaComponentResult
      (fun a b => bugzillaLessTotal ToLower b a = false) :=
    ⟨fun a b => by
      simp only [bugzillaLessTotal_false_iff]
      rcases lt_trichotomy (firstFailPercentage a) (firstFailPercentage b) with h | h | h
      · exact Or.inr (Or.inl h)
      · rcases le_total (ToLower a.Name) (ToLower b.Name) with h' | h'
        · exact Or.inl (Or.inr ⟨h, h'⟩)
        · exact Or.inr (Or.inr ⟨h.symm, h'⟩)
      · exact Or.inl (Or.inl h)⟩
  haveI : IsTrans SortedBugzillaComponentResult
      (fun a b => bugzillaLessTotal ToLower b a = false) :=
    ⟨fun a b c => by
      simp only [bugzillaLessTotal_false_iff]
      rintro (h1 | ⟨h1, h1'⟩) (h2 | ⟨h2, h2'⟩)
      · exact Or.inl (lt_trans h2 h1)
      · exact Or.inl (h2 ▸ h1)
      · exact Or.inl (h1 ▸ h2)
      · exact Or.inr ⟨h1.trans h2, le_trans h1' h2'⟩⟩
  have h := List.sorted_insertionSort
    (fun a b => bugzillaLessTotal ToLower b a = false) l
  exact List.Pairwise.imp
    (fun {a b} hab => (bugzillaLessTotal_false_iff ToLower a b).1 hab) h

/-- C12: for a report in which every component grouping has at least one `JobsFailed`
entry, `SummarizeJobsFailuresByBugzillaComponent` returns (no comparison indexes
`JobsFailed` out of range) a permutation of the groupings in which, for positions
`i < j`, the first fail percentage at `i` is strictly greater than the one at `j`, or the
two are equal and the lower-cased name at `i` is less than or equal to the one at `j`. -/
theorem SummarizeJobsFailuresByBugzillaComponent_sorted (ToLower : String → String)
    (report : TestReport)
    (hne : ∀ e ∈ report.JobFailuresByBugzillaComponent, e.2.JobsFailed ≠ []) :
    ∃ out : List SortedBugzillaComponentResult,
      SummarizeJobsFailuresByBugzillaComponent ToLower report = some out ∧
      out.Perm (report.JobFailuresByBugzillaComponent.map Prod.snd) ∧
      ∀ (i j : ℕ) (hi : i < out.length) (hj : j < out.length), i < j →
        ∃ x y, (out[i]).JobsFailed[0]? = some x ∧ (out[j]).JobsFailed[0]? = some y ∧
          (x.FailPercentage > y.FailPercentage ∨
            (x.FailPercentage = y.FailPercentage ∧
              ToLower (out[i]).Name ≤ ToLower (out[j]).Name)) := by
  have hlist : report.JobFailuresByBugzillaComponent.foldl
      (fun bzComponentResults entry => bzComponentResults ++ [entry.2]) [] =
      report.JobFailuresByBugzillaComponent.map Prod.snd := by
    rw [foldl_append_singleton (fun entry : String × SortedBugzillaComponentResult =>
      entry.2)]
    simp
  have hall : ∀ c ∈ report.JobFailuresByBugzillaComponent.map Prod.snd,
      c.JobsFailed ≠ [] := by
    intro c hc
    obtain ⟨e, he, rfl⟩ := List.mem_map.1 hc
    exact hne e he
  have hsome : SummarizeJobsFailuresByBugzillaComponent ToLower report =
      some (sortStable (bugzillaLessTotal ToLower)
        (report.JobFailuresByBugzillaComponent.map Prod.snd)) := by
    unfold SummarizeJobsFailuresByBugzillaComponent
    simp only [hlist]
    exact sortStableM_eq _ _ _ (fun x hx y hy =>
      bugzillaLess_eq ToLower x y (hall x hx) (hall y hy))
  have hperm := sortStable_perm (bugzillaLessTotal ToLower)
    (report.JobFailuresByBugzillaComponent.map Prod.snd)
  refine ⟨_, hsome, hperm, ?_⟩
  intro i j hi hj hij
  have hpair := List.pairwise_iff_getElem.1
    (sortStable_bugzilla_pairwise ToLower
      (report.JobFailuresByBugzillaComponent.map Prod.snd)) i j hi hj hij
  have hfirst : ∀ c ∈ sortStable (bugzillaLessTotal ToLower)
      (report.JobFailuresByBugzillaComponent.map Prod.snd),
      ∃ x, c.JobsFailed[0]? = some x ∧ firstFailPercentage c = x.FailPercentage := by
    intro c hc
    obtain ⟨x, xs, hx⟩ := List.exists_cons_of_ne_nil (hall c (hperm.subset hc))
    exact ⟨x, by rw [hx]; simp, by unfold firstFailPercentage; rw [hx]; simp⟩
  obtain ⟨x, hx, ex⟩ := hfirst _ (List.getElem_mem hi)
  obtain ⟨y, hy, ey⟩ := hfirst _ (List.getElem_mem hj)
  rw [ex, ey] at hpair
  exact ⟨x, y, hx, hy, hpair⟩

theorem SummarizeJobsFailuresByBugzillaComponent_sorted_witness :
    (∀ e ∈ sampleBugzillaReport.JobFailuresByBugzillaComponent, e.2.JobsFailed ≠ []) ∧
    (SummarizeJobsFailuresByBugzillaComponent String.toLower sampleBugzillaReport).map
      (fun out => out.map (fun c => c.Name)) = some ["A", "abc", "B", "XYZ"] ∧
    ∃ out : List SortedBugzillaComponentResult,
      SummarizeJobsFailuresByBugzillaComponent String.toLower sampleBugzillaReport =
        some out ∧
      out.Perm (sampleBugzillaReport.JobFailuresByBugzillaComponent.map Prod.snd) := by
  have hne : ∀ e ∈ sampleBugzillaReport.JobFailuresByBugzillaComponent,
      e.2.JobsFailed ≠ [] := by decide
  refine ⟨hne, by decide!, ?_⟩
  obtain ⟨out, h1, h2, _⟩ :=
    SummarizeJobsFailuresByBugzillaComponent_sorted String.toLower sampleBugzillaReport hne
  exact ⟨out, h1, h2⟩

/-- A positive rational on the grid of its binade is its own rounding. -/
theorem F64.round_of_grid {q : ℚ} (hq : 0 < q) (m : ℤ)
    (hm : (m : ℚ) = q / 2 ^ F64.ulpExp q) : F64.round q = q := by
  rw [F64.round_of_pos hq, ← hm, F64.rne_intCast, hm]
  exact div_mul_cancel₀ q (F64.two_zpow_pos _).ne'

/-- Integers from `0` to `2^53` are binary64 numbers: their conversion is exact. -/
theorem F64.round_natCast_exact (n : ℕ) (h : n ≤ 2 ^ 53) : F64.round (n : ℚ) = n := by
  rcases Nat.eq_zero_or_pos n with h0 | hpos
  · subst h0
    simpa using F64.round_zero
  have hq : (0 : ℚ) < (n : ℚ) := by exact_mod_cast hpos
  have hspec := F64.ilog2_spec (n : ℚ) hq
  have he0 : 0 ≤ F64.ilog2 (n : ℚ) := by
    apply F64.le_ilog2_of_zpow_le _ hq
    have : (1 : ℚ) ≤ (n : ℚ) := by exact_mod_cast hpos
    simpa using this
  have he53 : F64.ilog2 (n : ℚ) < 54 := by
    apply F64.ilog2_lt_of_lt_zpow _ hq
    have : (n : ℚ) ≤ 2 ^ 53 := by exact_mod_cast h
    have h54 : ((2 : ℚ) ^ (54 : ℤ)) = 2 ^ 54 := by norm_cast
    rw [h54]
    linarith [show ((2 : ℚ) ^ 53) < 2 ^ 54 by norm_num]
  have hp : F64.ulpExp (n : ℚ) = F64.ilog2 (n : ℚ) - 52 := by
    unfold F64.ulpExp
    omega
  rcases le_or_lt (F64.ilog2 (n : ℚ)) 52 with hle | hgt
  · -- the unit in the last place is at most 1
    apply F64.round_of_grid hq ((n : ℤ) * 2 ^ (52 - F64.ilog2 (n : ℚ)).toNat)
    rw [hp]
    push_cast
    rw [← zpow_natCast, Int.toNat_of_nonneg (by omega), div_eq_mul_inv, ← zpow_neg]
    congr 2
    ring
  · -- only `2^53` itself is in this binade
    have he : F64.ilog2 (n : ℚ) = 53 := by omega
    have hn : (n : ℚ) = 2 ^ 53 := by
      have h1 := hspec.1
      rw [he] at h1
      have h53 : ((2 : ℚ) ^ (53 : ℤ)) = 2 ^ 53 := by norm_cast
      rw [h53] at h1
      have : (n : ℚ) ≤ 2 ^ 53 := by exact_mod_cast h
      linarith
    apply F64.round_of_grid hq (2 ^ 52)
    rw [hp, he, hn]
    norm_num

theorem F64.round_one : F64.round 1 = 1 := by decide!

theorem F64.round_hundred : F64.round 100 = 100 := by decide!

/-- `Percent` on two counts whose sum does not overflow. -/
theorem Percent_of_nonneg (s f : ℤ) (hs : 0 ≤ s) (hf : 0 ≤ f) (h : s + f < 2 ^ 63)
    (hne : s + f ≠ 0) :
    Percent s f =
      F64.round (F64.round (F64.round s / F64.round ((s + f : ℤ) : ℚ)) * 100) := by
  unfold Percent
  rw [wrap64_of_range (by norm_num; omega) h, if_neg hne]
  rfl

/-- The conversion of a positive integer is at least `1`. -/
theorem F64.one_le_round_intCast (n : ℤ) (h : 1 ≤ n) : 1 ≤ F64.round (n : ℚ) := by
  have : (1 : ℚ) ≤ (n : ℚ) := by exact_mod_cast h
  have := F64.round_mono this
  rwa [F64.round_one] at this

/-- `Percent` of two counts lies between `0` and `100`. -/
theorem Percent_bounds (s f : ℤ) (hs : 0 ≤ s) (hf : 0 ≤ f) (h : s + f < 2 ^ 63) :
    0 ≤ Percent s f ∧ Percent s f ≤ 100 := by
  by_cases hne : s + f = 0
  · have : Percent s f = 0 := by
      unfold Percent
      rw [hne, wrap64_zero, if_pos rfl]
    rw [this]
    norm_num
  rw [Percent_of_nonneg s f hs hf h hne]
  have hn1 : 1 ≤ s + f := by omega
  have hrn := F64.one_le_round_intCast (s + f) hn1
  have hrs0 : 0 ≤ F64.round (s : ℚ) := F64.round_nonneg (by exact_mod_cast hs)
  have hrsn : F64.round (s : ℚ) ≤ F64.round ((s + f : ℤ) : ℚ) :=
    F64.round_mono (by exact_mod_cast (by omega : s ≤ s + f))
  have hx0 : 0 ≤ F64.round (s : ℚ) / F64.round ((s + f : ℤ) : ℚ) :=
    div_nonneg hrs0 (by linarith)
  have hx1 : F64.round (s : ℚ) / F64.round ((s + f : ℤ) : ℚ) ≤ 1 :=
    (div_le_one (by linarith)).2 hrsn
  have hy0 := F64.round_nonneg hx0
  have hy1 := F64.round_mono hx1
  rw [F64.round_one] at hy1
  constructor
  · exact F64.round_nonneg (by positivity)
  · have : F64.round (F64.round (s : ℚ) / F64.round ((s + f : ℤ) : ℚ)) * 100 ≤ 100 := by
      linarith
    have := F64.round_mono this
    rwa [F64.round_hundred] at this

/-- With the total of the two counts fixed, `Percent` grows with the first count. -/
theorem Percent_mono_fixed_total (s1 f1 s2 f2 : ℤ) (h1 : 0 ≤ s1) (h12 : s1 ≤ s2)
    (hf1 : 0 ≤ f1) (hf2 : 0 ≤ f2) (hsum : s1 + f1 = s2 + f2) (h : s1 + f1 < 2 ^ 63) :
    Percent s1 f1 ≤ Percent s2 f2 := by
  by_cases hne : s1 + f1 = 0
  · have e1 : Percent s1 f1 = 0 := by
      unfold Percent
      rw [hne, wrap64_zero, if_pos rfl]
    rw [e1]
    exact (Percent_bounds s2 f2 (by omega) hf2 (by omega)).1
  rw [Percent_of_nonneg s1 f1 h1 hf1 h hne,
    Percent_of_nonneg s2 f2 (by omega) hf2 (by omega) (by omega), ← hsum]
  have hrn := F64.one_le_round_intCast (s1 + f1) (by omega)
  have hrs : F64.round (s1 : ℚ) ≤ F64.round (s2 : ℚ) :=
    F64.round_mono (by exact_mod_cast h12)
  apply F64.round_mono
  apply mul_le_mul_of_nonneg_right _ (by norm_num)
  apply F64.round_mono
  exact div_le_div_of_nonneg_right hrs (by linarith)

/-- C18 as stated fails: with a negative argument `Percent` is neither increasing in
`success` nor decreasing in `failure`, and beyond `2^53`, where the conversion to
`float64` rounds, it is not increasing in `success` either. -/
theorem Percent_monotone_counterexample :
    ((-3 : ℤ) ≤ -1 ∧ Percent (-3) 2 = 300 ∧ Percent (-1) 2 = -100) ∧
    ((-2 : ℤ) ≤ 0 ∧ Percent 1 (-2) = -100 ∧ Percent 1 0 = 100) ∧
    ((9007199254740992 : ℤ) ≤ 9007199254740993 ∧ Percent 9007199254740992 1 = 100 ∧
      Percent 9007199254740993 1 < 100) := by
  decide!

/-- `Percent` when the Go sum is not zero. -/
theorem Percent_eq_of_ne (s f : ℤ) (h : wrap64 (s + f) ≠ 0) :
    Percent s f =
      F64.round (F64.round (F64.round s / F64.round ((wrap64 (s + f) : ℤ) : ℚ)) * 100) := by
  unfold Percent
  rw [if_neg h]
  rfl

theorem Percent_zero_left (f : ℤ) : Percent 0 f = 0 := by
  by_cases h : wrap64 (0 + f) = 0
  · unfold Percent
    rw [if_pos h]
  · rw [Percent_eq_of_ne 0 f h]
    simp [F64.round_zero]

/-- The conversion of a negative integer is at most `-1`. -/
theorem F64.round_intCast_le_neg_one (n : ℤ) (h : n ≤ -1) : F64.round (n : ℚ) ≤ -1 := by
  have h1 := F64.one_le_round_intCast (-n) (by omega)
  have e : ((-n : ℤ) : ℚ) = -(n : ℚ) := by push_cast; ring
  rw [e, F64.round_neg] at h1
  linarith

/-- `Percent` falls when `failure` grows, for all non-negative values of the `int`
type, also where the Go sum wraps. -/
theorem Percent_anti_failure (s f1 f2 : ℤ) (hs : 0 ≤ s) (hs' : s < 2 ^ 63) (hf1 : 0 ≤ f1)
    (h12 : f1 ≤ f2) (hf2 : f2 < 2 ^ 63) : Percent s f2 ≤ Percent s f1 := by
  norm_num at hs' hf2
  have hw : ∀ f : ℤ, 0 ≤ f → f < 9223372036854775808 →
      (s + f < 9223372036854775808 → wrap64 (s + f) = s + f) ∧
      (9223372036854775808 ≤ s + f →
        wrap64 (s + f) = s + f - 18446744073709551616) := by
    intro f h0 h1
    unfold wrap64
    constructor <;> intro h <;> norm_num <;> omega
  by_cases hz : s + f1 = 0
  · have hs0 : s = 0 := by omega
    rw [hs0, Percent_zero_left, Percent_zero_left]
  have ha : 0 ≤ F64.round (s : ℚ) := F64.round_nonneg (by exact_mod_cast hs)
  have hne1 : wrap64 (s + f1) ≠ 0 := by
    rcases lt_or_le (s + f1) 9223372036854775808 with h | h
    · rw [(hw f1 hf1 (by omega)).1 h]; exact hz
    · rw [(hw f1 hf1 (by omega)).2 h]; omega
  have hne2 : wrap64 (s + f2) ≠ 0 := by
    rcases lt_or_le (s + f2) 9223372036854775808 with h | h
    · rw [(hw f2 (by omega) hf2).1 h]; omega
    · rw [(hw f2 (by omega) hf2).2 h]; omega
  rw [Percent_eq_of_ne s f1 hne1, Percent_eq_of_ne s f2 hne2]
  apply F64.round_mono
  apply mul_le_mul_of_nonneg_right _ (by norm_num)
  apply F64.round_mono
  rcases lt_or_le (s + f2) 9223372036854775808 with h2 | h2
  · -- neither sum wraps
    have e1 := (hw f1 hf1 (by omega)).1 (by omega)
    have e2 := (hw f2 (by omega) hf2).1 h2
    rw [e1, e2]
    have hd1 := F64.one_le_round_intCast (s + f1) (by omega)
    have hd : F64.round ((s + f1 : ℤ) : ℚ) ≤ F64.round ((s + f2 : ℤ) : ℚ) :=
      F64.round_mono (by exact_mod_cast (by omega : s + f1 ≤ s + f2))
    exact div_le_div_of_nonneg_left ha (by linarith) hd
  · have e2 := (hw f2 (by omega) hf2).2 h2
    have hd2 := F64.round_intCast_le_neg_one (wrap64 (s + f2)) (by rw [e2]; omega)
    rcases lt_or_le (s + f1) 9223372036854775808 with h1 | h1
    · -- only the greater sum wraps: the quotients have opposite signs
      have e1 := (hw f1 hf1 (by omega)).1 h1
      have hd1 := F64.one_le_round_intCast (wrap64 (s + f1)) (by rw [e1]; omega)
      have q2 : F64.round (s : ℚ) / F64.round ((wrap64 (s + f2) : ℤ) : ℚ) ≤ 0 :=
        div_nonpos_of_nonneg_of_nonpos ha (by linarith)
      have q1 : 0 ≤ F64.round (s : ℚ) / F64.round ((wrap64 (s + f1) : ℤ) : ℚ) :=
        div_nonneg ha (by linarith)
      linarith
    · -- both sums wrap: both divisors are negative
      have e1 := (hw f1 hf1 (by omega)).2 h1
      have hd1 := F64.round_intCast_le_neg_one (wrap64 (s + f1)) (by rw [e1]; omega)
      have hd : F64.round ((wrap64 (s + f1) : ℤ) : ℚ) ≤
          F64.round ((wrap64 (s + f2) : ℤ) : ℚ) :=
        F64.round_mono (by exact_mod_cast (by rw [e1, e2]; omega :
          wrap64 (s + f1) ≤ wrap64 (s + f2)))
      rw [div_eq_mul_inv, div_eq_mul_inv]
      apply mul_le_mul_of_nonneg_left _ ha
      exact (inv_le_inv_of_neg (by linarith) (by linarith)).2 hd

/-- `Percent` grows with `success` as long as the greater sum is at most `2^53 + 1`. -/
theorem Percent_mono_success (s1 s2 f : ℤ) (h0 : 0 ≤ s1) (h12 : s1 ≤ s2) (hf : 0 ≤ f)
    (hb : s2 + f ≤ 2 ^ 53 + 1) : Percent s1 f ≤ Percent s2 f := by
  norm_num at hb
  have hexact : ∀ n : ℤ, 0 ≤ n → n ≤ 9007199254740992 → F64.round (n : ℚ) = n := by
    intro n h0 h1
    obtain ⟨k, rfl⟩ := Int.eq_ofNat_of_zero_le h0
    have := F64.round_natCast_exact k (by norm_num; exact_mod_cast h1)
    exact_mod_cast this
  have hform : ∀ s f : ℤ, 0 ≤ s → 0 ≤ f → s + f ≤ 9007199254740992 → s + f ≠ 0 →
      Percent s f = F64.round (F64.round ((s : ℚ) / ((s + f : ℤ) : ℚ)) * 100) := by
    intro s f hs hf hb hne
    rw [Percent_of_nonneg s f hs hf (by norm_num; omega) hne,
      hexact s hs (by omega), hexact (s + f) (by omega) hb]
  by_cases hne : s1 + f = 0
  · have e1 : Percent s1 f = 0 := by
      unfold Percent
      rw [hne, wrap64_zero, if_pos rfl]
    rw [e1]
    exact (Percent_bounds s2 f (by omega) hf (by norm_num; omega)).1
  rcases eq_or_lt_of_le h12 with he | hlt
  · rw [he]
  rcases le_or_lt (s2 + f) 9007199254740992 with hle | hgt
  · -- all conversions are exact
    rw [hform s1 f h0 hf (by omega) hne, hform s2 f (by omega) hf hle (by omega)]
    apply F64.round_mono
    apply mul_le_mul_of_nonneg_right _ (by norm_num)
    apply F64.round_mono
    have p1 : (0 : ℚ) < ((s1 + f : ℤ) : ℚ) := by exact_mod_cast (by omega : 0 < s1 + f)
    have p2 : (0 : ℚ) < ((s2 + f : ℤ) : ℚ) := by exact_mod_cast (by omega : 0 < s2 + f)
    rw [div_le_div_iff₀ p1 p2]
    have hs : (s1 : ℚ) ≤ (s2 : ℚ) := by exact_mod_cast h12
    have hf' : (0 : ℚ) ≤ (f : ℚ) := by exact_mod_cast hf
    push_cast
    nlinarith
  · -- the greater sum is `2^53 + 1`, which converts to `2^53`
    have hsum : s2 + f = 9007199254740993 := by omega
    have hr : F64.round ((9007199254740993 : ℤ) : ℚ) = 9007199254740992 := by decide!
    rw [hform s1 f h0 hf (by omega) hne,
      Percent_of_nonneg s2 f (by omega) hf (by norm_num; omega) (by omega), hsum, hr]
    rcases eq_or_lt_of_le hf with hf0 | hfpos
    · -- no failure: the greater value is `100`
      have hs2 : s2 = 9007199254740993 := by omega
      rw [hs2, hr]
      have e : F64.round (F64.round ((9007199254740992 : ℚ) / 9007199254740992) * 100) =
          100 := by decide!
      rw [e]
      have b := (Percent_bounds s1 f h0 hf (by norm_num; omega)).2
      rw [hform s1 f h0 hf (by omega) hne] at b
      exact b
    · rw [hexact s2 (by omega) (by omega)]
      apply F64.round_mono
      apply mul_le_mul_of_nonneg_right _ (by norm_num)
      apply F64.round_mono
      have p1 : (0 : ℚ) < ((s1 + f : ℤ) : ℚ) := by exact_mod_cast (by omega : 0 < s1 + f)
      rw [div_le_div_iff₀ p1 (by norm_num)]
      have hs2 : (s2 : ℚ) = 9007199254740993 - (f : ℚ) := by
        have : s2 = 9007199254740993 - f := by omega
        rw [this]
        push_cast
        ring
      have hs : (s1 : ℚ) + 1 ≤ (s2 : ℚ) := by exact_mod_cast (by omega : s1 + 1 ≤ s2)
      have hf' : (1 : ℚ) ≤ (f : ℚ) := by exact_mod_cast (by omega : 1 ≤ f)
      have hs1 : (0 : ℚ) ≤ (s1 : ℚ) := by exact_mod_cast h0
      push_cast
      nlinarith

/-- C18 (amended): for non-negative `success` and `failure` (values of the `int` type),
`Percent` is monotonic decreasing in `failure` with `success` fixed; it is monotonic
increasing in `success` with `failure` fixed when the sum of the greater `success` and
`failure` is at most `2^53 + 1`, the last sum before the conversion to `float64` rounds
the operands apart. -/
theorem Percent_monotone :
    (∀ success1 success2 failure : ℤ, 0 ≤ success1 → success1 ≤ success2 → 0 ≤ failure →
      success2 + failure ≤ 2 ^ 53 + 1 →
      Percent success1 failure ≤ Percent success2 failure) ∧
    (∀ success failure1 failure2 : ℤ, 0 ≤ success → success < 2 ^ 63 → 0 ≤ failure1 →
      failure1 ≤ failure2 → failure2 < 2 ^ 63 →
      Percent success failure1 ≥ Percent success failure2) :=
  ⟨Percent_mono_success, Percent_anti_failure⟩

theorem Percent_monotone_witness :
    Percent 1 2 ≤ Percent 7 2 ∧ Percent 7 3 ≥ Percent 7 5 ∧
    Percent 9007199254740991 1 ≤ Percent 9007199254740992 1 ∧
    Percent 9223372036854775807 0 ≥ Percent 9223372036854775807 1 :=
  ⟨Percent_monotone.1 1 7 2 (by decide) (by decide) (by decide) (by decide),
   Percent_monotone.2 7 3 5 (by decide) (by decide) (by decide) (by decide) (by decide),
   Percent_monotone.1 9007199254740991 9007199254740992 1 (by decide) (by decide)
     (by decide) (by decide),
   Percent_monotone.2 9223372036854775807 0 1 (by decide) (by decide) (by decide)
     (by decide) (by decide)⟩

/-- The percentages of a converted job over its counters, for a run list of a length a
Go slice can have: the two argument expressions do not wrap. -/
theorem convert_percent_fields (rawJobResult : RawJobResult)
    (byJob : String → List TestResult) (bugCache : BugCache) (release : String)
    (hlen : rawJobResult.JobRunResults.length < 2 ^ 63) :
    (convertRawJobResultToProcessedJobResult rawJobResult byJob bugCache
        release).PassPercentage =
      percent
        (convertRawJobResultToProcessedJobResult rawJobResult byJob bugCache
          release).Successes
        (convertRawJobResultToProcessedJobResult rawJobResult byJob bugCache
          release).Failures ∧
    (convertRawJobResultToProcessedJobResult rawJobResult byJob bugCache
        release).PassPercentageWithKnownFailures =
      percent
        ((convertRawJobResultToProcessedJobResult rawJobResult byJob bugCache
            release).Successes +
          (convertRawJobResultToProcessedJobResult rawJobResult byJob bugCache
            release).KnownFailures)
        ((convertRawJobResultToProcessedJobResult rawJobResult byJob bugCache
            release).Failures -
          (convertRawJobResultToProcessedJobResult rawJobResult byJob bugCache
            release).KnownFailures) := by
  obtain ⟨hS, hF, hK⟩ := convert_counts rawJobResult byJob bugCache release hlen
  have hKF := countP_known_le_failed bugCache release rawJobResult.JobRunResults
  have hSF := countP_succ_add_failed_le rawJobResult.JobRunResults
  refine ⟨rfl, ?_⟩
  have hPK : (convertRawJobResultToProcessedJobResult rawJobResult byJob bugCache
        release).PassPercentageWithKnownFailures =
      percent
        (wrap64 ((convertRawJobResultToProcessedJobResult rawJobResult byJob bugCache
            release).Successes +
          (convertRawJobResultToProcessedJobResult rawJobResult byJob bugCache
            release).KnownFailures))
        (wrap64 ((convertRawJobResultToProcessedJobResult rawJobResult byJob bugCache
            release).Failures -
          (convertRawJobResultToProcessedJobResult rawJobResult byJob bugCache
            release).KnownFailures)) := rfl
  rw [hPK, wrap64_of_range (by rw [hS, hK]; norm_num; omega)
      (by rw [hS, hK]; norm_num; omega),
    wrap64_of_range (by rw [hF, hK]; norm_num; omega) (by rw [hF, hK]; norm_num; omega)]

/-- C20: the converted job has `0 <= KnownFailures <= Failures` (so the failure argument
`Failures - KnownFailures` of the second percentage is not negative),
`PassPercentageWithKnownFailures >= PassPercentage`, and both percentages between `0`
and `100`. -/
theorem convert_invariants (rawJobResult : RawJobResult)
    (byJob : String → List TestResult) (bugCache : BugCache) (release : String)
    (job : JobResult)
    (hjob : job = convertRawJobResultToProcessedJobResult rawJobResult byJob bugCache release)
    (hlen : rawJobResult.JobRunResults.length < 2 ^ 63) :
    0 ≤ job.KnownFailures ∧ job.KnownFailures ≤ job.Failures ∧
    0 ≤ job.Failures - job.KnownFailures ∧
    job.PassPercentageWithKnownFailures ≥ job.PassPercentage ∧
    0 ≤ job.PassPercentage ∧ job.PassPercentage ≤ 100 ∧
    0 ≤ job.PassPercentageWithKnownFailures ∧
    job.PassPercentageWithKnownFailures ≤ 100 := by
  obtain ⟨hS, hF, hK⟩ := convert_counts rawJobResult byJob bugCache release hlen
  obtain ⟨hPP, hPK⟩ := convert_percent_fields rawJobResult byJob bugCache release hlen
  rw [← hjob] at hS hF hK hPP hPK
  have hKF := countP_known_le_failed bugCache release rawJobResult.JobRunResults
  have hSF := countP_succ_add_failed_le rawJobResult.JobRunResults
  have hS0 : 0 ≤ job.Successes := by rw [hS]; exact Int.natCast_nonneg _
  have hK0 : 0 ≤ job.KnownFailures := by rw [hK]; exact Int.natCast_nonneg _
  have hKF' : job.KnownFailures ≤ job.Failures := by rw [hK, hF]; exact_mod_cast hKF
  have hsum : job.Successes + job.Failures < 2 ^ 63 := by
    rw [hS, hF]
    norm_num
    omega
  have b1 := Percent_bounds job.Successes job.Failures hS0 (by omega) hsum
  have b2 := Percent_bounds (job.Successes + job.KnownFailures)
    (job.Failures - job.KnownFailures) (by omega) (by omega) (by omega)
  have m := Percent_mono_fixed_total job.Successes job.Failures
    (job.Successes + job.KnownFailures) (job.Failures - job.KnownFailures) hS0 (by omega)
    (by omega) (by omega) (by omega) hsum
  rw [hPP, hPK]
  exact ⟨hK0, hKF', by omega, m, b1.1, b1.2, b2.1, b2.2⟩

theorem convert_invariants_witness :
    sampleRawJob.JobRunResults.length < 2 ^ 63 ∧
    (convertRawJobResultToProcessedJobResult sampleRawJob (fun _ => []) sampleBugCache
        "4.6").PassPercentageWithKnownFailures ≥
      (convertRawJobResultToProcessedJobResult sampleRawJob (fun _ => []) sampleBugCache
        "4.6").PassPercentage :=
  ⟨by decide,
   (convert_invariants sampleRawJob (fun _ => []) sampleBugCache "4.6" _ rfl
      (by decide)).2.2.2.1⟩

end Sippy
